import Mathlib

/-!
# golog: the segmented commit log

A shallow embedding of the storage engine of the repository: the store
(`internal/repository/file`), the index (`internal/service/index`), the segment
(`internal/service/segment`) and the log (`internal/service/log`).

Conventions of the embedding.

* A byte is a natural number; the encoders only ever produce values below 256.
* `uint64` offsets are naturals reduced modulo `2 ^ 64` wherever the source
  computes with them, the `uint32` relative offset modulo `2 ^ 32`.
* A file is the list of its bytes.  Errors of the operating system (a failing
  `open`, `write`, `truncate`, `mmap`) are not modelled: every system call succeeds.
* A Go method that mutates its receiver returns the new receiver next to its results.
-/

namespace Golog

/-- A byte of a file, of a buffer or of the mapping. -/
abbrev Byte := Nat

/-! ## encoding/binary, big endian -/

/-- The method `binary.BigEndian.PutUint32`: the four bytes of `v`, most significant first. -/
def putUint32 (v : Nat) : List Byte :=
  [v / 2 ^ 24 % 256, v / 2 ^ 16 % 256, v / 2 ^ 8 % 256, v % 256]

/-- The method `binary.BigEndian.PutUint64`: the eight bytes of `v`, most significant first. -/
def putUint64 (v : Nat) : List Byte :=
  [v / 2 ^ 56 % 256, v / 2 ^ 48 % 256, v / 2 ^ 40 % 256, v / 2 ^ 32 % 256,
   v / 2 ^ 24 % 256, v / 2 ^ 16 % 256, v / 2 ^ 8 % 256, v % 256]

/-- Big-endian value of a byte string: `binary.BigEndian.Uint32` on four bytes,
`binary.BigEndian.Uint64` on eight. -/
def beValue (b : List Byte) : Nat :=
  b.foldl (fun acc x => acc * 256 + x) 0

/-- The method `binary.BigEndian.Uint32`. -/
def Uint32 (b : List Byte) : Nat := beValue (b.take 4)

/-- The method `binary.BigEndian.Uint64`. -/
def Uint64 (b : List Byte) : Nat := beValue (b.take 8)

/-! ## Errors -/

/-- The error values the storage engine produces.  `Panic` stands for a run-time
panic of the Go program (a slice bound out of range, an index out of range, a nil
dereference), `Closed` for `os.ErrClosed` (the use of a file that has been closed),
`NotExist` for `fs.ErrNotExist` (no directory at the path). -/
inductive Err where
  | EOF
  | ErrOffsetOutOfRange (Offset : Nat)
  | Marshal
  | Unmarshal
  | Panic
  | Closed
  | NotExist
deriving DecidableEq, Repr

/-! ## Configuration (`internal/service/config`) -/

/-- The struct `config.Config`, flattened (its only member is `Segment`). -/
structure Config where
  MaxStoreBytes : Nat
  MaxIndexBytes : Nat
  InitialOffset : Nat
deriving DecidableEq, Repr

/-! ## Store (`internal/repository/file`) -/

/-- The constant `lenWidth`. -/
def lenWidth : Nat := 8

/-- Default size of the buffer of a `bufio.Writer` (`bufio.NewWriter`). -/
def bufioSize : Nat := 4096

/-- The struct `FileStorage`: `file` is the content of the underlying `*os.File`,
`buf` the bytes held back by the `bufio.Writer`, `Size` the field `Size`. -/
structure FileStorage where
  file : List Byte
  buf : List Byte
  Size : Nat
deriving DecidableEq, Repr

/-- The function `filerepo.New` on a file whose content is `f`. -/
def FileStorage.New (f : List Byte) : FileStorage :=
  { file := f, buf := [], Size := f.length }

/-- The method `bufio.Writer.Write` of the standard library: bytes that fit into the
free part of the buffer stay there; otherwise the buffer is filled and flushed, and
what is left is buffered when it fits an empty buffer and written through when not. -/
def FileStorage.bufWrite (s : FileStorage) (p : List Byte) : FileStorage :=
  if p.length ≤ bufioSize - s.buf.length then
    { s with buf := s.buf ++ p }
  else if s.buf.length = 0 then
    { s with file := s.file ++ p }
  else
    let n := bufioSize - s.buf.length
    let rest := p.drop n
    if rest.length ≤ bufioSize then
      { s with file := s.file ++ (s.buf ++ p.take n), buf := rest }
    else
      { s with file := s.file ++ (s.buf ++ p.take n) ++ rest, buf := [] }

/-- The method `bufio.Writer.Flush`. -/
def FileStorage.Flush (s : FileStorage) : FileStorage :=
  { s with file := s.file ++ s.buf, buf := [] }

/-- The method `FileStorage.Append`: returns the store, the number of bytes written
and the position of the record. -/
def FileStorage.Append (s : FileStorage) (p : List Byte) : FileStorage × Nat × Nat :=
  let pos := s.Size
  let s1 := s.bufWrite (putUint64 p.length)
  let s2 := s1.bufWrite p
  let w := p.length + lenWidth
  ({ s2 with Size := s.Size + w }, w, pos)

/-- The method `os.File.ReadAt` for a buffer of `n` bytes: all `n` bytes starting at
`off`, or `io.EOF` when the file ends before; an empty buffer is always read. -/
def readAt (file : List Byte) (n off : Nat) : Except Err (List Byte) :=
  if n = 0 then .ok []
  else if off + n ≤ file.length then .ok ((file.drop off).take n)
  else .error Err.EOF

/-- The method `FileStorage.Read`: flushes the writer, reads the length at `pos`
and then the body. -/
def FileStorage.Read (s : FileStorage) (pos : Nat) : FileStorage × Except Err (List Byte) :=
  let s1 := s.Flush
  match readAt s1.file lenWidth pos with
  | .error e => (s1, .error e)
  | .ok size =>
    match readAt s1.file (Uint64 size) (pos + lenWidth) with
    | .error e => (s1, .error e)
    | .ok body => (s1, .ok body)

/-- The method `Close` of a `FileStorage` is the one promoted from the embedded
`*os.File`: the file is closed as it is, the `bufio.Writer` is not consulted.  The
result is the content the file is left with. -/
def FileStorage.Close (s : FileStorage) : List Byte := s.file

/-! ## Index (`internal/service/index`) -/

/-- The constant `offWidth`. -/
def offWidth : Nat := 4
/-- The constant `posWidth`. -/
def posWidth : Nat := 8
/-- The constant `entWidth`. -/
def entWidth : Nat := offWidth + posWidth

/-- The struct `Index`: `mmap` is the shared mapping of the index file (so also the
content of that file while it is open), `Size` the field `Size`. -/
structure Index where
  mmap : List Byte
  Size : Nat
deriving DecidableEq, Repr

/-- The function `index.New` on a file whose content is `f`: `Size` is the size found,
the file is truncated (cut or padded with zero bytes) to `MaxIndexBytes` and mapped. -/
def Index.New (f : List Byte) (c : Config) : Index :=
  { mmap := (f ++ List.replicate (c.MaxIndexBytes - f.length) 0).take c.MaxIndexBytes,
    Size := f.length }

/-- The conversion `uint32(in)` of an `int64`. -/
def toUint32 (i : Int) : Nat := (i % 2 ^ 32).toNat

/-- The conversion `int64(x)` of a `uint64`. -/
def toInt64 (x : Nat) : Int := if x < 2 ^ 63 then (x : Int) else (x : Int) - 2 ^ 64

/-- The method `Index.Read`.  The slice expressions `mmap[pos : pos+offWidth]` and
`mmap[pos+offWidth : pos+entWidth]` panic when they reach beyond the mapping. -/
def Index.Read (self : Index) (i : Int) : Except Err (Nat × Nat) :=
  if self.Size = 0 then .error Err.EOF
  else
    let out : Nat :=
      if i = -1 then ((self.Size / entWidth + 2 ^ 64 - 1) % 2 ^ 64) % 2 ^ 32
      else toUint32 i
    let pos := out * entWidth
    if pos > self.Size then .error Err.EOF
    else if self.mmap.length < pos + entWidth then .error Err.Panic
    else
      .ok (Uint32 ((self.mmap.drop pos).take offWidth),
           Uint64 ((self.mmap.drop (pos + offWidth)).take posWidth))

/-- The method `Index.Write`: the index after the call and the error returned. -/
def Index.Write (self : Index) (off pos : Nat) : Index × Option Err :=
  if self.mmap.length < self.Size + entWidth then (self, some Err.EOF)
  else
    ({ mmap := self.mmap.take self.Size ++ (putUint32 off ++ putUint64 pos)
                ++ self.mmap.drop (self.Size + entWidth),
       Size := self.Size + entWidth }, none)

/-- The method `Index.Close`: the mapping is synced and the file truncated to `Size`;
the result is the content the index file is left with. -/
def Index.Close (self : Index) : List Byte :=
  (self.mmap ++ List.replicate (self.Size - self.mmap.length) 0).take self.Size

/-! ## Records (`gen/go/v1`) -/

/-- The message `v1.Record`: an opaque value and the offset assigned to it. -/
structure Record where
  Value : List Byte
  Offset : Nat
deriving DecidableEq, Repr

/-- The record envelope: `proto.Marshal` and `proto.Unmarshal` for `v1.Record`.  The
generated code is not part of the sources, so both directions are parameters. -/
structure Codec where
  marshal : Record → Option (List Byte)
  unmarshal : List Byte → Option Record

/-- Decode inverts encode: whatever `marshal` produces for a record with a `uint64`
offset is shorter than `2 ^ 64` bytes and is decoded to that record. -/
def Codec.Lawful (cd : Codec) : Prop :=
  ∀ r p, r.Offset < 2 ^ 64 → cd.marshal r = some p →
    p.length < 2 ^ 64 ∧ cd.unmarshal p = some r

/-! ## Segment (`internal/service/segment`) -/

/-- The struct `Segment`. -/
structure Segment where
  Store : FileStorage
  index : Index
  BaseOffset : Nat
  NextOffset : Nat
  config : Config
deriving DecidableEq, Repr

/-- The function `segment.New`, from the point where the two files are open:
`storeFile` and `indexFile` are their contents (empty when just created).  A panic of
`index.Read` aborts; any error it returns leaves `NextOffset` at the base offset. -/
def Segment.New (storeFile indexFile : List Byte) (baseOffset : Nat) (c : Config) :
    Except Err Segment :=
  let store := FileStorage.New storeFile
  let idx := Index.New indexFile c
  match idx.Read (-1) with
  | .error Err.Panic => .error Err.Panic
  | .error _ =>
    .ok { Store := store, index := idx, BaseOffset := baseOffset,
          NextOffset := baseOffset, config := c }
  | .ok (off, _) =>
    .ok { Store := store, index := idx, BaseOffset := baseOffset,
          NextOffset := (baseOffset + off + 1) % 2 ^ 64, config := c }

/-- The method `Segment.Append`: the segment after the call, the offset and the error
returned.  The store keeps the bytes of a record whose index entry could not be
written. -/
def Segment.Append (cd : Codec) (self : Segment) (r : Record) : Segment × Nat × Option Err :=
  let cur := self.NextOffset
  match cd.marshal { r with Offset := cur } with
  | none => (self, 0, some Err.Marshal)
  | some p =>
    let (store, _, pos) := self.Store.Append p
    match self.index.Write (((self.NextOffset + 2 ^ 64 - self.BaseOffset) % 2 ^ 64) % 2 ^ 32) pos with
    | (_, some e) => ({ self with Store := store }, 0, some e)
    | (idx, none) =>
      ({ self with Store := store, index := idx, NextOffset := (self.NextOffset + 1) % 2 ^ 64 },
       cur, none)

/-- The method `Segment.Read`: the segment after the call (its store was flushed
unless the index lookup failed) and the record or error returned. -/
def Segment.Read (cd : Codec) (self : Segment) (off : Nat) : Segment × Except Err Record :=
  match self.index.Read (toInt64 ((off + 2 ^ 64 - self.BaseOffset) % 2 ^ 64)) with
  | .error e => (self, .error e)
  | .ok (_, pos) =>
    match self.Store.Read pos with
    | (store, .error e) => ({ self with Store := store }, .error e)
    | (store, .ok p) =>
      match cd.unmarshal p with
      | none => ({ self with Store := store }, .error Err.Unmarshal)
      | some record => ({ self with Store := store }, .ok record)

/-- The method `Segment.IsMaxed`. -/
def Segment.IsMaxed (self : Segment) : Bool :=
  decide (self.Store.Size ≥ self.config.MaxStoreBytes) ||
    decide (self.index.Size ≥ self.config.MaxIndexBytes)

/-! ## The directory of a log -/

/-- A file name, as the list of its characters. -/
abbrev FileName := List Char

/-- A directory: the files in it, by name, with their contents. -/
abbrev Directory := List (FileName × List Byte)

/-- The decimal digit `d` as a character. -/
def digitChar (d : Nat) : Char := Char.ofNat (48 + d)

/-- Decimal digits of `n` in front of `acc`; `fuel` bounds the number of digits. -/
def fmtUintAux : Nat → Nat → List Char → List Char
  | 0, _, acc => acc
  | fuel + 1, n, acc =>
    if n < 10 then digitChar n :: acc
    else fmtUintAux fuel (n / 10) (digitChar (n % 10) :: acc)

/-- The format `%d` of `fmt.Sprintf` for a `uint64`. -/
def fmtUint (n : Nat) : List Char := fmtUintAux (n + 1) n []

/-- Name of the store file of the segment with base offset `base`. -/
def storeName (base : Nat) : FileName := fmtUint base ++ ".store".toList

/-- Name of the index file of the segment with base offset `base`. -/
def indexName (base : Nat) : FileName := fmtUint base ++ ".index".toList

/-- The loop of `path.Ext` over the reversed name: `acc` is the part already passed. -/
def pathExtAux : List Char → List Char → List Char
  | [], _ => []
  | c :: rest, acc =>
    if c = '/' then []
    else if c = '.' then '.' :: acc
    else pathExtAux rest (c :: acc)

/-- The function `path.Ext`: the suffix beginning at the last dot of the last element
of the path, empty when there is no dot. -/
def pathExt (name : List Char) : List Char := pathExtAux name.reverse []

/-- The function `strings.TrimSuffix`. -/
def TrimSuffix (s suffix : List Char) : List Char :=
  if suffix.isSuffixOf s then s.take (s.length - suffix.length) else s

/-- Value of a decimal digit, `none` for any other character. -/
def digitVal (c : Char) : Option Nat :=
  if 48 ≤ c.toNat ∧ c.toNat ≤ 57 then some (c.toNat - 48) else none

/-- Value of a string of decimal digits read after the value `acc`. -/
def parseDigits : List Char → Nat → Option Nat
  | [], acc => some acc
  | c :: cs, acc =>
    match digitVal c with
    | none => none
    | some d => parseDigits cs (acc * 10 + d)

/-- The value `strconv.ParseUint(s, 10, 0)` returns next to its error, which `New`
drops: 0 for a string that is no number, the largest `uint64` for one out of range. -/
def ParseUint (s : List Char) : Nat :=
  match s with
  | [] => 0
  | _ =>
    match parseDigits s 0 with
    | none => 0
    | some n => if n < 2 ^ 64 then n else 2 ^ 64 - 1

/-- The call `os.OpenFile` with `O_CREATE`: the content of the file of that name (empty
when it is created) and the directory without it; the open file is held by its
segment. -/
def openFile (dir : Directory) (name : FileName) : List Byte × Directory :=
  ((dir.lookup name).getD [], dir.eraseP (fun e => e.1 == name))

/-- The first part of `segment.New`: the two files of the segment are opened (created
when absent) in `dir`, then the segment is built on them. -/
def Segment.Open (dir : Directory) (baseOffset : Nat) (c : Config) : Except Err (Segment × Directory) :=
  let (storeFile, dir1) := openFile dir (storeName baseOffset)
  let (indexFile, dir2) := openFile dir1 (indexName baseOffset)
  match Segment.New storeFile indexFile baseOffset c with
  | .error e => .error e
  | .ok s => .ok (s, dir2)

/-- The method `Segment.Close`: the index is closed, then the store; the result is the
two files as they are left in the directory. -/
def Segment.Close (self : Segment) : Directory :=
  [(indexName self.BaseOffset, self.index.Close), (storeName self.BaseOffset, self.Store.Close)]

/-! ## Log (`internal/service/log`) -/

/-- The struct `Log`.  The pointer `activeSegment` always refers to the segment created
last, and only that segment is ever written; it is the last element of the slice
`segments` until `Truncate` drops it from the slice.  So the slice is kept as `sealed`
(its elements other than the active segment) and `activeListed` (whether the active
segment is its last element).  `Dir` holds the files of the directory that no segment
of the log has open. -/
structure Log where
  Dir : Directory
  Config : Config
  sealed : List Segment
  activeSegment : Segment
  activeListed : Bool
deriving DecidableEq, Repr

/-- The field `segments` of the log. -/
def Log.segments (self : Log) : List Segment :=
  if self.activeListed then self.sealed ++ [self.activeSegment] else self.sealed

/-- The method `Log.newSegment` on a log with the fields `dir`, `c` and `segments`
(in `New` the log has no active segment yet): the new segment is appended to the
slice and made active. -/
def newSegmentAt (dir : Directory) (c : Config) (segments : List Segment) (baseOffset : Nat) :
    Except Err Log :=
  match Segment.Open dir baseOffset c with
  | .error e => .error e
  | .ok (s, dir1) =>
    .ok { Dir := dir1, Config := c, sealed := segments, activeSegment := s, activeListed := true }

/-- The method `Log.newSegment`: the log after the call and the error returned. -/
def Log.newSegment (self : Log) (baseOffset : Nat) : Log × Option Err :=
  match newSegmentAt self.Dir self.Config self.segments baseOffset with
  | .error e => (self, some e)
  | .ok l => (l, none)

/-- The base offsets `New` collects: the stem of every file name parsed as a number,
then sorted.  (`os.ReadDir` lists by file name; the order is lost in the sort.) -/
def baseOffsets (dir : Directory) : List Nat :=
  (dir.map (fun e => ParseUint (TrimSuffix e.1 (pathExt e.1)))).insertionSort (fun a b => a ≤ b)

/-- The indices the loop `for i := 0; i < len(baseOffsets); i++ { ...; i++ }` of `New`
visits: every other element, beginning with the first. -/
def everyOther : List Nat → List Nat
  | [] => []
  | [a] => [a]
  | a :: _ :: rest => a :: everyOther rest

/-- The loop of `New` that creates a segment for each offset visited; the state is the
log built so far, `none` as long as it has no segment. -/
def New.loop (dir : Directory) (c : Config) : Option Log → List Nat → Except Err (Option Log)
  | st, [] => .ok st
  | st, b :: bs =>
    let r :=
      match st with
      | none => newSegmentAt dir c [] b
      | some l => newSegmentAt l.Dir l.Config l.segments b
    match r with
    | .error e => .error e
    | .ok l => New.loop dir c (some l) bs

/-- The head of `New`: a limit configured as zero is set to 1024. -/
def Config.withDefaults (c : Config) : Config :=
  let c1 := if c.MaxStoreBytes = 0 then { c with MaxStoreBytes := 1024 } else c
  if c1.MaxIndexBytes = 0 then { c1 with MaxIndexBytes := 1024 } else c1

/-- The function `New` of the log on the directory `dir`. -/
def Log.New (dir : Directory) (c : Golog.Config) : Except Err Log :=
  let c2 := c.withDefaults
  match New.loop dir c2 none (everyOther (baseOffsets dir)) with
  | .error e => .error e
  | .ok (some l) => .ok l
  | .ok none => newSegmentAt dir c2 [] c2.InitialOffset

/-- The method `Log.Append`: the log after the call, the offset and the error
returned.  The method looks at no state of the files: on an active segment that
`Truncate` has removed (closed, files gone) it runs like on any other, and so it does
here.  (In Go the write buffer or the truncated mapping of such a segment may also
refuse the write or fault; the offsets are then what they were.) -/
def Log.Append (cd : Codec) (self : Log) (record : Record) : Log × Nat × Option Err :=
  match self.activeSegment.Append cd record with
  | (seg, _, some e) => ({ self with activeSegment := seg }, 0, some e)
  | (seg, off, none) =>
    let l1 := { self with activeSegment := seg }
    if seg.IsMaxed then
      let (l2, err) := l1.newSegment ((off + 1) % 2 ^ 64)
      (l2, off, err)
    else (l1, off, none)

/-- The body of `Log.Read` once the scan has stopped at the segment `s`. -/
def readSegment (cd : Codec) (s : Segment) (offset : Nat) : Segment × Except Err Record :=
  if offset < s.BaseOffset then (s, .error (Err.ErrOffsetOutOfRange offset))
  else s.Read cd offset

/-- The scan of `Log.Read` over a part of the slice: the first segment with
`BaseOffset <= offset && offset < NextOffset` is read (its store is flushed by that);
`none` when no segment of this part matches. -/
def readScan (cd : Codec) (offset : Nat) : List Segment → Option (List Segment × Except Err Record)
  | [] => none
  | s :: rest =>
    if s.BaseOffset ≤ offset ∧ offset < s.NextOffset then
      some ((readSegment cd s offset).1 :: rest, (readSegment cd s offset).2)
    else
      match readScan cd offset rest with
      | none => none
      | some (rest1, r) => some (s :: rest1, r)

/-- The method `Log.Read`: the log after the call and the record or error returned. -/
def Log.Read (cd : Codec) (self : Log) (offset : Nat) : Log × Except Err Record :=
  match readScan cd offset self.sealed with
  | some (sealed1, r) => ({ self with sealed := sealed1 }, r)
  | none =>
    if self.activeListed = true ∧ self.activeSegment.BaseOffset ≤ offset
        ∧ offset < self.activeSegment.NextOffset then
      ({ self with activeSegment := (readSegment cd self.activeSegment offset).1 },
       (readSegment cd self.activeSegment offset).2)
    else (self, .error (Err.ErrOffsetOutOfRange offset))

/-- The method `Log.Close`: every segment of the slice is closed; the result is the
directory as it is left. -/
def Log.Close (self : Log) : Directory :=
  self.Dir ++ (self.segments.map Segment.Close).flatten

/-- The method `Log.LowestOffset`; indexing an empty slice panics. -/
def Log.LowestOffset (self : Log) : Except Err Nat :=
  match self.segments with
  | [] => .error Err.Panic
  | s :: _ => .ok s.BaseOffset

/-- The method `Log.HighestOffset`; indexing an empty slice panics. -/
def Log.HighestOffset (self : Log) : Except Err Nat :=
  match self.segments.getLast? with
  | none => .error Err.Panic
  | some s => if s.NextOffset = 0 then .ok 0 else .ok (s.NextOffset - 1)

/-- The condition `s.NextOffset <= lowest+1` of `Log.Truncate`, in `uint64`. -/
def truncated (lowest : Nat) (s : Segment) : Bool :=
  decide (s.NextOffset ≤ (lowest + 1) % 2 ^ 64)

/-- The method `Log.Truncate`: the segments with `NextOffset <= lowest+1` are closed
and removed with their files, the others kept in order.  `activeSegment` is not
reassigned.  (`Segment.Remove` fails on errors of the operating system only, so the
error returned is always nil.) -/
def Log.Truncate (self : Log) (lowest : Nat) : Log :=
  { self with
    sealed := self.sealed.filter (fun s => !truncated lowest s)
    activeListed := self.activeListed && !truncated lowest self.activeSegment }

/-! ## Runs of a log -/

/-- A call made on the log. -/
inductive Op where
  | append (record : Record)
  | read (offset : Nat)
deriving DecidableEq, Repr

/-- What a call returned. -/
inductive Res where
  | append (off : Nat) (err : Option Err)
  | read (r : Except Err Record)

/-- One call on the log. -/
def Log.step (cd : Codec) (self : Log) : Op → Log × Res
  | .append r => ((self.Append cd r).1, Res.append (self.Append cd r).2.1 (self.Append cd r).2.2)
  | .read k => ((self.Read cd k).1, Res.read (self.Read cd k).2)

/-- A sequence of calls on the log, in order, with what each returned. -/
def Log.run (cd : Codec) (self : Log) : List Op → Log × List Res
  | [] => (self, [])
  | op :: ops =>
    ((Log.run cd (self.step cd op).1 ops).1, (self.step cd op).2 :: (Log.run cd (self.step cd op).1 ops).2)

/-- A stand-in envelope for concrete runs: the offset as eight big-endian bytes, then
the value.  Values of `2 ^ 31` bytes and more are refused. -/
def fixedCodec : Codec where
  marshal := fun r =>
    if r.Value.length < 2 ^ 31 then some (putUint64 r.Offset ++ r.Value) else none
  unmarshal := fun p =>
    if p.length < 8 then none else some { Value := p.drop 8, Offset := Uint64 (p.take 8) }

/-- The log `New` returns, or `none` when it returns an error. -/
def Log.New? (dir : Directory) (c : Golog.Config) : Option Log :=
  match Log.New dir c with
  | .error _ => none
  | .ok l => some l

/-! ## Predicates used in the proofs -/

/-- The bytes a store has taken so far: those in the file, then those in the buffer. -/
def FileStorage.content (s : FileStorage) : List Byte := s.file ++ s.buf

/-- The store holds the record `p` at position `pos`: its length prefix and its bytes
stand there in the bytes the store has taken. -/
def StoreHas (s : FileStorage) (pos : Nat) (p : List Byte) : Prop :=
  p.length < 2 ^ 64 ∧ (putUint64 p.length ++ p) <+: s.content.drop pos

/-- The entry number `i` of an index mapping: the relative offset and the position
decoded from the bytes `[12 i, 12 i + 12)`. -/
def entryAt (m : List Byte) (i : Nat) : Nat × Nat :=
  (Uint32 ((m.drop (i * entWidth)).take offWidth),
   Uint64 ((m.drop (i * entWidth + offWidth)).take posWidth))

/-- The value appended at offset `k`, when `hist` lists the values of the successful
appends of a log whose first offset is `init`. -/
def valAt (init : Nat) (hist : List (List Byte)) (k : Nat) : Option (List Byte) :=
  if init ≤ k then hist[k - init]? else none

/-- The representation invariant of a segment with respect to the values `val` the
offsets were appended with: `Size` of the store counts its bytes, the index holds one
entry for each offset of `[BaseOffset, NextOffset)`, and the entry of offset `k` holds
the relative offset `k - BaseOffset` and a position at which the store holds the
envelope of the record `(val k, k)`. -/
def SegInv (cd : Codec) (val : Nat → Option (List Byte)) (s : Segment) : Prop :=
  s.Store.Size = s.Store.content.length ∧
  s.BaseOffset ≤ s.NextOffset ∧
  s.index.Size = (s.NextOffset - s.BaseOffset) * entWidth ∧
  s.index.Size ≤ s.index.mmap.length ∧
  s.index.mmap.length ≤ 2 ^ 32 * entWidth ∧
  ∀ k, s.BaseOffset ≤ k → k < s.NextOffset →
    ∃ v pos p, val k = some v ∧
      entryAt s.index.mmap (k - s.BaseOffset) = (k - s.BaseOffset, pos) ∧
      cd.marshal { Value := v, Offset := k } = some p ∧ StoreHas s.Store pos p

/-- The offsets of a segment: `(BaseOffset, NextOffset)`. -/
def Segment.bounds (s : Segment) : Nat × Nat := (s.BaseOffset, s.NextOffset)

/-- The invariant of a segment of a log with configuration `cfg` whose successful
appends had the values `hist`. -/
def SegOK (cd : Codec) (cfg : Config) (hist : List (List Byte)) (s : Segment) : Prop :=
  SegInv cd (valAt cfg.InitialOffset hist) s ∧ s.config = cfg ∧
    s.index.mmap.length = cfg.MaxIndexBytes

/-- The invariant of a log created on an empty directory with the (completed)
configuration `cfg`, after successful appends of the values `hist` and no truncate:
the active segment is the last of the slice, every segment satisfies its invariant,
each segment begins where the one before it ends, the segments before the active one
are not empty, the first begins at `InitialOffset` and the active one ends at
`InitialOffset + hist.length`. -/
structure LogInv (cd : Codec) (cfg : Config) (hist : List (List Byte)) (l : Log) : Prop where
  config : l.Config = cfg
  listed : l.activeListed = true
  dir : l.Dir = []
  segs : ∀ s ∈ l.sealed ++ [l.activeSegment], SegOK cd cfg hist s
  chain : List.Chain' (fun a b : Nat × Nat => a.2 = b.1 ∧ a.1 < a.2)
    ((l.sealed ++ [l.activeSegment]).map Segment.bounds)
  first : (((l.sealed ++ [l.activeSegment]).map Segment.bounds).head?).map Prod.fst
    = some cfg.InitialOffset
  next : l.activeSegment.NextOffset = cfg.InitialOffset + hist.length
  nowrap : cfg.InitialOffset + hist.length < 2 ^ 64

/-- Every store of the log is smaller than `B` bytes. -/
def Log.StoresBelow (B : Nat) (l : Log) : Prop := ∀ s ∈ l.segments, s.Store.Size < B

/-- The segment `segment.New` builds on two files just created. -/
def Segment.fresh (baseOffset : Nat) (c : Config) : Segment :=
  { Store := FileStorage.New [], index := Index.New [] c, BaseOffset := baseOffset,
    NextOffset := baseOffset, config := c }

/-- The condition of the scan of `Log.Read`. -/
def Segment.covers (s : Segment) (offset : Nat) : Prop :=
  s.BaseOffset ≤ offset ∧ offset < s.NextOffset

instance (s : Segment) (k : Nat) : Decidable (s.covers k) := by
  unfold Segment.covers; infer_instance

/-- The offsets the successful appends of a run returned, in order. -/
def successOffsets : List Res → List Nat
  | [] => []
  | Res.append off none :: rest => off :: successOffsets rest
  | _ :: rest => successOffsets rest

/-- The active segment is listed and the directory holds no closed file. -/
def Log.Plain (l : Log) : Prop := l.activeListed = true ∧ l.Dir = []

/-- The run of the scenarios of the specification: records with the one-byte values
`0, 1, ..., n - 1` are appended in this order. -/
def appendsUpTo (n : Nat) : List Op :=
  (List.range n).map (fun i => Op.append { Value := [i], Offset := 0 })

/-- The log `New` builds on an empty directory: one empty segment at `InitialOffset`. -/
def Log.empty (c : Golog.Config) : Log :=
  { Dir := [], Config := c.withDefaults, sealed := [],
    activeSegment := Segment.fresh c.withDefaults.InitialOffset c.withDefaults,
    activeListed := true }

/-- The offsets `(BaseOffset, NextOffset)` of the segments of a log that holds the
offsets `0, ..., n - 1` in segments of `m` records: the full segments, then the active
one. -/
def blocks (m n : Nat) : List (Nat × Nat) :=
  (List.range (n / m)).map (fun i => (m * i, m * i + m)) ++ [(m * (n / m), n)]

/-- The invariant of a log with `InitialOffset = 0` whose segments are closed after
`m` records: `q` full segments, and `t < m` records in the active one. -/
def BlockInv (cfg : Config) (m q t : Nat) (l : Log) : Prop :=
  l.Plain ∧ l.Config = cfg ∧ t < m ∧
  l.sealed.map Segment.bounds = (List.range q).map (fun i => (m * i, m * i + m)) ∧
  l.activeSegment.bounds = (m * q, m * q + t) ∧
  l.activeSegment.index.Size = 12 * t ∧
  l.activeSegment.index.mmap.length = 12 * m ∧
  l.activeSegment.config = cfg

/-- The invariant of the index of a segment of a log with configuration `cfg`: the
mapping has the configured size, `Size` counts twelve bytes for each offset of
`[BaseOffset, NextOffset)`, and the last entry holds the last relative offset. -/
def IdxOK (cfg : Config) (s : Segment) : Prop :=
  s.config = cfg ∧ s.index.mmap.length = cfg.MaxIndexBytes ∧
  s.BaseOffset ≤ s.NextOffset ∧ s.NextOffset < 2 ^ 64 ∧
  s.index.Size = (s.NextOffset - s.BaseOffset) * entWidth ∧
  s.index.Size ≤ s.index.mmap.length ∧
  (s.BaseOffset < s.NextOffset →
    (entryAt s.index.mmap (s.NextOffset - s.BaseOffset - 1)).1 = s.NextOffset - s.BaseOffset - 1)

/-- The invariant of the offsets of a log created on an empty directory with the
(completed) configuration `cfg`: the active segment is the last of the slice and ends
at or below `N`, every index satisfies its invariant, each segment begins where the one
before it ends, and the segments before the active one are not empty. -/
def StructInv (cfg : Config) (N : Nat) (l : Log) : Prop :=
  l.Plain ∧ l.Config = cfg ∧ l.activeSegment.NextOffset ≤ N ∧
  (∀ s ∈ l.sealed ++ [l.activeSegment], IdxOK cfg s) ∧
  List.Chain' (fun a b : Nat × Nat => a.2 = b.1 ∧ a.1 < a.2)
    ((l.sealed ++ [l.activeSegment]).map Segment.bounds)

/-- The segment `segment.New` builds when the files of the segment `s` are opened again
after `Close`. -/
def Segment.reopened (s : Segment) (cfg : Config) : Segment :=
  { Store := FileStorage.New s.Store.Close, index := Index.New s.index.Close cfg,
    BaseOffset := s.BaseOffset, NextOffset := s.NextOffset, config := cfg }

/-- The files a list of segments leaves in the directory when each is closed. -/
def closeAll (segs : List Segment) : Directory := (segs.map Segment.Close).flatten

/-- Every element twice: the base offsets read off a directory that holds a store file
and an index file for each. -/
def dupEach : List Nat → List Nat
  | [] => []
  | b :: bs => b :: b :: dupEach bs

/-! ## Runs of a store -/

/-- A call on a store: `Append(p)` or `Read(pos)`. -/
inductive StoreOp where
  | append (p : List Byte)
  | read (pos : Nat)
deriving DecidableEq, Repr

/-- What a call on a store returns: `Append` the number of bytes written and the
position, `Read` the record or the error. -/
inductive StoreRes where
  | append (n pos : Nat)
  | read (r : Except Err (List Byte))

/-- One call on a store. -/
def FileStorage.step (s : FileStorage) : StoreOp → FileStorage × StoreRes
  | .append p => ((s.Append p).1, .append (s.Append p).2.1 (s.Append p).2.2)
  | .read pos => ((s.Read pos).1, .read (s.Read pos).2)

/-- A sequence of calls on a store: the store after the calls and what they returned. -/
def FileStorage.run (s : FileStorage) : List StoreOp → FileStorage × List StoreRes
  | [] => (s, [])
  | op :: ops =>
    let r := s.step op
    let rest := FileStorage.run r.1 ops
    (rest.1, r.2 :: rest.2)

/-- The records a sequence of calls appends, in order. -/
def appended : List StoreOp → List (List Byte)
  | [] => []
  | .append p :: ops => p :: appended ops
  | .read _ :: ops => appended ops

/-- The bytes the records `ps` take in a store: 8 bytes of length and the record, each. -/
def framedSize (ps : List (List Byte)) : Nat := (ps.map (fun p => 8 + p.length)).sum

/-! ## Runs of an index -/

/-- The twelve bytes of an index entry: the relative offset as a big-endian `uint32`,
then the position as a big-endian `uint64`. -/
def entryBytes (e : Nat × Nat) : List Byte := putUint32 e.1 ++ putUint64 e.2

/-- The struct `OriginReader`: the store it embeds and the field `off`. -/
structure OriginReader where
  store : FileStorage
  off : Nat
deriving DecidableEq, Repr

/-- The method `os.File.ReadAt` with the bytes it read, for a buffer of `n` bytes: the
bytes of the file from `off` on, at most `n` of them, and `io.EOF` when they are fewer
than `n`. -/
def readAtSome (file : List Byte) (n off : Nat) : List Byte × Option Err :=
  let bs := (file.drop off).take n
  (bs, if bs.length < n then some Err.EOF else none)

/-- The method `OriginReader.Read` for a buffer of `n` bytes.  `self.ReadAt` is the
method of the `*os.File` embedded in `FileStorage` (`FileStorage` declares none of its
own): it reads the file; the `bufio.Writer` is not consulted. -/
def OriginReader.Read (self : OriginReader) (n : Nat) : OriginReader × List Byte × Option Err :=
  let r := readAtSome self.store.file n self.off
  ({ self with off := self.off + r.1.length }, r.1, r.2)

/-- One reader read until it reports an error, with a buffer of `n` bytes and at most
`fuel` calls: the bytes obtained. -/
def OriginReader.readAll (n : Nat) : Nat → OriginReader → List Byte
  | 0, _ => []
  | fuel + 1, r =>
    match r.Read n with
    | (_, bs, some _) => bs
    | (r1, bs, none) => bs ++ OriginReader.readAll n fuel r1

/-- The method `Log.Reader`: one `OriginReader` at offset 0 for the store of each
segment of the slice, handed to `io.MultiReader`. -/
def Log.Reader (self : Log) : List OriginReader :=
  self.segments.map (fun s => { store := s.Store, off := 0 })

/-- The reader `io.MultiReader` returns, read to its end: each reader in turn until
it reports `io.EOF`. -/
def multiReadAll (n fuel : Nat) (rs : List OriginReader) : List Byte :=
  (rs.map (OriginReader.readAll n fuel)).flatten

/-- The stream the specification describes for a log that holds the records `rs`: for
each record the 8 bytes of the length of its envelope, big-endian, and the envelope. -/
def recordStream (cd : Codec) (rs : List Record) : List Byte :=
  (rs.map (fun r =>
    match cd.marshal r with
    | none => []
    | some p => putUint64 p.length ++ p)).flatten

/-! ## Remove and Reset -/

/-- The function `New` of the log on a path: `os.ReadDir` fails when there is no
directory at the path (`none`). -/
def Log.NewAt (dir : Option Directory) (c : Golog.Config) : Except Err Log :=
  match dir with
  | none => .error Err.NotExist
  | some d => Log.New d c

/-- The method `Log.Remove`: `Close`, then `os.RemoveAll(self.Dir)`, which removes the
directory with all it holds.  The result is what is left at the path: nothing. -/
def Log.Remove (_self : Log) : Option Directory := none

/-- The method `Log.Reset`: the log of the caller after the call and the error
returned.  The assignment `self = newLog` sets the receiver variable of the method, a
copy of the pointer the caller holds; the log of the caller keeps the fields it had. -/
def Log.Reset (self : Log) : Log × Option Err :=
  match Log.NewAt self.Remove self.Config with
  | .error e => (self, some e)
  | .ok _ => (self, none)

/-! ## Runs of a log with `Truncate` -/

/-- A call made on the log: `Append`, `Read` or `Truncate`. -/
inductive Call where
  | append (r : Record)
  | read (offset : Nat)
  | truncate (lowest : Nat)
deriving DecidableEq, Repr

/-- One call on the log: the log after it. -/
def Log.call (cd : Codec) (self : Log) : Call → Log
  | .append r => (self.Append cd r).1
  | .read k => (self.Read cd k).1
  | .truncate lowest => self.Truncate lowest

/-- A sequence of calls on the log: the log after them. -/
def Log.calls (cd : Codec) (self : Log) : List Call → Log
  | [] => self
  | c :: cs => Log.calls cd (self.call cd c) cs

/-- The invariant of the offsets of a log under `Append`, `Read` and `Truncate`: each
segment begins where the one before it ends, the segments before the active one are
not empty, the active segment ends at or below `N`, and when the active segment is no
longer in the slice the slice is empty. -/
def CallInv (N : Nat) (l : Log) : Prop :=
  l.Dir = [] ∧ (l.activeListed = false → l.sealed = []) ∧
  List.Chain' (fun a b : Nat × Nat => a.2 = b.1 ∧ a.1 < a.2)
    ((l.sealed ++ [l.activeSegment]).map Segment.bounds) ∧
  l.activeSegment.BaseOffset ≤ l.activeSegment.NextOffset ∧ l.activeSegment.NextOffset ≤ N

/-! ## Directory listings -/

/-- The file names of a directory that holds, for each base offset of `bs`, the store
file and the index file of that offset. -/
def listing (bs : List Nat) : List FileName :=
  (bs.map (fun b => [storeName b, indexName b])).flatten

/-! ## Room in the index -/

/-- The active segment of a log with configuration `cfg` has room in its index: the
log lists its active segment and holds no unopened file, the mapping of the index has
the configured size, and `Size` is a multiple of 12 with 12 bytes to spare. -/
def RoomInv (cfg : Config) (l : Log) : Prop :=
  l.Plain ∧ l.Config = cfg ∧ l.activeSegment.config = cfg ∧
  l.activeSegment.index.mmap.length = cfg.MaxIndexBytes ∧
  l.activeSegment.index.Size % 12 = 0 ∧
  l.activeSegment.index.Size + 12 ≤ cfg.MaxIndexBytes

/-! ## Runs of a segment -/

/-- A sequence of `Segment.Append` calls: the segment after the calls and what each
returned (offset and error). -/
def Segment.appendAll (cd : Codec) (s : Segment) : List Record → Segment × List (Nat × Option Err)
  | [] => (s, [])
  | r :: rs =>
    let a := s.Append cd r
    let rest := Segment.appendAll cd a.1 rs
    (rest.1, a.2 :: rest.2)

/-- The values of the records whose append returned no error, in order. -/
def accepted : List Record → List (Nat × Option Err) → List (List Byte)
  | r :: rs, (_, none) :: es => r.Value :: accepted rs es
  | _ :: rs, (_, some _) :: es => accepted rs es
  | _, _ => []



/-! ## The log after `Close` -/

/-- The log once `Close` has returned.  `Close` assigns no field of the log or of a
segment; it closes the two files of every segment of the slice, which are in the
directory again.  `closed` counts these segments: they are the first `closed` elements
of the slice, and a segment that a later rollover appends to the slice is open. -/
structure ClosedLog where
  log : Log
  closed : Nat
deriving DecidableEq, Repr

/-- The method `bufio.Writer.Write` when the file of the writer is closed: bytes that
fit into the free part of the buffer stay there and no error is returned; otherwise
the writer writes to the file (directly when the buffer is empty, after filling the
buffer when not), which fails with `os.ErrClosed`. -/
def FileStorage.bufWriteClosed (s : FileStorage) (p : List Byte) : FileStorage × Option Err :=
  if p.length ≤ bufioSize - s.buf.length then
    ({ s with buf := s.buf ++ p }, none)
  else if s.buf.length = 0 then
    (s, some Err.Closed)
  else
    ({ s with buf := s.buf ++ p.take (bufioSize - s.buf.length) }, some Err.Closed)

/-- The method `FileStorage.Append` on a store whose file is closed: the store, the
number of bytes written, the position and the error. -/
def FileStorage.AppendClosed (s : FileStorage) (p : List Byte) :
    FileStorage × Nat × Nat × Option Err :=
  let pos := s.Size
  match s.bufWriteClosed (putUint64 p.length) with
  | (s1, some e) => (s1, 0, 0, some e)
  | (s1, none) =>
    match s1.bufWriteClosed p with
    | (s2, some e) => (s2, 0, 0, some e)
    | (s2, none) =>
      let w := p.length + lenWidth
      ({ s2 with Size := s.Size + w }, w, pos, none)

/-- The method `FileStorage.Read` on a store whose file is closed: `Flush` writes
what the writer holds to the file, and when it holds nothing `ReadAt` reads the file;
on a closed file either call fails with `os.ErrClosed`. -/
def FileStorage.ReadClosed (s : FileStorage) (_pos : Nat) : Except Err (List Byte) :=
  if s.buf.length ≠ 0 then .error Err.Closed
  else .error Err.Closed

/-- The method `Segment.Append` on a segment whose files are closed.  `Index.Close`
does not unmap the index: `Index.Write` writes to the mapping as before. -/
def Segment.AppendClosed (cd : Codec) (self : Segment) (r : Record) :
    Segment × Nat × Option Err :=
  let cur := self.NextOffset
  match cd.marshal { r with Offset := cur } with
  | none => (self, 0, some Err.Marshal)
  | some p =>
    match self.Store.AppendClosed p with
    | (store, _, _, some e) => ({ self with Store := store }, 0, some e)
    | (store, _, pos, none) =>
      match self.index.Write (((self.NextOffset + 2 ^ 64 - self.BaseOffset) % 2 ^ 64) % 2 ^ 32)
          pos with
      | (_, some e) => ({ self with Store := store }, 0, some e)
      | (idx, none) =>
        ({ self with Store := store, index := idx, NextOffset := (self.NextOffset + 1) % 2 ^ 64 },
         cur, none)

/-- The method `Segment.Read` on a segment whose files are closed: the index answers
from its mapping, the store is read with its file closed. -/
def Segment.ReadClosed (cd : Codec) (self : Segment) (off : Nat) : Except Err Record :=
  match self.index.Read (toInt64 ((off + 2 ^ 64 - self.BaseOffset) % 2 ^ 64)) with
  | .error e => .error e
  | .ok (_, pos) =>
    match self.Store.ReadClosed pos with
    | .error e => .error e
    | .ok p =>
      match cd.unmarshal p with
      | none => .error Err.Unmarshal
      | some record => .ok record

/-- The scan of `Log.Read`: the position in the slice and the segment it stops at. -/
def firstCover (offset : Nat) : List Segment → Option (Nat × Segment)
  | [] => none
  | s :: rest =>
    if s.BaseOffset ≤ offset ∧ offset < s.NextOffset then some (0, s)
    else (firstCover offset rest).map (fun x => (x.1 + 1, x.2))

/-- The method `Log.Append` after `Close`.  It tests no state of the log: the record
goes to the active segment, with closed files when that segment is one of the closed
ones, and the rollover that follows creates an open segment. -/
def ClosedLog.Append (cd : Codec) (self : ClosedLog) (record : Record) :
    ClosedLog × Nat × Option Err :=
  if self.log.activeListed = true ∧ self.log.sealed.length < self.closed then
    match self.log.activeSegment.AppendClosed cd record with
    | (seg, _, some e) => ({ self with log := { self.log with activeSegment := seg } }, 0, some e)
    | (seg, off, none) =>
      let l1 := { self.log with activeSegment := seg }
      if seg.IsMaxed then
        let (l2, err) := l1.newSegment ((off + 1) % 2 ^ 64)
        ({ self with log := l2 }, off, err)
      else ({ self with log := l1 }, off, none)
  else
    ({ self with log := (self.log.Append cd record).1 }, (self.log.Append cd record).2)

/-- The method `Log.Read` after `Close`.  It tests no state of the log: the slice is
scanned as before, and the segment the scan stops at is read with closed files when
it is one of the closed ones and as on the open log when not. -/
def ClosedLog.Read (cd : Codec) (self : ClosedLog) (offset : Nat) :
    ClosedLog × Except Err Record :=
  match firstCover offset self.log.segments with
  | none => (self, .error (Err.ErrOffsetOutOfRange offset))
  | some (i, s) =>
    if i < self.closed then
      (self, if offset < s.BaseOffset then .error (Err.ErrOffsetOutOfRange offset)
             else s.ReadClosed cd offset)
    else ({ self with log := (self.log.Read cd offset).1 }, (self.log.Read cd offset).2)

/-! # Properties -/

theorem putUint32_length (v : Nat) : (putUint32 v).length = 4 := rfl
theorem putUint64_length (v : Nat) : (putUint64 v).length = 8 := rfl

theorem Uint32_putUint32 (v : Nat) : Uint32 (putUint32 v) = v % 2 ^ 32 := by
  simp only [Uint32, putUint32, beValue, List.take, List.foldl]
  omega

theorem Uint64_putUint64 (v : Nat) : Uint64 (putUint64 v) = v % 2 ^ 64 := by
  simp only [Uint64, putUint64, beValue, List.take, List.foldl]
  omega

theorem bufWrite_content (s : FileStorage) (p : List Byte) :
    (s.bufWrite p).content = s.content ++ p := by
  simp only [FileStorage.bufWrite, FileStorage.content]
  split_ifs with h1 h2 h3
  · simp
  · simp [List.length_eq_zero.mp h2]
  · simp
  · simp

theorem bufWrite_Size (s : FileStorage) (p : List Byte) : (s.bufWrite p).Size = s.Size := by
  simp only [FileStorage.bufWrite]
  split_ifs <;> rfl

theorem Flush_content (s : FileStorage) : s.Flush.content = s.content := by
  simp [FileStorage.Flush, FileStorage.content]

theorem Flush_file (s : FileStorage) : s.Flush.file = s.content := rfl

theorem storeAppend_content (s : FileStorage) (p : List Byte) :
    (s.Append p).1.content = s.content ++ (putUint64 p.length ++ p) := by
  show ((s.bufWrite (putUint64 p.length)).bufWrite p).content = _
  rw [bufWrite_content, bufWrite_content, List.append_assoc]

theorem storeAppend_Size (s : FileStorage) (p : List Byte) :
    (s.Append p).1.Size = s.Size + (p.length + 8) := rfl

theorem storeAppend_pos (s : FileStorage) (p : List Byte) : (s.Append p).2.2 = s.Size := rfl

theorem readAt_of_prefix {c x : List Byte} {pos : Nat} (h : x <+: c.drop pos) :
    readAt c x.length pos = .ok x := by
  obtain ⟨t, ht⟩ := h
  unfold readAt
  by_cases h0 : x.length = 0
  · simp [h0, List.length_eq_zero.mp h0]
  · have hl : (c.drop pos).length = x.length + t.length := by rw [← ht]; simp
    rw [List.length_drop] at hl
    have hle : pos + x.length ≤ c.length := by omega
    simp only [h0, if_false, hle, if_true]
    rw [← ht, List.take_left]

theorem storeHas_read {s : FileStorage} {pos : Nat} {p : List Byte} (h : StoreHas s pos p) :
    (s.Read pos).2 = .ok p := by
  obtain ⟨hlen, t, ht⟩ := h
  have h1 : putUint64 p.length <+: s.Flush.file.drop pos :=
    ⟨p ++ t, by rw [Flush_file, ← ht, List.append_assoc]⟩
  have h2 : p <+: s.Flush.file.drop (pos + lenWidth) := by
    refine ⟨t, ?_⟩
    rw [Flush_file, ← List.drop_drop, ← ht, List.append_assoc]
    exact congrArg (fun l => l) (by simp [lenWidth, putUint64])
  have e1 := readAt_of_prefix h1
  rw [putUint64_length] at e1
  have e2 := readAt_of_prefix h2
  simp only [FileStorage.Read, lenWidth] at *
  rw [e1]
  simp only [Uint64_putUint64, Nat.mod_eq_of_lt hlen]
  rw [e2]

theorem storeHas_flush {s : FileStorage} {pos : Nat} {p : List Byte} (h : StoreHas s pos p) :
    StoreHas s.Flush pos p := by
  unfold StoreHas at *; rwa [Flush_content]

theorem storeRead_fst (s : FileStorage) (pos : Nat) : (s.Read pos).1 = s.Flush := by
  simp only [FileStorage.Read]
  split
  · rfl
  · split <;> rfl

theorem storeHas_append {s : FileStorage} {pos : Nat} {p : List Byte} (h : StoreHas s pos p)
    (q : List Byte) : StoreHas (s.Append q).1 pos p := by
  obtain ⟨hlen, t, ht⟩ := h
  refine ⟨hlen, ?_⟩
  rw [storeAppend_content]
  have hpos : pos ≤ s.content.length := by
    by_contra hc
    have : List.drop pos s.content = [] := List.drop_eq_nil_of_le (by omega)
    rw [this] at ht
    simp [putUint64] at ht
  rw [List.drop_append_of_le_length hpos, ← ht]
  exact ⟨t ++ (putUint64 q.length ++ q), by simp⟩

theorem storeHas_new {s : FileStorage} (hs : s.Size = s.content.length) {q : List Byte}
    (hq : q.length < 2 ^ 64) : StoreHas (s.Append q).1 s.Size q := by
  refine ⟨hq, ?_⟩
  rw [storeAppend_content, hs, List.drop_left]

theorem entWidth_eq : entWidth = 12 := rfl
theorem offWidth_eq : offWidth = 4 := rfl
theorem posWidth_eq : posWidth = 8 := rfl
theorem lenWidth_eq : lenWidth = 8 := rfl

theorem indexRead_eq (idx : Index) (i : Nat) (h0 : idx.Size ≠ 0) (hi : i < 2 ^ 32)
    (h1 : i * entWidth ≤ idx.Size) (h2 : i * entWidth + entWidth ≤ idx.mmap.length) :
    idx.Read (i : Int) = .ok (entryAt idx.mmap i) := by
  have hne : ((i : Int) = -1) = False := by simp
  have hu : toUint32 (i : Int) = i := by
    unfold toUint32
    have : ((i : Int) % 2 ^ 32) = (i : Int) := Int.emod_eq_of_lt (by omega) (by exact_mod_cast hi)
    rw [this]; simp
  simp only [Index.Read, h0, if_false, hne, hu]
  simp only [gt_iff_lt, not_lt.mpr h1, if_false, not_lt.mpr h2, entryAt]

theorem indexWrite_ok (idx : Index) (off pos : Nat) (h : idx.Size + entWidth ≤ idx.mmap.length) :
    idx.Write off pos =
      ({ mmap := idx.mmap.take idx.Size ++ (putUint32 off ++ putUint64 pos)
                  ++ idx.mmap.drop (idx.Size + entWidth),
         Size := idx.Size + entWidth }, none) := by
  simp [Index.Write, not_lt.mpr h]

theorem indexWrite_full (idx : Index) (off pos : Nat) (h : idx.mmap.length < idx.Size + entWidth) :
    idx.Write off pos = (idx, some Err.EOF) := by
  simp [Index.Write, h]

theorem indexWrite_length (idx : Index) (off pos : Nat) :
    (idx.Write off pos).1.mmap.length = idx.mmap.length := by
  by_cases h : idx.mmap.length < idx.Size + entWidth
  · rw [indexWrite_full _ _ _ h]
  · rw [indexWrite_ok _ _ _ (not_lt.mp h)]
    simp [putUint32, putUint64, entWidth, offWidth, posWidth] at *
    omega

/-- Bytes of the mapping below `k` are not touched by a write at `k`. -/
theorem slice_take_append (m r : List Byte) (k a n : Nat) (hk : k ≤ m.length) (h : a + n ≤ k) :
    ((m.take k ++ r).drop a).take n = (m.drop a).take n := by
  have h1 : a ≤ (m.take k).length := by simp; omega
  rw [List.drop_append_of_le_length h1]
  have h2 : n ≤ ((m.take k).drop a).length := by simp; omega
  rw [List.take_append_of_le_length h2, List.drop_take, List.take_take]
  congr 1; omega

theorem entryAt_write_old (idx : Index) (off pos j : Nat)
    (h : idx.Size + entWidth ≤ idx.mmap.length) (hj : j * entWidth + entWidth ≤ idx.Size) :
    entryAt (idx.Write off pos).1.mmap j = entryAt idx.mmap j := by
  rw [indexWrite_ok _ _ _ h]
  simp only [entryAt, List.append_assoc]
  have hk : idx.Size ≤ idx.mmap.length := by omega
  simp only [entWidth_eq, offWidth_eq, posWidth_eq] at *
  rw [slice_take_append _ _ _ _ _ hk (by omega), slice_take_append _ _ _ _ _ hk (by omega)]

theorem entryAt_write_new (idx : Index) (off pos n : Nat)
    (h : idx.Size + entWidth ≤ idx.mmap.length) (hn : idx.Size = n * entWidth) :
    entryAt (idx.Write off pos).1.mmap n = (off % 2 ^ 32, pos % 2 ^ 64) := by
  rw [indexWrite_ok _ _ _ h]
  have hk : (idx.mmap.take idx.Size).length = n * entWidth := by simp; omega
  simp only [entryAt, List.append_assoc]
  rw [List.drop_left' hk]
  have : n * entWidth + offWidth = (idx.mmap.take idx.Size).length + offWidth := by rw [hk]
  rw [this, List.drop_append]
  simp only [putUint32, putUint64, offWidth, posWidth, List.cons_append, List.nil_append, List.take, List.drop]
  rw [← putUint32, ← putUint64, Uint32_putUint32, Uint64_putUint64]
theorem segRead_ok {cd : Codec} (hl : cd.Lawful) {val : Nat → Option (List Byte)} {s : Segment}
    (h : SegInv cd val s) {k : Nat} (hk1 : s.BaseOffset ≤ k) (hk2 : k < s.NextOffset)
    (hk : k < 2 ^ 64) :
    ∃ v, val k = some v ∧ (s.Read cd k).2 = .ok { Value := v, Offset := k } := by
  obtain ⟨_, _, hsz, hle, hm, hent⟩ := h
  obtain ⟨v, pos, p, hv, he, hp, hs⟩ := hent k hk1 hk2
  refine ⟨v, hv, ?_⟩
  simp only [entWidth_eq] at hsz hle hm
  have hi : k - s.BaseOffset < 2 ^ 32 := by omega
  have e1 : (k + 2 ^ 64 - s.BaseOffset) % 2 ^ 64 = k - s.BaseOffset := by omega
  have e2 : toInt64 (k - s.BaseOffset) = ((k - s.BaseOffset : Nat) : Int) := by
    unfold toInt64; rw [if_pos (by omega)]
  have e3 := indexRead_eq s.index (k - s.BaseOffset) (by omega) hi
    (by rw [entWidth_eq]; omega) (by rw [entWidth_eq]; omega)
  simp only [Segment.Read, e1, e2, e3, he]
  have e4 := storeHas_read hs
  have e5 := (hl _ p hk hp).2
  generalize hr : s.Store.Read pos = res at e4
  obtain ⟨st, rr⟩ := res
  simp only at e4
  subst e4
  simp only [e5]

theorem segRead_fst (cd : Codec) (s : Segment) (k : Nat) :
    (s.Read cd k).1 = s ∨ (s.Read cd k).1 = { s with Store := s.Store.Flush } := by
  unfold Segment.Read
  split
  · exact Or.inl rfl
  · rename_i pos h
    have := storeRead_fst s.Store pos
    split
    · rename_i st e h2; right; simp only; rw [h2] at this; simp only at this; rw [this]
    · rename_i st p h2
      rw [h2] at this; simp only at this
      split <;> (right; simp only; rw [this])

theorem segInv_flush {cd : Codec} {val : Nat → Option (List Byte)} {s : Segment}
    (h : SegInv cd val s) : SegInv cd val { s with Store := s.Store.Flush } := by
  obtain ⟨h1, h2, h3, h4, h5, h6⟩ := h
  refine ⟨?_, h2, h3, h4, h5, ?_⟩
  · show s.Store.Flush.Size = _
    rw [Flush_content]; exact h1
  · intro k hk1 hk2
    obtain ⟨v, pos, p, hv, he, hp, hs⟩ := h6 k hk1 hk2
    exact ⟨v, pos, p, hv, he, hp, storeHas_flush hs⟩

theorem segInv_read {cd : Codec} {val : Nat → Option (List Byte)} {s : Segment}
    (h : SegInv cd val s) (k : Nat) : SegInv cd val (s.Read cd k).1 := by
  rcases segRead_fst cd s k with e | e <;> rw [e]
  · exact h
  · exact segInv_flush h

/-- The three ways `Segment.Append` can go: the envelope is refused, the index is full
(the store has taken the record all the same), or the record is appended. -/
theorem segAppend_cases (cd : Codec) (s : Segment) (r : Record) :
    (cd.marshal { r with Offset := s.NextOffset } = none ∧
      s.Append cd r = (s, 0, some Err.Marshal)) ∨
    (∃ p, cd.marshal { r with Offset := s.NextOffset } = some p ∧
      s.index.mmap.length < s.index.Size + entWidth ∧
      s.Append cd r = ({ s with Store := (s.Store.Append p).1 }, 0, some Err.EOF)) ∨
    (∃ p, cd.marshal { r with Offset := s.NextOffset } = some p ∧
      s.index.Size + entWidth ≤ s.index.mmap.length ∧
      s.Append cd r =
        ({ s with
            Store := (s.Store.Append p).1
            index := (s.index.Write (((s.NextOffset + 2 ^ 64 - s.BaseOffset) % 2 ^ 64) % 2 ^ 32)
              s.Store.Size).1
            NextOffset := (s.NextOffset + 1) % 2 ^ 64 }, s.NextOffset, none)) := by
  cases hm : cd.marshal { r with Offset := s.NextOffset } with
  | none => left; simp [Segment.Append, hm]
  | some p =>
    right
    by_cases hfull : s.index.mmap.length < s.index.Size + entWidth
    · left
      refine ⟨p, rfl, hfull, ?_⟩
      simp only [Segment.Append, hm, storeAppend_pos, indexWrite_full _ _ _ hfull]
    · right
      refine ⟨p, rfl, not_lt.mp hfull, ?_⟩
      simp only [Segment.Append, hm, indexWrite_ok _ _ _ (not_lt.mp hfull)]
      rfl

theorem segInv_storeAppend {cd : Codec} {val : Nat → Option (List Byte)} {s : Segment}
    (h : SegInv cd val s) (p : List Byte) :
    SegInv cd val { s with Store := (s.Store.Append p).1 } := by
  obtain ⟨h1, h2, h3, h4, h5, h6⟩ := h
  refine ⟨?_, h2, h3, h4, h5, ?_⟩
  · show (s.Store.Append p).1.Size = (s.Store.Append p).1.content.length
    rw [storeAppend_content, storeAppend_Size, h1]
    simp [putUint64_length]; omega
  · intro k hk1 hk2
    obtain ⟨v, pos, q, hv, he, hp, hs⟩ := h6 k hk1 hk2
    exact ⟨v, pos, q, hv, he, hp, storeHas_append hs p⟩

theorem segInv_mono {cd : Codec} {val val1 : Nat → Option (List Byte)} {s : Segment}
    (h : SegInv cd val s) (hext : ∀ k v, val k = some v → val1 k = some v) :
    SegInv cd val1 s := by
  obtain ⟨h1, h2, h3, h4, h5, h6⟩ := h
  refine ⟨h1, h2, h3, h4, h5, ?_⟩
  intro k hk1 hk2
  obtain ⟨v, pos, q, hv, he, hp, hs⟩ := h6 k hk1 hk2
  exact ⟨v, pos, q, hext k v hv, he, hp, hs⟩

theorem segInv_appended {cd : Codec} (hl : cd.Lawful) {val : Nat → Option (List Byte)}
    {s : Segment} (h : SegInv cd val s) (r : Record) {p : List Byte}
    (hp : cd.marshal { r with Offset := s.NextOffset } = some p)
    (hroom : s.index.Size + entWidth ≤ s.index.mmap.length)
    (hn : s.NextOffset + 1 < 2 ^ 64) (hsize : s.Store.Size < 2 ^ 64)
    (hnew : val s.NextOffset = some r.Value) :
    SegInv cd val
      { s with
          Store := (s.Store.Append p).1
          index := (s.index.Write (((s.NextOffset + 2 ^ 64 - s.BaseOffset) % 2 ^ 64) % 2 ^ 32)
            s.Store.Size).1
          NextOffset := (s.NextOffset + 1) % 2 ^ 64 } := by
  have hst := segInv_storeAppend h p
  obtain ⟨h1, h2, h3, h4, h5, h6⟩ := h
  have hw := indexWrite_ok s.index (((s.NextOffset + 2 ^ 64 - s.BaseOffset) % 2 ^ 64) % 2 ^ 32)
    s.Store.Size hroom
  have hlen := indexWrite_length s.index
    (((s.NextOffset + 2 ^ 64 - s.BaseOffset) % 2 ^ 64) % 2 ^ 32) s.Store.Size
  have hmod : (s.NextOffset + 1) % 2 ^ 64 = s.NextOffset + 1 := Nat.mod_eq_of_lt hn
  have hSize : (s.index.Write (((s.NextOffset + 2 ^ 64 - s.BaseOffset) % 2 ^ 64) % 2 ^ 32)
      s.Store.Size).1.Size = s.index.Size + entWidth := by rw [hw]
  have hrel : ((s.NextOffset + 2 ^ 64 - s.BaseOffset) % 2 ^ 64) % 2 ^ 32
      = s.NextOffset - s.BaseOffset := by
    simp only [entWidth_eq] at h3 h4 h5 hroom
    omega
  refine ⟨hst.1, ?_, ?_, ?_, ?_, ?_⟩
  · show s.BaseOffset ≤ (s.NextOffset + 1) % 2 ^ 64
    omega
  · show (s.index.Write _ _).1.Size = ((s.NextOffset + 1) % 2 ^ 64 - s.BaseOffset) * entWidth
    rw [hSize, hmod, h3]
    simp only [entWidth_eq]; omega
  · show (s.index.Write _ _).1.Size ≤ (s.index.Write _ _).1.mmap.length
    rw [hSize, hlen]; exact hroom
  · show (s.index.Write _ _).1.mmap.length ≤ _
    rw [hlen]; exact h5
  · intro k hk1 hk2
    change s.BaseOffset ≤ k at hk1
    change k < (s.NextOffset + 1) % 2 ^ 64 at hk2
    rw [hmod] at hk2
    show ∃ v pos q, val k = some v ∧
      entryAt (s.index.Write _ _).1.mmap (k - s.BaseOffset) = (k - s.BaseOffset, pos) ∧
      cd.marshal { Value := v, Offset := k } = some q ∧ StoreHas (s.Store.Append p).1 pos q
    by_cases hk : k < s.NextOffset
    · obtain ⟨v, pos, q, hv, he, hq, hs⟩ := h6 k hk1 hk
      refine ⟨v, pos, q, hv, ?_, hq, storeHas_append hs p⟩
      rw [entryAt_write_old _ _ _ _ hroom (by rw [h3]; simp only [entWidth_eq]; omega)]
      exact he
    · have hkk : k = s.NextOffset := by omega
      subst hkk
      refine ⟨r.Value, s.Store.Size, p, hnew, ?_, hp, ?_⟩
      · rw [entryAt_write_new _ _ _ _ hroom h3, hrel]
        simp only [entWidth_eq] at h3 h4 h5 hroom
        have : (s.NextOffset - s.BaseOffset) % 2 ^ 32 = s.NextOffset - s.BaseOffset := by omega
        rw [this, Nat.mod_eq_of_lt hsize]
      · exact storeHas_new h1 (hl _ p (by show s.NextOffset < 2 ^ 64; omega) hp).1

theorem segmentOpen_empty (baseOffset : Nat) (c : Config) :
    Segment.Open [] baseOffset c = .ok (Segment.fresh baseOffset c, []) := by
  simp [Segment.Open, openFile, Segment.New, Index.New, Index.Read, Segment.fresh,
    FileStorage.New]

theorem newSegmentAt_empty (c : Config) (segs : List Segment) (baseOffset : Nat) :
    newSegmentAt [] c segs baseOffset =
      .ok { Dir := [], Config := c, sealed := segs,
            activeSegment := Segment.fresh baseOffset c, activeListed := true } := by
  simp [newSegmentAt, segmentOpen_empty]

theorem New_empty (c : Config) : Log.New [] c = .ok (Log.empty c) := by
  simp [Log.New, baseOffsets, everyOther, New.loop, newSegmentAt_empty, Log.empty]

theorem withDefaults_InitialOffset (c : Config) : c.withDefaults.InitialOffset = c.InitialOffset := by
  unfold Config.withDefaults
  dsimp only
  split_ifs <;> rfl

theorem segOK_fresh (cd : Codec) (cfg : Config) (hist : List (List Byte)) (b : Nat)
    (hidx : cfg.MaxIndexBytes ≤ 2 ^ 32 * entWidth) :
    SegOK cd cfg hist (Segment.fresh b cfg) := by
  refine ⟨⟨rfl, le_refl _, ?_, ?_, ?_, ?_⟩, rfl, ?_⟩
  · simp [Segment.fresh, Index.New]
  · simp [Segment.fresh, Index.New]
  · simp [Segment.fresh, Index.New]; exact hidx
  · intro k h1 h2
    simp only [Segment.fresh] at h1 h2
    omega
  · simp [Segment.fresh, Index.New]

theorem logInv_New (cd : Codec) (c : Config) (l : Log) (h : Log.New [] c = .ok l)
    (hidx : c.withDefaults.MaxIndexBytes ≤ 2 ^ 32 * entWidth)
    (hoff : c.InitialOffset < 2 ^ 64) :
    LogInv cd c.withDefaults [] l := by
  rw [New_empty] at h
  cases h
  unfold Log.empty
  refine ⟨rfl, rfl, rfl, ?_, ?_, ?_, ?_, ?_⟩
  · intro s hs
    simp only [List.nil_append, List.mem_singleton] at hs
    subst hs
    exact segOK_fresh cd _ _ _ hidx
  · simp
  · simp [Segment.bounds, Segment.fresh]
  · simp [Segment.fresh]
  · simpa [withDefaults_InitialOffset] using hoff

theorem readScan_none {cd : Codec} {k : Nat} {segs : List Segment} :
    readScan cd k segs = none ↔ ∀ s ∈ segs, ¬ s.covers k := by
  induction segs with
  | nil => simp [readScan]
  | cons s rest ih =>
    simp only [readScan, List.mem_cons, forall_eq_or_imp]
    by_cases h : s.BaseOffset ≤ k ∧ k < s.NextOffset
    · simp [h, Segment.covers]
    · simp only [h, if_false, Segment.covers, not_false_eq_true, true_and]
      simp only [Segment.covers] at ih
      rw [← ih]
      cases readScan cd k rest <;> simp

theorem readScan_some {cd : Codec} {k : Nat} {segs segs1 : List Segment} {r : Except Err Record}
    (h : readScan cd k segs = some (segs1, r)) :
    ∃ pre s post, segs = pre ++ s :: post ∧ (∀ x ∈ pre, ¬ x.covers k) ∧ s.covers k ∧
      segs1 = pre ++ (readSegment cd s k).1 :: post ∧ r = (readSegment cd s k).2 := by
  induction segs generalizing segs1 r with
  | nil => simp [readScan] at h
  | cons s rest ih =>
    simp only [readScan] at h
    by_cases hc : s.BaseOffset ≤ k ∧ k < s.NextOffset
    · simp only [hc, and_self, if_true, Option.some.injEq, Prod.mk.injEq] at h
      exact ⟨[], s, rest, rfl, by simp, hc, by simp [h.1], h.2.symm⟩
    · simp only [hc, if_false] at h
      cases hr : readScan cd k rest with
      | none => simp [hr] at h
      | some res =>
        obtain ⟨rest1, r1⟩ := res
        simp only [hr, Option.some.injEq, Prod.mk.injEq] at h
        obtain ⟨pre, x, post, e1, e2, e3, e4, e5⟩ := ih hr
        refine ⟨s :: pre, x, post, by simp [e1], ?_, e3, by simp [← h.1, e4], by rw [← h.2, e5]⟩
        intro y hy
        rcases List.mem_cons.mp hy with rfl | hy
        · exact hc
        · exact e2 y hy

theorem readSegment_covers {cd : Codec} {s : Segment} {k : Nat} (h : s.covers k) :
    readSegment cd s k = s.Read cd k := by
  simp [readSegment, not_lt.mpr h.1]

theorem readSegment_fst (cd : Codec) (s : Segment) (k : Nat) :
    (readSegment cd s k).1 = s ∨ (readSegment cd s k).1 = { s with Store := s.Store.Flush } := by
  unfold readSegment
  split
  · exact Or.inl rfl
  · exact segRead_fst cd s k

theorem readSegment_bounds (cd : Codec) (s : Segment) (k : Nat) :
    (readSegment cd s k).1.bounds = s.bounds := by
  rcases readSegment_fst cd s k with e | e
  · rw [e]
  · rw [e]; rfl

theorem readSegment_Size (cd : Codec) (s : Segment) (k : Nat) :
    (readSegment cd s k).1.Store.Size = s.Store.Size := by
  rcases readSegment_fst cd s k with e | e
  · rw [e]
  · rw [e]; rfl

theorem segOK_readSegment {cd : Codec} {cfg : Config} {hist : List (List Byte)} {s : Segment}
    (h : SegOK cd cfg hist s) (k : Nat) : SegOK cd cfg hist (readSegment cd s k).1 := by
  rcases readSegment_fst cd s k with e | e <;> rw [e]
  · exact h
  · exact ⟨segInv_flush h.1, h.2.1, h.2.2⟩

/-- What `Log.Read` does: it fails with `ErrOffsetOutOfRange` and leaves the log as it
is when no segment of the slice covers the offset, and otherwise reads the first
segment that covers it. -/
theorem logRead_cases (cd : Codec) (l : Log) (k : Nat) :
    ((∀ s ∈ l.segments, ¬ s.covers k) ∧ l.Read cd k = (l, .error (Err.ErrOffsetOutOfRange k))) ∨
    (∃ pre s post, l.segments = pre ++ s :: post ∧ (∀ x ∈ pre, ¬ x.covers k) ∧ s.covers k ∧
      (l.Read cd k).1.segments = pre ++ (readSegment cd s k).1 :: post ∧
      (l.Read cd k).2 = (readSegment cd s k).2 ∧
      (l.Read cd k).1.activeListed = l.activeListed ∧ (l.Read cd k).1.Dir = l.Dir ∧
      (l.Read cd k).1.Config = l.Config ∧
      (l.Read cd k).1.sealed.length = l.sealed.length ∧
      (l.Read cd k).1.activeSegment.bounds = l.activeSegment.bounds) := by
  unfold Log.Read
  cases hr : readScan cd k l.sealed with
  | some res =>
    obtain ⟨sealed1, r⟩ := res
    obtain ⟨pre, s, post, e1, e2, e3, e4, e5⟩ := readScan_some hr
    right
    refine ⟨pre, s, post ++ (if l.activeListed then [l.activeSegment] else []), ?_, e2, e3, ?_,
      e5, rfl, rfl, rfl, ?_, rfl⟩
    · simp only [Log.segments]; split <;> simp [e1, *]
    · simp only [Log.segments]; split <;> simp [e4, *]
    · simp [e4, e1]
  | none =>
    have hn := readScan_none.mp hr
    simp only
    by_cases hc : l.activeListed = true ∧ l.activeSegment.BaseOffset ≤ k
        ∧ k < l.activeSegment.NextOffset
    · right
      rw [if_pos hc]
      refine ⟨l.sealed, l.activeSegment, [], by simp [Log.segments, hc.1], hn, hc.2, ?_, rfl, rfl,
        rfl, rfl, rfl, readSegment_bounds cd _ k⟩
      simp [Log.segments, hc.1]
    · left
      rw [if_neg hc]
      refine ⟨?_, rfl⟩
      intro s hs
      simp only [Log.segments] at hs
      split at hs
      · rcases List.mem_append.mp hs with h | h
        · exact hn s h
        · simp only [List.mem_singleton] at h
          subst h
          intro hcov
          exact hc ⟨by assumption, hcov.1, hcov.2⟩
      · exact hn s hs

theorem chain_cover (bs : List (Nat × Nat))
    (hc : List.Chain' (fun a b : Nat × Nat => a.2 = b.1 ∧ a.1 < a.2) bs) (b e k : Nat)
    (hfirst : bs.head?.map Prod.fst = some b) (hlast : bs.getLast?.map Prod.snd = some e)
    (h1 : b ≤ k) (h2 : k < e) : ∃ x ∈ bs, x.1 ≤ k ∧ k < x.2 := by
  induction bs generalizing b with
  | nil => simp at hfirst
  | cons x rest ih =>
    simp only [List.head?_cons, Option.map_some', Option.some.injEq] at hfirst
    by_cases hk : k < x.2
    · exact ⟨x, List.mem_cons_self _ _, by omega, hk⟩
    · cases rest with
      | nil =>
        simp only [List.getLast?_singleton, Option.map_some', Option.some.injEq] at hlast
        omega
      | cons y rest1 =>
        have hxy := (List.chain'_cons.mp hc).1
        have hc1 := (List.chain'_cons.mp hc).2
        have hl : (y :: rest1).getLast?.map Prod.snd = some e := by
          rw [List.getLast?_cons_cons] at hlast; exact hlast
        obtain ⟨z, hz, hz1⟩ := ih hc1 y.1 (by simp) hl (by omega)
        exact ⟨z, List.mem_cons_of_mem _ hz, hz1⟩

theorem logInv_cover {cd : Codec} {cfg : Config} {hist : List (List Byte)} {l : Log}
    (h : LogInv cd cfg hist l) {k : Nat} (h1 : cfg.InitialOffset ≤ k)
    (h2 : k < cfg.InitialOffset + hist.length) : ∃ s ∈ l.segments, s.covers k := by
  have hl : ((l.sealed ++ [l.activeSegment]).map Segment.bounds).getLast?.map Prod.snd
      = some (cfg.InitialOffset + hist.length) := by
    simp [Segment.bounds, h.next]
  obtain ⟨x, hx, hx1⟩ := chain_cover _ h.chain _ _ k h.first hl h1 h2
  obtain ⟨s, hs, rfl⟩ := List.mem_map.mp hx
  exact ⟨s, by simpa [Log.segments, h.listed] using hs, hx1⟩

theorem logInv_segments {cd : Codec} {cfg : Config} {hist : List (List Byte)} {l : Log}
    (h : LogInv cd cfg hist l) : l.segments = l.sealed ++ [l.activeSegment] := by
  simp [Log.segments, h.listed]

theorem logRead_ok {cd : Codec} (hl : cd.Lawful) {cfg : Config} {hist : List (List Byte)}
    {l : Log} (h : LogInv cd cfg hist l) {k : Nat} (h1 : cfg.InitialOffset ≤ k)
    (h2 : k < cfg.InitialOffset + hist.length) :
    ∃ v, hist[k - cfg.InitialOffset]? = some v ∧
      (l.Read cd k).2 = .ok { Value := v, Offset := k } := by
  obtain ⟨s0, hs0, hc0⟩ := logInv_cover h h1 h2
  rcases logRead_cases cd l k with ⟨hn, _⟩ | ⟨pre, s, post, e1, _, e3, _, e5, _⟩
  · exact absurd hc0 (hn s0 hs0)
  · have hs : s ∈ l.sealed ++ [l.activeSegment] := by
      rw [← logInv_segments h, e1]; simp
    have hok := h.segs s hs
    obtain ⟨v, hv, hr⟩ := segRead_ok hl hok.1 e3.1 e3.2 (by have := h.nowrap; omega)
    refine ⟨v, ?_, ?_⟩
    · simpa [valAt, h1] using hv
    · rw [e5, readSegment_covers e3, hr]

theorem logInv_read {cd : Codec} {cfg : Config} {hist : List (List Byte)} {l : Log}
    (h : LogInv cd cfg hist l) (k : Nat) : LogInv cd cfg hist (l.Read cd k).1 := by
  rcases logRead_cases cd l k with ⟨_, e⟩ | ⟨pre, s, post, e1, _, e3, e4, _, e6, e7, e8, _, e10⟩
  · rw [e]; exact h
  · have hl1 : (l.Read cd k).1.activeListed = true := by rw [e6, h.listed]
    have hseg : (l.Read cd k).1.sealed ++ [(l.Read cd k).1.activeSegment]
        = pre ++ (readSegment cd s k).1 :: post := by
      rw [← e4]; simp [Log.segments, hl1]
    have hseg0 : l.sealed ++ [l.activeSegment] = pre ++ s :: post := by
      rw [← e1]; simp [Log.segments, h.listed]
    have hb : ((l.Read cd k).1.sealed ++ [(l.Read cd k).1.activeSegment]).map Segment.bounds
        = (l.sealed ++ [l.activeSegment]).map Segment.bounds := by
      rw [hseg, hseg0]; simp [readSegment_bounds]
    refine ⟨by rw [e8, h.config], hl1, by rw [e7, h.dir], ?_, by rw [hb]; exact h.chain,
      by rw [hb]; exact h.first, ?_, h.nowrap⟩
    · intro x hx
      rw [hseg] at hx
      have hmem : ∀ y ∈ pre ++ s :: post, SegOK cd cfg hist y := by
        rw [← hseg0]; exact h.segs
      rcases List.mem_append.mp hx with hx | hx
      · exact hmem x (List.mem_append_left _ hx)
      · rcases List.mem_cons.mp hx with rfl | hx
        · exact segOK_readSegment (hmem s (by simp)) k
        · exact hmem x (List.mem_append_right _ (List.mem_cons_of_mem _ hx))
    · have := congrArg Prod.snd e10
      simp only [Segment.bounds] at this
      rw [this, h.next]

/-- What `Log.Append` does on a log whose active segment is listed and whose directory
holds no closed file: a failure of the segment is passed on; after a success the log
rolls over to a fresh segment exactly when the segment is maxed. -/
theorem logAppend_shape (cd : Codec) (l : Log) (r : Record) (hlisted : l.activeListed = true)
    (hdir : l.Dir = []) :
    l.Append cd r =
      if (l.activeSegment.Append cd r).2.2 ≠ none then
        ({ l with activeSegment := (l.activeSegment.Append cd r).1 }, 0,
          (l.activeSegment.Append cd r).2.2)
      else if (l.activeSegment.Append cd r).1.IsMaxed then
        ({ Dir := [], Config := l.Config,
           sealed := l.sealed ++ [(l.activeSegment.Append cd r).1],
           activeSegment :=
             Segment.fresh (((l.activeSegment.Append cd r).2.1 + 1) % 2 ^ 64) l.Config,
           activeListed := true }, (l.activeSegment.Append cd r).2.1, none)
      else
        ({ l with activeSegment := (l.activeSegment.Append cd r).1 },
          (l.activeSegment.Append cd r).2.1, none) := by
  unfold Log.Append
  generalize l.activeSegment.Append cd r = res
  obtain ⟨seg, off, err⟩ := res
  cases err with
  | some e => simp
  | none =>
    simp only [ne_eq, not_true_eq_false, if_false]
    by_cases hm : seg.IsMaxed = true
    · simp only [hm, if_true, Log.newSegment, Log.segments, hlisted, hdir, newSegmentAt_empty]
    · simp only [hm]
      simp

theorem valAt_append (init : Nat) (hist : List (List Byte)) (v : List Byte) (k : Nat)
    (w : List Byte) (h : valAt init hist k = some w) : valAt init (hist ++ [v]) k = some w := by
  unfold valAt at *
  split at h
  · rename_i hk
    rw [if_pos hk]
    have hlt : k - init < hist.length := by
      by_contra hc
      rw [List.getElem?_eq_none (by omega)] at h
      exact Option.noConfusion h
    rw [List.getElem?_append_left hlt]; exact h
  · exact Option.noConfusion h

theorem valAt_new (init : Nat) (hist : List (List Byte)) (v : List Byte) :
    valAt init (hist ++ [v]) (init + hist.length) = some v := by
  simp [valAt]

theorem segOK_append_hist {cd : Codec} {cfg : Config} {hist : List (List Byte)} {s : Segment}
    (h : SegOK cd cfg hist s) (v : List Byte) : SegOK cd cfg (hist ++ [v]) s :=
  ⟨segInv_mono h.1 (fun k w hk => valAt_append _ _ v k w hk), h.2⟩

/-- Replacing the active segment by one with the same base offset keeps the invariant. -/
theorem logInv_setActive {cd : Codec} {cfg : Config} {hist hist1 : List (List Byte)} {l : Log}
    (h : LogInv cd cfg hist l) {s1 : Segment}
    (hsealed : ∀ s ∈ l.sealed, SegOK cd cfg hist1 s)
    (hok : SegOK cd cfg hist1 s1) (hbase : s1.BaseOffset = l.activeSegment.BaseOffset)
    (hnext : s1.NextOffset = cfg.InitialOffset + hist1.length)
    (hwrap : cfg.InitialOffset + hist1.length < 2 ^ 64) :
    LogInv cd cfg hist1 { l with activeSegment := s1 } := by
  refine ⟨h.config, h.listed, h.dir, ?_, ?_, ?_, hnext, hwrap⟩
  · intro s hs
    rcases List.mem_append.mp hs with hs | hs
    · exact hsealed s hs
    · simp only [List.mem_singleton] at hs; subst hs; exact hok
  · have hc := h.chain
    simp only [List.map_append, List.map_cons, List.map_nil] at hc ⊢
    rw [List.chain'_append] at hc ⊢
    refine ⟨hc.1, by simp, ?_⟩
    intro x hx y hy
    have := hc.2.2 x hx l.activeSegment.bounds (by simp)
    simp only [List.head?_cons, Option.mem_def, Option.some.injEq] at hy
    subst hy
    simpa [Segment.bounds, hbase] using this
  · have hf := h.first
    show (((l.sealed ++ [s1]).map Segment.bounds).head?).map Prod.fst = _
    cases hsl : l.sealed with
    | nil => rw [hsl] at hf; simpa [Segment.bounds, hbase] using hf
    | cons a rest => rw [hsl] at hf; simpa using hf

/-- Rolling over to a fresh segment keeps the invariant. -/
theorem logInv_roll {cd : Codec} {cfg : Config} {hist : List (List Byte)} {l : Log}
    (h : LogInv cd cfg hist l) (hne : l.activeSegment.BaseOffset < l.activeSegment.NextOffset) :
    LogInv cd cfg hist
      { Dir := [], Config := l.Config, sealed := l.sealed ++ [l.activeSegment],
        activeSegment := Segment.fresh l.activeSegment.NextOffset l.Config,
        activeListed := true } := by
  have hcfg := h.config
  have hact := h.segs l.activeSegment (by simp)
  have hidx : cfg.MaxIndexBytes ≤ 2 ^ 32 * entWidth := by
    rw [← hact.2.2]; exact hact.1.2.2.2.2.1
  refine ⟨hcfg, rfl, rfl, ?_, ?_, ?_, ?_, h.nowrap⟩
  · intro s hs
    rcases List.mem_append.mp hs with hs | hs
    · exact h.segs s hs
    · simp only [List.mem_singleton] at hs; subst hs
      rw [hcfg]; exact segOK_fresh cd cfg hist _ hidx
  · show List.Chain' _ (((l.sealed ++ [l.activeSegment]) ++ [Segment.fresh _ _]).map Segment.bounds)
    rw [List.map_append, List.chain'_append]
    refine ⟨h.chain, by simp, ?_⟩
    intro x hx y hy
    rw [List.map_append, List.map_cons, List.map_nil, List.getLast?_concat] at hx
    simp only [Option.mem_def, Option.some.injEq] at hx
    simp only [List.map_cons, List.map_nil, List.head?_cons, Option.mem_def,
      Option.some.injEq] at hy
    subst hx hy
    exact ⟨rfl, hne⟩
  · show ((((l.sealed ++ [l.activeSegment]) ++ [Segment.fresh _ _]).map Segment.bounds).head?).map
      Prod.fst = _
    have hf := h.first
    cases hsl : l.sealed with
    | nil => rw [hsl] at hf; simpa using hf
    | cons a rest => rw [hsl] at hf; simpa using hf
  · show l.activeSegment.NextOffset = _
    exact h.next

theorem logInv_append {cd : Codec} (hl : cd.Lawful) {cfg : Config} {hist : List (List Byte)}
    {l : Log} (h : LogInv cd cfg hist l) (r : Record)
    (hsize : l.activeSegment.Store.Size < 2 ^ 64)
    (hwrap : cfg.InitialOffset + hist.length + 1 < 2 ^ 64) :
    ((l.Append cd r).2.2 = none ∧ (l.Append cd r).2.1 = cfg.InitialOffset + hist.length ∧
      LogInv cd cfg (hist ++ [r.Value]) (l.Append cd r).1) ∨
    ((l.Append cd r).2.2 ≠ none ∧ LogInv cd cfg hist (l.Append cd r).1) := by
  have hact := h.segs l.activeSegment (by simp)
  have hsealed : ∀ s ∈ l.sealed, SegOK cd cfg hist s :=
    fun s hs => h.segs s (List.mem_append_left _ hs)
  rw [logAppend_shape cd l r h.listed h.dir]
  rcases segAppend_cases cd l.activeSegment r with ⟨_, e⟩ | ⟨p, _, _, e⟩ | ⟨p, hp, hroom, e⟩
  · right
    rw [e]
    simp only [ne_eq, reduceCtorEq, not_false_eq_true, if_true, true_and]
    exact logInv_setActive h hsealed hact rfl h.next h.nowrap
  · right
    rw [e]
    simp only [ne_eq, reduceCtorEq, not_false_eq_true, if_true, true_and]
    exact logInv_setActive h hsealed ⟨segInv_storeAppend hact.1 p, hact.2⟩ rfl h.next h.nowrap
  · left
    rw [e]
    simp only [ne_eq, not_true_eq_false, if_false]
    have hnext := h.next
    have hok : SegOK cd cfg (hist ++ [r.Value])
        { l.activeSegment with
            Store := (l.activeSegment.Store.Append p).1
            index := (l.activeSegment.index.Write
              (((l.activeSegment.NextOffset + 2 ^ 64 - l.activeSegment.BaseOffset) % 2 ^ 64)
                % 2 ^ 32) l.activeSegment.Store.Size).1
            NextOffset := (l.activeSegment.NextOffset + 1) % 2 ^ 64 } := by
      refine ⟨segInv_appended hl (segOK_append_hist hact r.Value).1 r hp hroom (by omega) hsize
        (by rw [hnext]; exact valAt_new _ _ _), hact.2.1, ?_⟩
      show (l.activeSegment.index.Write _ _).1.mmap.length = _
      rw [indexWrite_length]; exact hact.2.2
    have hmod : (l.activeSegment.NextOffset + 1) % 2 ^ 64 = l.activeSegment.NextOffset + 1 :=
      Nat.mod_eq_of_lt (by omega)
    have h1 := logInv_setActive h (fun s hs => segOK_append_hist (hsealed s hs) r.Value) hok rfl
      (by show (l.activeSegment.NextOffset + 1) % 2 ^ 64 = _; rw [hmod, hnext]; simp; omega)
      (by simp; omega)
    split_ifs with hmax
    · refine ⟨rfl, hnext, ?_⟩
      have h2 := logInv_roll h1 (by
        show l.activeSegment.BaseOffset < (l.activeSegment.NextOffset + 1) % 2 ^ 64
        rw [hmod]; have := hact.1.2.1; omega)
      exact h2
    · exact ⟨rfl, hnext, h1⟩

theorem segAppend_Size_le (cd : Codec) (s : Segment) (r : Record) :
    s.Store.Size ≤ (s.Append cd r).1.Store.Size := by
  rcases segAppend_cases cd s r with ⟨_, e⟩ | ⟨p, _, _, e⟩ | ⟨p, _, _, e⟩ <;> rw [e]
  · show s.Store.Size ≤ (s.Store.Append p).1.Size
    rw [storeAppend_Size]; omega
  · show s.Store.Size ≤ (s.Store.Append p).1.Size
    rw [storeAppend_Size]; omega

theorem logAppend_plain (cd : Codec) (l : Log) (r : Record) (h : l.Plain) (B : Nat) :
    (l.Append cd r).1.Plain ∧ ((l.Append cd r).1.StoresBelow B → l.StoresBelow B) := by
  have hle := segAppend_Size_le cd l.activeSegment r
  rw [logAppend_shape cd l r h.1 h.2]
  have hsub : (∀ s ∈ l.sealed ++ [(l.activeSegment.Append cd r).1], s.Store.Size < B) →
      l.StoresBelow B := by
    intro hb s hs
    simp only [Log.segments, h.1, if_true] at hs
    rcases List.mem_append.mp hs with hs | hs
    · exact hb s (List.mem_append_left _ hs)
    · simp only [List.mem_singleton] at hs; subst hs
      have := hb (l.activeSegment.Append cd r).1 (by simp)
      omega
  split_ifs
  · refine ⟨⟨h.1, h.2⟩, fun hb => hsub ?_⟩
    intro s hs
    exact hb s (by simpa [Log.segments, h.1] using hs)
  · refine ⟨⟨rfl, rfl⟩, fun hb => hsub ?_⟩
    intro s hs
    exact hb s (by
      simp only [Log.segments, if_true]
      exact List.mem_append_left _ hs)
  · refine ⟨⟨h.1, h.2⟩, fun hb => hsub ?_⟩
    intro s hs
    exact hb s (by simpa [Log.segments, h.1] using hs)

theorem logRead_plain (cd : Codec) (l : Log) (k : Nat) (h : l.Plain) (B : Nat) :
    (l.Read cd k).1.Plain ∧ ((l.Read cd k).1.StoresBelow B → l.StoresBelow B) := by
  rcases logRead_cases cd l k with ⟨_, e⟩ | ⟨pre, s, post, e1, _, _, e4, _, e6, e7, _⟩
  · rw [e]; exact ⟨h, id⟩
  · refine ⟨⟨by rw [e6]; exact h.1, by rw [e7]; exact h.2⟩, ?_⟩
    intro hb x hx
    rw [e1] at hx
    unfold Log.StoresBelow at hb
    rw [e4] at hb
    rcases List.mem_append.mp hx with hx | hx
    · exact hb x (List.mem_append_left _ hx)
    · rcases List.mem_cons.mp hx with rfl | hx
      · have := hb (readSegment cd x k).1 (by simp)
        rwa [readSegment_Size] at this
      · exact hb x (List.mem_append_right _ (List.mem_cons_of_mem _ hx))

theorem logStep_plain (cd : Codec) (l : Log) (op : Op) (h : l.Plain) (B : Nat) :
    (l.step cd op).1.Plain ∧ ((l.step cd op).1.StoresBelow B → l.StoresBelow B) := by
  cases op with
  | append r => exact logAppend_plain cd l r h B
  | read k => exact logRead_plain cd l k h B

theorem logRun_bounded (cd : Codec) (ops : List Op) (l : Log) (h : l.Plain) (B : Nat)
    (hb : (l.run cd ops).1.StoresBelow B) : l.StoresBelow B := by
  induction ops generalizing l with
  | nil => exact hb
  | cons op rest ih =>
    have hs := logStep_plain cd l op h B
    exact hs.2 (ih _ hs.1 hb)

theorem logInv_plain {cd : Codec} {cfg : Config} {hist : List (List Byte)} {l : Log}
    (h : LogInv cd cfg hist l) : l.Plain := ⟨h.listed, h.dir⟩

theorem run_cons (cd : Codec) (l : Log) (op : Op) (ops : List Op) :
    l.run cd (op :: ops) =
      ((Log.run cd (l.step cd op).1 ops).1,
        (l.step cd op).2 :: (Log.run cd (l.step cd op).1 ops).2) := rfl

/-- The invariant along a run: it holds at the end for a history that extends the one
at the start by the values of the successful appends, whose offsets are consecutive. -/
theorem run_inv {cd : Codec} (hl : cd.Lawful) {cfg : Config} (ops : List Op) :
    ∀ (l : Log) (hist : List (List Byte)), LogInv cd cfg hist l →
      cfg.InitialOffset + hist.length + ops.length < 2 ^ 64 →
      (l.run cd ops).1.StoresBelow (2 ^ 64) →
      ∃ ext : List (List Byte), LogInv cd cfg (hist ++ ext) (l.run cd ops).1 ∧
        successOffsets (l.run cd ops).2 =
          List.range' (cfg.InitialOffset + hist.length) ext.length ∧
        ∀ (i : Nat) (r : Record) (k : Nat), ops[i]? = some (Op.append r) →
          (l.run cd ops).2[i]? = some (Res.append k none) →
          cfg.InitialOffset + hist.length ≤ k ∧
            (hist ++ ext)[k - cfg.InitialOffset]? = some r.Value := by
  induction ops with
  | nil =>
    intro l hist h _ _
    exact ⟨[], by simpa using h, by simp [Log.run, successOffsets], by simp⟩
  | cons op rest ih =>
    intro l hist h hw hb
    rw [run_cons] at hb ⊢
    have hpl := logInv_plain h
    have hb1 : (l.step cd op).1.StoresBelow (2 ^ 64) :=
      logRun_bounded cd rest _ (logStep_plain cd l op hpl 0).1 _ hb
    have hb0 : l.StoresBelow (2 ^ 64) := (logStep_plain cd l op hpl _).2 hb1
    have hsz : l.activeSegment.Store.Size < 2 ^ 64 :=
      hb0 _ (by simp [Log.segments, h.listed])
    simp only [List.length_cons] at hw
    cases op with
    | read k0 =>
      have h1 := logInv_read h k0
      obtain ⟨ext, e1, e2, e3⟩ := ih _ hist h1 (by omega) hb
      refine ⟨ext, e1, ?_, ?_⟩
      · simpa [Log.step, successOffsets] using e2
      · intro i r k hop hres
        cases i with
        | zero => simp at hop
        | succ j => exact e3 j r k (by simpa using hop) (by simpa using hres)
    | append r0 =>
      rcases logInv_append hl h r0 hsz (by omega) with ⟨a1, a2, a3⟩ | ⟨a1, a3⟩
      · obtain ⟨ext, e1, e2, e3⟩ := ih _ (hist ++ [r0.Value]) a3
          (by simp only [List.length_append, List.length_singleton]; omega) hb
        refine ⟨r0.Value :: ext, by simpa using e1, ?_, ?_⟩
        · simp only [Log.step, a1, a2, successOffsets, List.length_cons]
          rw [List.range'_succ]
          simp only [List.length_append, List.length_singleton] at e2
          rw [e2, Nat.add_assoc]
        · intro i r k hop hres
          cases i with
          | zero =>
            simp only [List.getElem?_cons_zero, Option.some.injEq, Op.append.injEq] at hop
            simp only [Log.step, List.getElem?_cons_zero, Option.some.injEq, Res.append.injEq] at hres
            subst hop
            rw [← hres.1, a2]
            refine ⟨le_refl _, ?_⟩
            rw [Nat.add_sub_cancel_left, List.getElem?_append_right (le_refl _)]
            simp
          | succ j =>
            have := e3 j r k (by simpa using hop) (by simpa using hres)
            simp only [List.length_append, List.length_singleton, List.append_assoc,
              List.singleton_append] at this
            exact ⟨by omega, this.2⟩
      · obtain ⟨ext, e1, e2, e3⟩ := ih _ hist a3 (by omega) hb
        refine ⟨ext, e1, ?_, ?_⟩
        · cases he : (l.Append cd r0).2.2 with
          | none => exact absurd he a1
          | some e => simpa [Log.step, he, successOffsets] using e2
        · intro i r k hop hres
          cases i with
          | zero =>
            simp only [Log.step, List.getElem?_cons_zero, Option.some.injEq, Res.append.injEq] at hres
            exact absurd hres.2 a1
          | succ j => exact e3 j r k (by simpa using hop) (by simpa using hres)

theorem fixedCodec_lawful : fixedCodec.Lawful := by
  intro r p hr hm
  simp only [fixedCodec] at hm ⊢
  split at hm
  · rename_i hlen
    simp only [Option.some.injEq] at hm
    subst hm
    refine ⟨by simp [putUint64_length]; omega, ?_⟩
    have h8 : ¬ (putUint64 r.Offset ++ r.Value).length < 8 := by simp [putUint64_length]
    rw [if_neg h8]
    have e1 : (putUint64 r.Offset ++ r.Value).drop 8 = r.Value :=
      List.drop_left' (putUint64_length _)
    have e2 : (putUint64 r.Offset ++ r.Value).take 8 = putUint64 r.Offset :=
      List.take_left' (putUint64_length _)
    rw [e1, e2, Uint64_putUint64, Nat.mod_eq_of_lt hr]
  · exact Option.noConfusion hm

/-- C1, as amended. On a log created on an empty directory, after any sequence of appends and reads
(no truncate), an append that returned the offset `k` without error is read back at
`k`: `Read(k)` succeeds with the appended value and the offset `k`.  The envelope is
assumed to decode what it encodes; the offsets of the run stay below `2 ^ 64`, the index
limit within the range of the 32-bit relative offsets, the stores below `2 ^ 64` bytes. -/
theorem append_then_read (cd : Codec) (hl : cd.Lawful) (cfg : Config) (l0 : Log)
    (h0 : Log.New [] cfg = .ok l0)
    (hidx : cfg.withDefaults.MaxIndexBytes ≤ 2 ^ 32 * 12)
    (ops : List Op) (hoff : cfg.InitialOffset + ops.length < 2 ^ 64)
    (hsize : ∀ s ∈ (l0.run cd ops).1.segments, s.Store.Size < 2 ^ 64)
    (i : Nat) (r : Record) (k : Nat) (hop : ops[i]? = some (Op.append r))
    (hres : (l0.run cd ops).2[i]? = some (Res.append k none)) :
    ((l0.run cd ops).1.Read cd k).2 = .ok { Value := r.Value, Offset := k } := by
  have hinv := logInv_New cd cfg l0 h0 hidx (by omega)
  obtain ⟨ext, e1, _, e3⟩ := run_inv hl ops l0 [] hinv
    (by simpa [withDefaults_InitialOffset] using hoff) hsize
  obtain ⟨hk, hv⟩ := e3 i r k hop hres
  simp only [List.length_nil, Nat.add_zero, List.nil_append] at hk hv e1
  have hlt : k - cfg.withDefaults.InitialOffset < ext.length := by
    by_contra hc
    rw [List.getElem?_eq_none (by omega)] at hv
    exact Option.noConfusion hv
  obtain ⟨v, hv1, hr⟩ := logRead_ok hl e1 hk (by omega)
  rw [hv] at hv1
  cases hv1
  exact hr

set_option maxRecDepth 100000 in
/-- C1 at the limits (1024, 36) and `InitialOffset = 7`: the second append returns 8
and `Read(8)` returns its value. -/
theorem append_then_read_witness :
    fixedCodec.Lawful ∧ Log.New [] ⟨1024, 36, 7⟩ = .ok (Log.empty ⟨1024, 36, 7⟩) ∧
      ((Log.empty ⟨1024, 36, 7⟩).run fixedCodec
        [.append ⟨[1, 2], 0⟩, .read 7, .append ⟨[3], 0⟩]).2[2]? = some (Res.append 8 none) ∧
      (((Log.empty ⟨1024, 36, 7⟩).run fixedCodec
        [.append ⟨[1, 2], 0⟩, .read 7, .append ⟨[3], 0⟩]).1.Read fixedCodec 8).2
          = .ok { Value := [3], Offset := 8 } :=
  ⟨fixedCodec_lawful, New_empty _, by rfl,
    append_then_read fixedCodec fixedCodec_lawful ⟨1024, 36, 7⟩ _ (New_empty _) (by decide)
      [.append ⟨[1, 2], 0⟩, .read 7, .append ⟨[3], 0⟩] (by decide) (by decide) 2 ⟨[3], 0⟩ 8
      (by rfl) (by rfl)⟩

theorem segAppend_offsets (cd : Codec) (s : Segment) (r : Record) :
    (s.Append cd r).1.BaseOffset = s.BaseOffset ∧
    ((s.Append cd r).2.2 = none →
      (s.Append cd r).2.1 = s.NextOffset ∧
        (s.Append cd r).1.NextOffset = (s.NextOffset + 1) % 2 ^ 64) ∧
    ((s.Append cd r).2.2 ≠ none → (s.Append cd r).1.NextOffset = s.NextOffset) := by
  rcases segAppend_cases cd s r with ⟨_, e⟩ | ⟨p, _, _, e⟩ | ⟨p, _, _, e⟩ <;> rw [e] <;> simp

theorem logLowest_plain (l : Log) (h : l.Plain) :
    l.LowestOffset = .ok ((l.sealed.head?).getD l.activeSegment).BaseOffset := by
  unfold Log.LowestOffset Log.segments
  rw [if_pos h.1]
  cases hs : l.sealed <;> simp

theorem logHighest_plain (l : Log) (h : l.Plain) :
    l.HighestOffset =
      .ok (if l.activeSegment.NextOffset = 0 then 0 else l.activeSegment.NextOffset - 1) := by
  unfold Log.HighestOffset Log.segments
  rw [if_pos h.1, List.getLast?_concat]
  simp only
  split_ifs <;> rfl

/-- What an append returns and leaves behind, on a log whose active segment is listed
and whose directory holds no closed file. -/
theorem logAppend_offsets (cd : Codec) (l : Log) (r : Record) (h : l.Plain) :
    (l.Append cd r).1.LowestOffset = l.LowestOffset ∧
    ((l.Append cd r).2.2 = none →
      (l.Append cd r).2.1 = l.activeSegment.NextOffset ∧
        (l.Append cd r).1.activeSegment.NextOffset = (l.activeSegment.NextOffset + 1) % 2 ^ 64) ∧
    ((l.Append cd r).2.2 ≠ none →
      (l.Append cd r).1.activeSegment.NextOffset = l.activeSegment.NextOffset) := by
  have hp := (logAppend_plain cd l r h 0).1
  obtain ⟨hb, hs, hf⟩ := segAppend_offsets cd l.activeSegment r
  rw [logLowest_plain _ hp, logLowest_plain _ h]
  have key := logAppend_shape cd l r h.1 h.2
  by_cases he : (l.activeSegment.Append cd r).2.2 = none
  · rw [if_neg (by simp [he])] at key
    by_cases hm : (l.activeSegment.Append cd r).1.IsMaxed = true
    · rw [if_pos hm] at key
      simp only [key, (hs he).1, true_and, ne_eq, not_true_eq_false, false_implies, and_true,
        forall_true_left]
      refine ⟨?_, rfl⟩
      cases hsl : l.sealed <;> simp [hb]
    · rw [if_neg hm] at key
      simp only [key, (hs he).1, (hs he).2, true_and, ne_eq, not_true_eq_false, false_implies,
        and_true, forall_true_left, and_self]
      cases hsl : l.sealed <;> simp [hb]
  · rw [if_pos he] at key
    simp only [key, he, false_implies, ne_eq, not_false_eq_true, forall_true_left, true_and, hf he,
      and_true]
    cases hsl : l.sealed <;> simp [hb]

theorem logRead_offsets (cd : Codec) (l : Log) (k : Nat) :
    (l.Read cd k).1.LowestOffset = l.LowestOffset ∧
    (l.Read cd k).1.activeSegment.NextOffset = l.activeSegment.NextOffset := by
  rcases logRead_cases cd l k with ⟨_, e⟩ | ⟨pre, s, post, e1, _, _, e4, _, e6, e7, _, _, e10⟩
  · rw [e]; exact ⟨rfl, rfl⟩
  · refine ⟨?_, congrArg Prod.snd e10⟩
    unfold Log.LowestOffset
    rw [e4, e1]
    cases pre with
    | nil => simpa using congrArg Prod.fst (readSegment_bounds cd s k)
    | cons a rest => simp

/-- Offsets along a run of a log whose active segment is listed and whose directory
holds no closed file: the successful appends return consecutive offsets beginning with
`NextOffset` of the active segment, which ends past the last of them; the lowest offset
stays. -/
theorem run_offsets (cd : Codec) (ops : List Op) :
    ∀ l : Log, l.Plain →
      (l.run cd ops).1.Plain ∧ (l.run cd ops).1.LowestOffset = l.LowestOffset ∧
      (l.activeSegment.NextOffset + (successOffsets (l.run cd ops).2).length ≤ 2 ^ 64 →
        successOffsets (l.run cd ops).2 =
          List.range' l.activeSegment.NextOffset (successOffsets (l.run cd ops).2).length) ∧
      (l.activeSegment.NextOffset + (successOffsets (l.run cd ops).2).length < 2 ^ 64 →
        (l.run cd ops).1.activeSegment.NextOffset
          = l.activeSegment.NextOffset + (successOffsets (l.run cd ops).2).length) := by
  induction ops with
  | nil => intro l h; simp [Log.run, successOffsets, h]
  | cons op rest ih =>
    intro l h
    rw [run_cons]
    have hp1 := (logStep_plain cd l op h 0).1
    obtain ⟨i1, i2, i3, i4⟩ := ih _ hp1
    cases op with
    | read k0 =>
      obtain ⟨r1, r2⟩ := logRead_offsets cd l k0
      simp only [Log.step] at i1 i2 i3 i4 ⊢
      simp only [successOffsets]
      rw [r2] at i3 i4
      exact ⟨i1, i2.trans r1, i3, i4⟩
    | append r0 =>
      obtain ⟨a1, a2, a3⟩ := logAppend_offsets cd l r0 h
      simp only [Log.step] at i1 i2 i3 i4 ⊢
      cases he : (l.Append cd r0).2.2 with
      | some e =>
        simp only [successOffsets]
        rw [a3 (by simp [he])] at i3 i4
        exact ⟨i1, i2.trans a1, i3, i4⟩
      | none =>
        obtain ⟨b1, b2⟩ := a2 he
        simp only [successOffsets, List.length_cons]
        rw [b2] at i3 i4
        have hmod : (l.activeSegment.NextOffset + 1) % 2 ^ 64 ≤ l.activeSegment.NextOffset + 1 :=
          Nat.mod_le _ _
        refine ⟨i1, i2.trans a1, ?_, ?_⟩
        · intro hb
          rw [b1, List.range'_succ]
          congr 1
          refine (i3 (by omega)).trans ?_
          by_cases hz : (successOffsets (Log.run cd (l.Append cd r0).1 rest).2).length = 0
          · rw [hz]; rfl
          · rw [Nat.mod_eq_of_lt (by omega)]
        · intro hb
          rw [i4 (by omega), Nat.mod_eq_of_lt (by omega)]
          omega

theorem logNew_plain (cfg : Config) (l0 : Log) (h0 : Log.New [] cfg = .ok l0) :
    l0.Plain ∧ l0.activeSegment.NextOffset = cfg.InitialOffset ∧
      l0.LowestOffset = .ok cfg.InitialOffset := by
  rw [New_empty] at h0
  cases h0
  unfold Log.empty
  refine ⟨⟨rfl, rfl⟩, ?_, ?_⟩
  · simp [Segment.fresh, withDefaults_InitialOffset]
  · simp [Log.LowestOffset, Log.segments, Segment.fresh, withDefaults_InitialOffset]

/-- C2. On a log created on an empty directory, the offsets returned by the successful
appends of any run of appends and reads (failed appends and rollovers included) are, in
order, `InitialOffset, InitialOffset + 1, ...`, as long as they fit into a `uint64`. -/
theorem append_offsets_consecutive (cd : Codec) (cfg : Config) (l0 : Log)
    (h0 : Log.New [] cfg = .ok l0) (ops : List Op)
    (hoff : cfg.InitialOffset + (successOffsets (l0.run cd ops).2).length ≤ 2 ^ 64) :
    successOffsets (l0.run cd ops).2 =
      List.range' cfg.InitialOffset (successOffsets (l0.run cd ops).2).length := by
  obtain ⟨hp, hn, _⟩ := logNew_plain cfg l0 h0
  have := (run_offsets cd ops l0 hp).2.2.1
  rw [hn] at this
  exact this hoff

set_option maxRecDepth 100000 in
/-- C2 at the limits (1024, 24) and `InitialOffset = 5`: three appends across a rollover
return 5, 6, 7. -/
theorem append_offsets_consecutive_witness :
    Log.New [] ⟨1024, 24, 5⟩ = .ok (Log.empty ⟨1024, 24, 5⟩) ∧
      successOffsets ((Log.empty ⟨1024, 24, 5⟩).run fixedCodec
        [.append ⟨[1], 0⟩, .append ⟨[2], 0⟩, .read 5, .append ⟨[3], 0⟩]).2 = [5, 6, 7] :=
  ⟨New_empty _, (append_offsets_consecutive fixedCodec ⟨1024, 24, 5⟩ _ (New_empty _)
      [.append ⟨[1], 0⟩, .append ⟨[2], 0⟩, .read 5, .append ⟨[3], 0⟩] (by decide)).trans
        (by rfl)⟩

/-- C10, as amended. On a log created on an empty directory, after a run of appends and reads with
at least one successful append and offsets below `2 ^ 64`, `HighestOffset` returns the
offset the most recent successful append returned (also right after a rollover, when
the active segment is empty) and `LowestOffset` returns `InitialOffset`. -/
theorem highest_lowest_after_appends (cd : Codec) (cfg : Config) (l0 : Log)
    (h0 : Log.New [] cfg = .ok l0) (ops : List Op) (k : Nat)
    (hlast : (successOffsets (l0.run cd ops).2).getLast? = some k)
    (hoff : cfg.InitialOffset + (successOffsets (l0.run cd ops).2).length < 2 ^ 64) :
    (l0.run cd ops).1.HighestOffset = .ok k ∧
      (l0.run cd ops).1.LowestOffset = .ok cfg.InitialOffset := by
  obtain ⟨hp, hn, hlow⟩ := logNew_plain cfg l0 h0
  obtain ⟨r1, r2, r3, r4⟩ := run_offsets cd ops l0 hp
  rw [hn] at r3 r4
  have e3 := r3 (by omega)
  have e4 := r4 hoff
  refine ⟨?_, r2.trans hlow⟩
  rw [logHighest_plain _ r1, e4]
  generalize hm : (successOffsets (l0.run cd ops).2).length = m at *
  rw [e3] at hlast
  cases m with
  | zero => simp at hlast
  | succ n =>
    rw [List.getLast?_eq_getElem?, List.getElem?_range'] at hlast
    · simp only [List.length_range', Nat.add_sub_cancel, Nat.one_mul, Option.some.injEq] at hlast
      rw [if_neg (by omega)]
      congr 1
    · simp

set_option maxRecDepth 100000 in
/-- C10 at the limits (1024, 36): the third append rolls the segment, and
`HighestOffset` is 2 while the active segment is empty. -/
theorem highest_lowest_after_appends_witness :
    Log.New [] ⟨1024, 36, 0⟩ = .ok (Log.empty ⟨1024, 36, 0⟩) ∧
      (((Log.empty ⟨1024, 36, 0⟩).run fixedCodec (appendsUpTo 3)).1.segments.map
        Segment.bounds = [(0, 3), (3, 3)]) ∧
      ((Log.empty ⟨1024, 36, 0⟩).run fixedCodec (appendsUpTo 3)).1.HighestOffset = .ok 2 ∧
      ((Log.empty ⟨1024, 36, 0⟩).run fixedCodec (appendsUpTo 3)).1.LowestOffset = .ok 0 :=
  ⟨New_empty _, by rfl,
    highest_lowest_after_appends fixedCodec ⟨1024, 36, 0⟩ _ (New_empty _)
      (appendsUpTo 3) 2 (by rfl) (by decide)⟩

theorem indexRead_error (idx : Index) (i : Int) (e : Err) (h : idx.Read i = .error e) :
    e = Err.EOF ∨ e = Err.Panic := by
  unfold Index.Read at h
  simp only at h
  split_ifs at h <;> simp_all

theorem readAt_error (file : List Byte) (n off : Nat) (e : Err) (h : readAt file n off = .error e) :
    e = Err.EOF := by
  unfold readAt at h
  split_ifs at h
  simp_all

theorem storeRead_error (s : FileStorage) (pos : Nat) (e : Err) (h : (s.Read pos).2 = .error e) :
    e = Err.EOF := by
  simp only [FileStorage.Read] at h
  split at h
  · rename_i e1 h1
    simp only [Except.error.injEq] at h
    subst h
    exact readAt_error _ _ _ _ h1
  · split at h
    · rename_i e1 h1
      simp only [Except.error.injEq] at h
      subst h
      exact readAt_error _ _ _ _ h1
    · simp at h

/-- The errors `Segment.Read` can return. -/
theorem segRead_error (cd : Codec) (s : Segment) (k : Nat) (e : Err)
    (h : (s.Read cd k).2 = .error e) : e = Err.EOF ∨ e = Err.Panic ∨ e = Err.Unmarshal := by
  unfold Segment.Read at h
  split at h
  · rename_i e1 h1
    simp only [Except.error.injEq] at h
    subst h
    rcases indexRead_error _ _ _ h1 with h2 | h2 <;> simp [h2]
  · split at h
    · rename_i st e1 h1
      simp only [Except.error.injEq] at h
      subst h
      left
      exact storeRead_error s.Store _ _ (by rw [h1])
    · split at h
      · simp only [Except.error.injEq] at h
        subst h; simp
      · simp at h

theorem find?_first {α : Type} (p : α → Bool) (pre : List α) (s : α) (post : List α)
    (h1 : ∀ x ∈ pre, p x = false) (h2 : p s = true) :
    (pre ++ s :: post).find? p = some s := by
  induction pre with
  | nil => simp [h2]
  | cons a rest ih =>
    have ha := h1 a (List.mem_cons_self _ _)
    simp only [List.cons_append, List.find?_cons, ha]
    exact ih (fun x hx => h1 x (List.mem_cons_of_mem _ hx))

/-- The result of `Log.Read`, by the first segment of the slice that covers the offset. -/
theorem logRead_find (cd : Codec) (l : Log) (k : Nat) :
    (l.Read cd k).2 =
      match l.segments.find? (fun s => decide (s.BaseOffset ≤ k ∧ k < s.NextOffset)) with
      | none => .error (Err.ErrOffsetOutOfRange k)
      | some s => (s.Read cd k).2 := by
  rcases logRead_cases cd l k with ⟨hn, e⟩ | ⟨pre, s, post, e1, e2, e3, _, e5, _⟩
  · have : l.segments.find? (fun s => decide (s.BaseOffset ≤ k ∧ k < s.NextOffset)) = none := by
      rw [List.find?_eq_none]
      intro x hx
      simpa [Segment.covers] using hn x hx
    rw [this, e]
  · have : l.segments.find? (fun s => decide (s.BaseOffset ≤ k ∧ k < s.NextOffset)) = some s := by
      rw [e1]
      exact find?_first _ _ _ _ (fun x hx => by simpa [Segment.covers] using e2 x hx)
        (by simpa [Segment.covers] using e3)
    rw [this, e5, readSegment_covers e3]

/-- C9. `Log.Read(offset)` returns what the first segment with
`BaseOffset <= offset < NextOffset` returns for the offset, and `ErrOffsetOutOfRange`
with that offset when there is no such segment; it fails with `ErrOffsetOutOfRange` if
and only if no segment satisfies the condition, and then the error carries the offset
asked for; `Read(0)` on a log just created on an empty directory fails with it. -/
theorem read_out_of_range_iff (cd : Codec) (l : Log) (offset : Nat) (cfg : Config) :
    ((l.Read cd offset).2 =
      match l.segments.find? (fun s => decide (s.BaseOffset ≤ offset ∧ offset < s.NextOffset)) with
      | none => .error (Err.ErrOffsetOutOfRange offset)
      | some s => (s.Read cd offset).2) ∧
    ((∃ o, (l.Read cd offset).2 = .error (Err.ErrOffsetOutOfRange o)) ↔
      ∀ s ∈ l.segments, ¬ (s.BaseOffset ≤ offset ∧ offset < s.NextOffset)) ∧
    ((l.Read cd offset).2 = .error (Err.ErrOffsetOutOfRange offset) ↔
      ∀ s ∈ l.segments, ¬ (s.BaseOffset ≤ offset ∧ offset < s.NextOffset)) ∧
    (Log.New? [] cfg).map (fun l0 => (l0.Read cd 0).2)
      = some (.error (Err.ErrOffsetOutOfRange 0)) := by
  have key : ∀ o, (l.Read cd offset).2 = .error (Err.ErrOffsetOutOfRange o) →
      ∀ s ∈ l.segments, ¬ (s.BaseOffset ≤ offset ∧ offset < s.NextOffset) := by
    intro o ho
    rcases logRead_cases cd l offset with ⟨hn, _⟩ | ⟨pre, s, post, _, _, e3, _, e5, _⟩
    · exact hn
    · rw [e5, readSegment_covers e3] at ho
      rcases segRead_error cd s offset _ ho with h | h | h <;> cases h
  have back : (∀ s ∈ l.segments, ¬ (s.BaseOffset ≤ offset ∧ offset < s.NextOffset)) →
      (l.Read cd offset).2 = .error (Err.ErrOffsetOutOfRange offset) := by
    intro hn
    rcases logRead_cases cd l offset with ⟨_, e⟩ | ⟨pre, s, post, e1, _, e3, _⟩
    · rw [e]
    · exact absurd e3 (hn s (by rw [e1]; simp))
  refine ⟨logRead_find cd l offset, ⟨fun ⟨o, ho⟩ => key o ho, fun hn => ⟨offset, back hn⟩⟩,
    ⟨key offset, back⟩, ?_⟩
  simp only [Log.New?, New_empty, Option.map_some', Option.some.injEq]
  simp only [Log.Read, readScan, Segment.fresh, Log.empty]
  rw [if_neg (by omega)]

/-- The slice `Log.Truncate` leaves: the segments that are not truncated, in order. -/
theorem truncate_segments (l : Log) (lowest : Nat) :
    (l.Truncate lowest).segments = l.segments.filter (fun s => !truncated lowest s) := by
  unfold Log.Truncate Log.segments
  cases hl : l.activeListed <;> cases ht : truncated lowest l.activeSegment <;>
    simp [List.filter_append, hl, ht]

theorem truncated_iff (lowest : Nat) (h : lowest + 1 < 2 ^ 64) (s : Segment) :
    truncated lowest s = true ↔ s.NextOffset ≤ lowest + 1 := by
  unfold truncated
  rw [Nat.mod_eq_of_lt h]
  simp

theorem find?_filter_of_imp {α : Type} (p q : α → Bool) (l : List α)
    (h : ∀ x ∈ l, p x = true → q x = true) : (l.filter q).find? p = l.find? p := by
  induction l with
  | nil => rfl
  | cons a rest ih =>
    have ih1 := ih (fun x hx => h x (List.mem_cons_of_mem _ hx))
    by_cases hq : q a = true
    · rw [List.filter_cons_of_pos hq, List.find?_cons, List.find?_cons, ih1]
    · have hp : p a = false := by
        by_contra hc
        exact hq (h a (List.mem_cons_self _ _) (by simpa using hc))
      rw [List.filter_cons_of_neg hq, List.find?_cons, hp, ih1]

/-- C6, as amended. `Log.Truncate(L)` (with `L + 1` a `uint64`) leaves exactly the segments with
`NextOffset > L + 1`, in their order and as they were, and `Read(k)` returns for every
`k > L` what it returned before. -/
theorem truncate_keeps_above (cd : Codec) (l : Log) (L : Nat) (hL : L + 1 < 2 ^ 64) :
    (l.Truncate L).segments = l.segments.filter (fun s => decide (¬ s.NextOffset ≤ L + 1)) ∧
    ∀ k, L < k → ((l.Truncate L).Read cd k).2 = (l.Read cd k).2 := by
  have hseg : (l.Truncate L).segments
      = l.segments.filter (fun s => decide (¬ s.NextOffset ≤ L + 1)) := by
    rw [truncate_segments]
    congr 1
    funext s
    have := truncated_iff L hL s
    by_cases hc : s.NextOffset ≤ L + 1
    · simp [hc, this.mpr hc]
    · have : truncated L s = false := by
        cases ht : truncated L s
        · rfl
        · exact absurd (this.mp ht) hc
      simp [hc, this]
  refine ⟨hseg, ?_⟩
  intro k hk
  rw [logRead_find, logRead_find, hseg, find?_filter_of_imp]
  intro s _ hs
  simp only [decide_eq_true_eq] at hs ⊢
  omega

/-- C5, as amended. After `Log.Truncate(L)` (with `L + 1` a `uint64`), `Read(k)` fails
with `ErrOffsetOutOfRange` exactly when every segment that held `k` was removed, that
is, had `NextOffset <= L + 1`. -/
theorem truncate_read_out_of_range (cd : Codec) (l : Log) (L : Nat) (hL : L + 1 < 2 ^ 64)
    (k : Nat) :
    ((l.Truncate L).Read cd k).2 = .error (Err.ErrOffsetOutOfRange k) ↔
      ∀ s ∈ l.segments, s.BaseOffset ≤ k ∧ k < s.NextOffset → s.NextOffset ≤ L + 1 := by
  have hseg := truncate_segments l L
  constructor
  · intro h s hs hcov
    rcases logRead_cases cd (l.Truncate L) k with ⟨hn, _⟩ | ⟨pre, x, post, _, _, e3, _, e5, _⟩
    · by_contra hc
      refine hn s ?_ hcov
      rw [hseg, List.mem_filter]
      refine ⟨hs, ?_⟩
      cases ht : truncated L s
      · rfl
      · exact absurd ((truncated_iff L hL s).mp ht) hc
    · rw [e5, readSegment_covers e3] at h
      rcases segRead_error cd x k _ h with h1 | h1 | h1 <;> cases h1
  · intro h
    rcases logRead_cases cd (l.Truncate L) k with ⟨_, e⟩ | ⟨pre, x, post, e1, _, e3, _⟩
    · rw [e]
    · have hx : x ∈ (l.Truncate L).segments := by rw [e1]; simp
      rw [hseg, List.mem_filter] at hx
      have := (truncated_iff L hL x).mpr (h x hx.1 e3)
      rw [this] at hx
      simp at hx

set_option maxRecDepth 1000000 in
/-- C5, counterexample. With the limits (1024, 1024), after the appends of the offsets
0..9 and `Truncate(4)`, `Read(3)` does not fail: all ten records lie in one segment,
which reaches beyond 4 and is kept. -/
theorem truncate_read_below_counterexample :
    Log.New [] ⟨1024, 1024, 0⟩ = .ok (Log.empty ⟨1024, 1024, 0⟩) ∧
      successOffsets ((Log.empty ⟨1024, 1024, 0⟩).run fixedCodec (appendsUpTo 10)).2 = [0, 1, 2, 3, 4, 5, 6, 7, 8, 9] ∧
      3 ≤ 4 ∧
      ((((Log.empty ⟨1024, 1024, 0⟩).run fixedCodec (appendsUpTo 10)).1.Truncate 4).Read
        fixedCodec 3).2
        = .ok { Value := [3], Offset := 3 } :=
  ⟨New_empty _, by rfl, by decide, by rfl⟩

set_option maxRecDepth 1000000 in
/-- C5, as amended, at the limits (1024, 36): after the appends of 0..9 and
`Truncate(4)` the segment `[0, 3)` is gone and `Read(2)` fails. -/
theorem truncate_read_out_of_range_witness :
    Log.New [] ⟨1024, 36, 0⟩ = .ok (Log.empty ⟨1024, 36, 0⟩) ∧
      (((Log.empty ⟨1024, 36, 0⟩).run fixedCodec (appendsUpTo 10)).1.segments.map Segment.bounds
        = [(0, 3), (3, 6), (6, 9), (9, 10)]) ∧
      ((((Log.empty ⟨1024, 36, 0⟩).run fixedCodec (appendsUpTo 10)).1.Truncate 4).Read fixedCodec 2).2
        = .error (Err.ErrOffsetOutOfRange 2) :=
  ⟨New_empty _, by rfl,
    (truncate_read_out_of_range fixedCodec _ 4 (by decide) 2).mpr (by decide)⟩

set_option maxRecDepth 1000000 in
/-- C6 at the limits (1024, 36): after the appends of 0..9, `Truncate(4)` leaves the
segments from `[3, 6)` on, and `Read(5)` returns its record. -/
theorem truncate_keeps_above_witness :
    Log.New [] ⟨1024, 36, 0⟩ = .ok (Log.empty ⟨1024, 36, 0⟩) ∧
      ((((Log.empty ⟨1024, 36, 0⟩).run fixedCodec (appendsUpTo 10)).1.Truncate 4).segments.map Segment.bounds
        = [(3, 6), (6, 9), (9, 10)]) ∧
      ((((Log.empty ⟨1024, 36, 0⟩).run fixedCodec (appendsUpTo 10)).1.Truncate 4).Read fixedCodec 5).2
        = .ok { Value := [5], Offset := 5 } :=
  ⟨New_empty _, by rfl,
    ((truncate_keeps_above fixedCodec _ 4 (by decide)).2 5
      (by decide)).trans (by rfl)⟩

/-- C7, as amended. On a log whose active segment is listed and whose directory holds
no closed file (every log created on an empty directory and grown by appends and reads
is one), `Log.Append` rolls over exactly when the append to the active segment
succeeded and left it maxed, `Store.Size >= MaxStoreBytes` or `Index.Size >=
MaxIndexBytes`: then the slice gains a fresh segment at `offset + 1` behind the segment
appended to, and otherwise it keeps its length.  A segment that is rolled has no room
for another record. -/
theorem append_rolls_iff_maxed (cd : Codec) (l : Log) (r : Record) (h : l.Plain) :
    (((l.activeSegment.Append cd r).2.2 = none ∧
        ((l.activeSegment.Append cd r).1.Store.Size
            ≥ (l.activeSegment.Append cd r).1.config.MaxStoreBytes ∨
          (l.activeSegment.Append cd r).1.index.Size
            ≥ (l.activeSegment.Append cd r).1.config.MaxIndexBytes)) →
      (l.Append cd r).1.segments =
        l.sealed ++ [(l.activeSegment.Append cd r).1,
          Segment.fresh (((l.activeSegment.Append cd r).2.1 + 1) % 2 ^ 64) l.Config] ∧
      ∀ p : List Byte,
        (l.activeSegment.Append cd r).1.Store.Size + (lenWidth + p.length)
            > (l.activeSegment.Append cd r).1.config.MaxStoreBytes ∨
          (l.activeSegment.Append cd r).1.index.Size + entWidth
            > (l.activeSegment.Append cd r).1.config.MaxIndexBytes) ∧
    (¬ ((l.activeSegment.Append cd r).2.2 = none ∧
        ((l.activeSegment.Append cd r).1.Store.Size
            ≥ (l.activeSegment.Append cd r).1.config.MaxStoreBytes ∨
          (l.activeSegment.Append cd r).1.index.Size
            ≥ (l.activeSegment.Append cd r).1.config.MaxIndexBytes)) →
      (l.Append cd r).1.segments = l.sealed ++ [(l.activeSegment.Append cd r).1]) := by
  have key := logAppend_shape cd l r h.1 h.2
  have hmax : (l.activeSegment.Append cd r).1.IsMaxed = true ↔
      ((l.activeSegment.Append cd r).1.Store.Size
            ≥ (l.activeSegment.Append cd r).1.config.MaxStoreBytes ∨
          (l.activeSegment.Append cd r).1.index.Size
            ≥ (l.activeSegment.Append cd r).1.config.MaxIndexBytes) := by
    simp [Segment.IsMaxed]
  constructor
  · rintro ⟨he, hm⟩
    rw [if_neg (by simp [he]), if_pos (hmax.mpr hm)] at key
    rw [key]
    refine ⟨by simp [Log.segments], ?_⟩
    intro p
    simp only [lenWidth_eq, entWidth_eq]
    omega
  · intro hn
    by_cases he : (l.activeSegment.Append cd r).2.2 = none
    · have hm : ¬ (l.activeSegment.Append cd r).1.IsMaxed = true :=
        fun hm => hn ⟨he, hmax.mp hm⟩
      rw [if_neg (by simp [he]), if_neg hm] at key
      rw [key]; simp [Log.segments, h.1]
    · rw [if_pos he] at key
      rw [key]; simp [Log.segments, h.1]

set_option maxRecDepth 100000 in
/-- C7, counterexample. With `MaxStoreBytes = 20` a first record with a value of 30
bytes would exceed the limit of the active segment, whatever the envelope (here the
length prefix and the envelope take 46 bytes); it is appended to that segment all the
same (the segment with base 0 then holds offset 0 in a store beyond the limit), and the
log rolls over only afterwards. -/
theorem append_beyond_limit_counterexample :
    Log.New [] ⟨20, 1024, 0⟩ = .ok (Log.empty ⟨20, 1024, 0⟩) ∧
    (Log.empty ⟨20, 1024, 0⟩).activeSegment.Store.Size
      + (lenWidth + ((fixedCodec.marshal ⟨List.replicate 30 7, 0⟩).getD []).length)
      > (Log.empty ⟨20, 1024, 0⟩).activeSegment.config.MaxStoreBytes ∧
    ((Log.empty ⟨20, 1024, 0⟩).Append fixedCodec ⟨List.replicate 30 7, 0⟩).2
      = (0, none) ∧
    (((Log.empty ⟨20, 1024, 0⟩).Append fixedCodec ⟨List.replicate 30 7, 0⟩).1.segments.map
      (fun s => (s.BaseOffset, s.NextOffset, s.Store.Size))) = [(0, 1, 46), (1, 1, 0)] :=
  ⟨New_empty _, by decide, by rfl, by rfl⟩

set_option maxRecDepth 100000 in
/-- C7, as amended, at the limits (1024, 24): the first append leaves one segment, the
second fills the index and rolls over. -/
theorem append_rolls_iff_maxed_witness :
    (Log.empty ⟨1024, 24, 0⟩).Plain ∧
    (((Log.empty ⟨1024, 24, 0⟩).Append fixedCodec ⟨[1], 0⟩).1.segments.map Segment.bounds
      = [(0, 1)]) ∧
    ((((Log.empty ⟨1024, 24, 0⟩).Append fixedCodec ⟨[1], 0⟩).1.Append fixedCodec
      ⟨[2], 0⟩).1.segments.map Segment.bounds = [(0, 2), (2, 2)]) :=
  ⟨⟨rfl, rfl⟩,
    (congrArg (List.map Segment.bounds)
      ((append_rolls_iff_maxed fixedCodec (Log.empty ⟨1024, 24, 0⟩) ⟨[1], 0⟩ ⟨rfl, rfl⟩).2
        (by decide))).trans (by rfl),
    by rfl⟩

/-- What `Log.Read` leaves of the log: the offsets of the segments, and the active
segment up to a flush of its store. -/
theorem logRead_struct (cd : Codec) (l : Log) (k : Nat) :
    (l.Read cd k).1.sealed.map Segment.bounds = l.sealed.map Segment.bounds ∧
    ((l.Read cd k).1.activeSegment = l.activeSegment ∨
      (l.Read cd k).1.activeSegment = { l.activeSegment with Store := l.activeSegment.Store.Flush }) ∧
    (l.Read cd k).1.activeListed = l.activeListed ∧ (l.Read cd k).1.Dir = l.Dir ∧
    (l.Read cd k).1.Config = l.Config := by
  unfold Log.Read
  cases hr : readScan cd k l.sealed with
  | some res =>
    obtain ⟨sealed1, r⟩ := res
    obtain ⟨pre, s, post, e1, _, _, e4, _⟩ := readScan_some hr
    refine ⟨?_, Or.inl rfl, rfl, rfl, rfl⟩
    simp [e1, e4, readSegment_bounds]
  | none =>
    simp only
    split_ifs
    · exact ⟨rfl, readSegment_fst cd _ k, rfl, rfl, rfl⟩
    · exact ⟨rfl, Or.inl rfl, rfl, rfl, rfl⟩

theorem blockInv_read {cfg : Config} {m q t : Nat} {l : Log} (cd : Codec) (k : Nat)
    (h : BlockInv cfg m q t l) : BlockInv cfg m q t (l.Read cd k).1 := by
  obtain ⟨h1, h2, h3, h4, h5, h6, h7, h8⟩ := h
  obtain ⟨e1, e2, e3, e4, e5⟩ := logRead_struct cd l k
  refine ⟨⟨by rw [e3]; exact h1.1, by rw [e4]; exact h1.2⟩, by rw [e5]; exact h2, h3,
    by rw [e1]; exact h4, ?_, ?_, ?_, ?_⟩ <;> rcases e2 with e | e <;> rw [e] <;> assumption

theorem blockInv_append {cfg : Config} {m q t : Nat} {l : Log} (cd : Codec)
    (h : BlockInv cfg m q t l) (hidx : cfg.MaxIndexBytes = 12 * m)
    (hw : m * q + t + 1 < 2 ^ 64) (r : Record)
    (hst : (l.Append cd r).1.StoresBelow cfg.MaxStoreBytes) :
    ((l.Append cd r).2.2 = none ∧
      ∃ q1 t1, m * q1 + t1 = m * q + t + 1 ∧ BlockInv cfg m q1 t1 (l.Append cd r).1) ∨
    ((l.Append cd r).2.2 ≠ none ∧ BlockInv cfg m q t (l.Append cd r).1) := by
  obtain ⟨h1, h2, h3, h4, h5, h6, h7, h8⟩ := h
  have key := logAppend_shape cd l r h1.1 h1.2
  have hB : l.activeSegment.BaseOffset = m * q := congrArg Prod.fst h5
  have hN : l.activeSegment.NextOffset = m * q + t := congrArg Prod.snd h5
  rcases segAppend_cases cd l.activeSegment r with ⟨_, e⟩ | ⟨p, _, hfull, _⟩ | ⟨p, _, hroom, e⟩
  · right
    rw [e] at key
    simp only [ne_eq, reduceCtorEq, not_false_eq_true, if_true] at key
    rw [key]
    exact ⟨by simp, h1, h2, h3, h4, h5, h6, h7, h8⟩
  · rw [entWidth_eq] at hfull; omega
  · left
    have hmod : (l.activeSegment.NextOffset + 1) % 2 ^ 64 = m * q + t + 1 := by
      rw [hN]; exact Nat.mod_eq_of_lt hw
    have a_err : (l.activeSegment.Append cd r).2.2 = none := by rw [e]
    have a_off : (l.activeSegment.Append cd r).2.1 = m * q + t := by rw [e]; exact hN
    have a_bounds : (l.activeSegment.Append cd r).1.bounds = (m * q, m * q + t + 1) := by
      rw [e]; simp only [Segment.bounds, hB, hmod]
    have a_size : (l.activeSegment.Append cd r).1.index.Size = 12 * t + 12 := by
      rw [e]
      show (l.activeSegment.index.Write _ _).1.Size = _
      rw [indexWrite_ok _ _ _ hroom, h6, entWidth_eq]
    have a_len : (l.activeSegment.Append cd r).1.index.mmap.length = 12 * m := by
      rw [e]
      show (l.activeSegment.index.Write _ _).1.mmap.length = _
      rw [indexWrite_length, h7]
    have a_cfg : (l.activeSegment.Append cd r).1.config = cfg := by rw [e]; exact h8
    rw [if_neg (by simp [a_err])] at key
    have hstore : (l.activeSegment.Append cd r).1.Store.Size < cfg.MaxStoreBytes := by
      by_cases hmx : (l.activeSegment.Append cd r).1.IsMaxed = true
      · rw [if_pos hmx] at key
        rw [key] at hst
        exact hst _ (by simp [Log.segments])
      · rw [if_neg hmx] at key
        rw [key] at hst
        exact hst _ (by simp [Log.segments, h1.1])
    have hm : (l.activeSegment.Append cd r).1.IsMaxed = true ↔ t + 1 = m := by
      simp only [Segment.IsMaxed, a_cfg, a_size, hidx, ge_iff_le, Bool.or_eq_true,
        decide_eq_true_eq]
      omega
    by_cases ht : t + 1 = m
    · rw [if_pos (hm.mpr ht)] at key
      rw [key]
      refine ⟨rfl, q + 1, 0, by rw [← ht]; ring, ⟨rfl, rfl⟩, h2, by omega, ?_, ?_, ?_, ?_, h2⟩
      · show (l.sealed ++ [_]).map Segment.bounds = _
        rw [List.map_append, h4, List.range_succ, List.map_append]
        simp only [List.map_cons, List.map_nil, a_bounds, ← ht]
        congr 3
      · simp only [Segment.fresh, Segment.bounds, a_off, Prod.mk.injEq]
        rw [Nat.mod_eq_of_lt hw]
        constructor <;> (rw [← ht]; ring)
      · simp [Segment.fresh, Index.New]
      · simp [Segment.fresh, Index.New, h2, hidx]
    · rw [if_neg (fun hc => ht (hm.mp hc))] at key
      rw [key]
      exact ⟨rfl, q, t + 1, by ring, h1, h2, by omega, h4, a_bounds, by rw [a_size]; ring,
        a_len, a_cfg⟩

theorem run_blocks (cd : Codec) {cfg : Config} {m : Nat} (hidx : cfg.MaxIndexBytes = 12 * m)
    (ops : List Op) :
    ∀ (l : Log) (q t : Nat), BlockInv cfg m q t l → m * q + t + ops.length < 2 ^ 64 →
      (l.run cd ops).1.StoresBelow cfg.MaxStoreBytes →
      ∃ q1 t1, BlockInv cfg m q1 t1 (l.run cd ops).1 ∧
        m * q1 + t1 = m * q + t + (successOffsets (l.run cd ops).2).length := by
  induction ops with
  | nil => intro l q t h _ _; exact ⟨q, t, h, by simp [Log.run, successOffsets]⟩
  | cons op rest ih =>
    intro l q t h hw hst
    rw [run_cons] at hst ⊢
    simp only [List.length_cons] at hw
    have hst1 : (l.step cd op).1.StoresBelow cfg.MaxStoreBytes :=
      logRun_bounded cd rest _ (logStep_plain cd l op h.1 0).1 _ hst
    cases op with
    | read k0 =>
      obtain ⟨q1, t1, e1, e2⟩ := ih _ q t (blockInv_read cd k0 h) (by omega) hst
      exact ⟨q1, t1, e1, by simpa [Log.step, successOffsets] using e2⟩
    | append r0 =>
      rcases blockInv_append cd h hidx (by omega) r0 hst1 with ⟨a1, q0, t0, a2, a3⟩ | ⟨a1, a3⟩
      · obtain ⟨q1, t1, e1, e2⟩ := ih _ q0 t0 a3 (by omega) hst
        refine ⟨q1, t1, e1, ?_⟩
        simp only [Log.step, a1, successOffsets, List.length_cons]
        omega
      · obtain ⟨q1, t1, e1, e2⟩ := ih _ q t a3 (by omega) hst
        refine ⟨q1, t1, e1, ?_⟩
        cases he : (l.Append cd r0).2.2 with
        | none => exact absurd he a1
        | some e => simpa [Log.step, he, successOffsets] using e2

theorem withDefaults_MaxIndexBytes (c : Config) (h : c.MaxIndexBytes ≠ 0) :
    c.withDefaults.MaxIndexBytes = c.MaxIndexBytes := by
  unfold Config.withDefaults
  dsimp only
  split_ifs <;> simp_all

theorem blockInv_segments {cfg : Config} {m q t : Nat} {l : Log} (h : BlockInv cfg m q t l)
    (hm : 1 ≤ m) : l.segments.map Segment.bounds = blocks m (m * q + t) := by
  obtain ⟨h1, _, h3, h4, h5, _⟩ := h
  have hq : (m * q + t) / m = q := by
    rw [Nat.mul_add_div (by omega), Nat.div_eq_of_lt h3, Nat.add_zero]
  simp only [Log.segments, h1.1, if_true, List.map_append, List.map_cons, List.map_nil, h4, h5,
    blocks, hq]

theorem blocks_base (m n : Nat) (hm : 1 ≤ m) (b : Nat × Nat) (hb : b ∈ blocks m n) (k : Nat)
    (h1 : b.1 ≤ k) (h2 : k < b.2) : b.1 = m * (k / m) := by
  unfold blocks at hb
  rcases List.mem_append.mp hb with hb | hb
  · obtain ⟨i, _, rfl⟩ := List.mem_map.mp hb
    simp only at h1 h2 ⊢
    have : k / m = i := Nat.div_eq_of_lt_le (by rw [Nat.mul_comm]; exact h1)
      (by rw [Nat.add_mul, Nat.one_mul, Nat.mul_comm]; exact h2)
    rw [this]
  · simp only [List.mem_singleton] at hb
    subst hb
    simp only at h1 h2 ⊢
    have hmod := Nat.mod_lt n (show m > 0 by omega)
    have hdm := Nat.div_add_mod n m
    have : k / m = n / m := Nat.div_eq_of_lt_le (by rw [Nat.mul_comm]; exact h1)
      (by rw [Nat.add_mul, Nat.one_mul, Nat.mul_comm]; omega)
    rw [this]

theorem blocks_cover (m n : Nat) (hm : 1 ≤ m) (k : Nat) (hk : k < n) :
    ∃ b ∈ blocks m n, b.1 ≤ k ∧ k < b.2 := by
  have hdm := Nat.div_add_mod k m
  have hmod := Nat.mod_lt k (show m > 0 by omega)
  by_cases hlt : k / m < n / m
  · refine ⟨(m * (k / m), m * (k / m) + m), ?_, ?_, ?_⟩
    · unfold blocks
      exact List.mem_append_left _ (List.mem_map.mpr ⟨k / m, List.mem_range.mpr hlt, rfl⟩)
    · show m * (k / m) ≤ k
      omega
    · show k < m * (k / m) + m
      omega
  · have hle : k / m ≤ n / m := Nat.div_le_div_right (by omega)
    have heq : k / m = n / m := by omega
    refine ⟨(m * (n / m), n), ?_, ?_, hk⟩
    · unfold blocks; simp
    · show m * (n / m) ≤ k
      rw [← heq]; omega

/-- C8. With `InitialOffset = 0`, `MaxIndexBytes = 12 * m` (`m >= 1`) and stores that
stay below `MaxStoreBytes`, after a run with `n` successful appends the segments of the
log are `[0, m), [m, 2m), ...` and the active segment `[m * (n / m), n)`: every sealed
segment holds `m` records, the offset `k < n` lies in the segment with base
`m * (k / m)`, and right after every `m`-th append the active segment is a new, empty
one. -/
theorem segments_hold_m_records (cd : Codec) (cfg : Config) (m : Nat) (hm : 1 ≤ m)
    (hinit : cfg.InitialOffset = 0) (hidx : cfg.MaxIndexBytes = 12 * m)
    (l0 : Log) (h0 : Log.New [] cfg = .ok l0) (ops : List Op) (hlen : ops.length < 2 ^ 64)
    (hstore : ∀ s ∈ (l0.run cd ops).1.segments, s.Store.Size < cfg.withDefaults.MaxStoreBytes) :
    (l0.run cd ops).1.segments.map Segment.bounds
      = blocks m (successOffsets (l0.run cd ops).2).length ∧
    (∀ k, k < (successOffsets (l0.run cd ops).2).length →
      ∃ s ∈ (l0.run cd ops).1.segments,
        s.BaseOffset = m * (k / m) ∧ s.BaseOffset ≤ k ∧ k < s.NextOffset) ∧
    (∀ k, ∀ s ∈ (l0.run cd ops).1.segments, s.BaseOffset ≤ k → k < s.NextOffset →
      s.BaseOffset = m * (k / m)) := by
  rw [New_empty] at h0
  cases h0
  have hidx1 : cfg.withDefaults.MaxIndexBytes = 12 * m := by
    rw [withDefaults_MaxIndexBytes _ (by omega), hidx]
  have hinv : BlockInv cfg.withDefaults m 0 0 (Log.empty cfg) := by
    refine ⟨⟨rfl, rfl⟩, rfl, by omega, by simp [Log.empty], ?_, ?_, ?_, rfl⟩
    · simp [Log.empty, Segment.fresh, Segment.bounds, withDefaults_InitialOffset, hinit]
    · simp [Log.empty, Segment.fresh, Index.New]
    · simp [Log.empty, Segment.fresh, Index.New, hidx1]
  obtain ⟨q, t, e1, e2⟩ := run_blocks cd hidx1 ops _ 0 0 hinv (by omega) hstore
  have hb := blockInv_segments e1 hm
  rw [e2] at hb
  simp only [Nat.mul_zero, Nat.zero_add] at hb
  refine ⟨hb, ?_, ?_⟩
  · intro k hk
    obtain ⟨b, hbm, hb1, hb2⟩ := blocks_cover m _ hm k hk
    rw [← hb] at hbm
    obtain ⟨s, hs, rfl⟩ := List.mem_map.mp hbm
    refine ⟨s, hs, ?_, hb1, hb2⟩
    have hmem : s.bounds ∈ blocks m (successOffsets ((Log.empty cfg).run cd ops).2).length := by
      rw [← hb]; exact List.mem_map_of_mem _ hs
    exact blocks_base m _ hm _ hmem k hb1 hb2
  · intro k s hs h1 h2
    have hmem : s.bounds ∈ blocks m (successOffsets ((Log.empty cfg).run cd ops).2).length := by
      rw [← hb]; exact List.mem_map_of_mem _ hs
    exact blocks_base m _ hm _ hmem k h1 h2

set_option maxRecDepth 100000 in
/-- C8 at the limits (1024, 36): the third append rolls the segment, the fourth record
has offset 3 and lies in the segment with base 3. -/
theorem segments_hold_m_records_witness :
    Log.New [] ⟨1024, 36, 0⟩ = .ok (Log.empty ⟨1024, 36, 0⟩) ∧
    (((Log.empty ⟨1024, 36, 0⟩).run fixedCodec (appendsUpTo 3)).1.segments.map Segment.bounds
      = [(0, 3), (3, 3)]) ∧
    (successOffsets ((Log.empty ⟨1024, 36, 0⟩).run fixedCodec (appendsUpTo 4)).2 = [0, 1, 2, 3]) ∧
    (((Log.empty ⟨1024, 36, 0⟩).run fixedCodec (appendsUpTo 4)).1.segments.map Segment.bounds
      = [(0, 3), (3, 4)]) :=
  ⟨New_empty _, by rfl, by rfl,
    (segments_hold_m_records fixedCodec ⟨1024, 36, 0⟩ 3 (by decide) rfl rfl _ (New_empty _)
      (appendsUpTo 4) (by decide) (by decide)).1.trans (by rfl)⟩

theorem digitVal_digitChar (n : Nat) (h : n < 10) : digitVal (digitChar n) = some n := by
  interval_cases n <;> rfl

theorem fmtUintAux_spec (fuel : Nat) : ∀ (n : Nat) (acc : List Char), n < fuel →
    ∃ ds : List Char, fmtUintAux fuel n acc = ds ++ acc ∧ ds ≠ [] ∧
      ∀ (a : Nat) (rest : List Char),
        parseDigits (ds ++ rest) a = parseDigits rest (a * 10 ^ ds.length + n) := by
  induction fuel with
  | zero => intro n acc h; omega
  | succ fuel ih =>
    intro n acc h
    unfold fmtUintAux
    by_cases h10 : n < 10
    · rw [if_pos h10]
      refine ⟨[digitChar n], rfl, by simp, ?_⟩
      intro a rest
      simp [parseDigits, digitVal_digitChar n h10]
    · rw [if_neg h10]
      obtain ⟨ds, e1, e2, e3⟩ := ih (n / 10) (digitChar (n % 10) :: acc) (by omega)
      refine ⟨ds ++ [digitChar (n % 10)], by rw [e1]; simp, by simp, ?_⟩
      intro a rest
      rw [List.append_assoc, e3]
      simp only [List.singleton_append, parseDigits, digitVal_digitChar (n % 10) (by omega),
        List.length_append, List.length_singleton]
      congr 1
      rw [Nat.pow_succ]
      have := Nat.div_add_mod n 10
      nlinarith [this]

theorem ParseUint_fmtUint (b : Nat) (hb : b < 2 ^ 64) : ParseUint (fmtUint b) = b := by
  obtain ⟨ds, e1, e2, e3⟩ := fmtUintAux_spec (b + 1) b [] (by omega)
  have e4 := e3 0 []
  simp only [List.append_nil, Nat.zero_mul, Nat.zero_add, parseDigits] at e4 e1
  unfold fmtUint
  rw [e1]
  unfold ParseUint
  cases ds with
  | nil => exact absurd rfl e2
  | cons c cs => simp only [e4, if_pos hb]

theorem pathExt_storeName (b : Nat) : pathExt (storeName b) = ".store".toList := by
  simp [pathExt, storeName, pathExtAux]

theorem pathExt_indexName (b : Nat) : pathExt (indexName b) = ".index".toList := by
  simp [pathExt, indexName, pathExtAux]

theorem TrimSuffix_append (s suffix : List Char) : TrimSuffix (s ++ suffix) suffix = s := by
  unfold TrimSuffix
  rw [if_pos (by simp)]
  simp

theorem stem_storeName (b : Nat) (hb : b < 2 ^ 64) :
    ParseUint (TrimSuffix (storeName b) (pathExt (storeName b))) = b := by
  rw [pathExt_storeName]
  unfold storeName
  rw [TrimSuffix_append, ParseUint_fmtUint b hb]

theorem stem_indexName (b : Nat) (hb : b < 2 ^ 64) :
    ParseUint (TrimSuffix (indexName b) (pathExt (indexName b))) = b := by
  rw [pathExt_indexName]
  unfold indexName
  rw [TrimSuffix_append, ParseUint_fmtUint b hb]

theorem indexName_ne_storeName (b : Nat) : (indexName b == storeName b) = false := by
  rw [beq_eq_false_iff_ne]
  intro h
  have := congrArg pathExt h
  rw [pathExt_storeName, pathExt_indexName] at this
  exact absurd this (by decide)

theorem indexClose_eq (idx : Index) (h : idx.Size ≤ idx.mmap.length) :
    idx.Close = idx.mmap.take idx.Size := by
  unfold Index.Close
  rw [List.take_append_of_le_length h]

theorem segmentNew_reopen {cfg : Config} {s : Segment} (h : IdxOK cfg s)
    (hidx : cfg.MaxIndexBytes ≤ 2 ^ 32 * 12) (sf : List Byte) :
    Segment.New sf s.index.Close s.BaseOffset cfg =
      .ok { Store := FileStorage.New sf, index := Index.New s.index.Close cfg,
            BaseOffset := s.BaseOffset, NextOffset := s.NextOffset, config := cfg } := by
  obtain ⟨h1, h2, h3, h4, h5, h6, h7⟩ := h
  have hc := indexClose_eq s.index h6
  have hcl : s.index.Close.length = s.index.Size := by
    rw [hc, List.length_take]; omega
  rw [entWidth_eq] at h5
  unfold Segment.New
  by_cases h0 : s.index.Size = 0
  · have hr : (Index.New s.index.Close cfg).Read (-1) = .error Err.EOF := by
      simp [Index.Read, Index.New, hcl, h0]
    simp only [hr]
    have : s.NextOffset = s.BaseOffset := by omega
    rw [this]
  · have hcount : 0 < s.NextOffset - s.BaseOffset := by omega
    have hout : ((s.index.Size / entWidth + 2 ^ 64 - 1) % 2 ^ 64) % 2 ^ 32
        = s.NextOffset - s.BaseOffset - 1 := by
      rw [h5, entWidth_eq, Nat.mul_div_cancel _ (by norm_num)]
      omega
    have hmm : (Index.New s.index.Close cfg).mmap
        = s.index.mmap.take s.index.Size ++ List.replicate (cfg.MaxIndexBytes - s.index.Size) 0 := by
      simp only [Index.New, hcl]
      rw [hc]
      apply List.take_of_length_le
      simp; omega
    have hlen : (Index.New s.index.Close cfg).mmap.length = cfg.MaxIndexBytes := by
      rw [hmm]; simp; omega
    have hent : entryAt (Index.New s.index.Close cfg).mmap (s.NextOffset - s.BaseOffset - 1)
        = entryAt s.index.mmap (s.NextOffset - s.BaseOffset - 1) := by
      rw [hmm]
      simp only [entryAt, entWidth_eq, offWidth_eq, posWidth_eq]
      rw [slice_take_append _ _ _ _ _ h6 (by omega), slice_take_append _ _ _ _ _ h6 (by omega)]
    have hr : (Index.New s.index.Close cfg).Read (-1)
        = .ok (entryAt s.index.mmap (s.NextOffset - s.BaseOffset - 1)) := by
      rw [← hent]
      have hS : (Index.New s.index.Close cfg).Size = s.index.Size := hcl
      simp only [Index.Read, hS, h0, if_false, if_true, hout, gt_iff_lt]
      rw [if_neg (by rw [entWidth_eq]; omega), if_neg (by rw [hlen, entWidth_eq]; omega)]
      rfl
    have h7' := h7 (by omega)
    generalize entryAt s.index.mmap (s.NextOffset - s.BaseOffset - 1) = ent at hr h7'
    obtain ⟨off, pos⟩ := ent
    simp only at h7'
    simp only [hr]
    have : (s.BaseOffset + off + 1) % 2 ^ 64 = s.NextOffset := by
      rw [h7']; omega
    rw [this]

theorem idxOK_congr {cfg : Config} {s s1 : Segment} (h : IdxOK cfg s)
    (hi : s1.index = s.index) (hb : s1.bounds = s.bounds) (hc : s1.config = s.config) :
    IdxOK cfg s1 := by
  have hB : s1.BaseOffset = s.BaseOffset := congrArg Prod.fst hb
  have hN : s1.NextOffset = s.NextOffset := congrArg Prod.snd hb
  unfold IdxOK at *
  rw [hi, hB, hN, hc]
  exact h

theorem idxOK_fresh (cfg : Config) (b : Nat) (hb : b < 2 ^ 64) :
    IdxOK cfg (Segment.fresh b cfg) := by
  refine ⟨rfl, ?_, le_refl _, hb, ?_, ?_, ?_⟩
  · simp [Segment.fresh, Index.New]
  · simp [Segment.fresh, Index.New]
  · simp [Segment.fresh, Index.New]
  · intro h; simp [Segment.fresh] at h

theorem idxOK_appended {cfg : Config} {s : Segment} (h : IdxOK cfg s)
    (hidx : cfg.MaxIndexBytes ≤ 2 ^ 32 * 12) (st : FileStorage) (pos : Nat)
    (hroom : s.index.Size + entWidth ≤ s.index.mmap.length)
    (hn : s.NextOffset + 1 < 2 ^ 64) :
    IdxOK cfg
      { s with
          Store := st
          index := (s.index.Write (((s.NextOffset + 2 ^ 64 - s.BaseOffset) % 2 ^ 64) % 2 ^ 32)
            pos).1
          NextOffset := (s.NextOffset + 1) % 2 ^ 64 } := by
  obtain ⟨h1, h2, h3, h4, h5, h6, h7⟩ := h
  have hmod : (s.NextOffset + 1) % 2 ^ 64 = s.NextOffset + 1 := Nat.mod_eq_of_lt hn
  have hw := indexWrite_ok s.index (((s.NextOffset + 2 ^ 64 - s.BaseOffset) % 2 ^ 64) % 2 ^ 32)
    pos hroom
  have hlen := indexWrite_length s.index
    (((s.NextOffset + 2 ^ 64 - s.BaseOffset) % 2 ^ 64) % 2 ^ 32) pos
  have hSize : (s.index.Write (((s.NextOffset + 2 ^ 64 - s.BaseOffset) % 2 ^ 64) % 2 ^ 32)
      pos).1.Size = s.index.Size + entWidth := by rw [hw]
  have hnew := entryAt_write_new s.index
    (((s.NextOffset + 2 ^ 64 - s.BaseOffset) % 2 ^ 64) % 2 ^ 32) pos _ hroom h5
  have hrel : (((s.NextOffset + 2 ^ 64 - s.BaseOffset) % 2 ^ 64) % 2 ^ 32) % 2 ^ 32
      = s.NextOffset - s.BaseOffset := by
    simp only [entWidth_eq] at h5 h6 hroom
    omega
  refine ⟨h1, ?_, ?_, ?_, ?_, ?_, ?_⟩
  · show (s.index.Write _ _).1.mmap.length = _
    rw [hlen]; exact h2
  · show s.BaseOffset ≤ (s.NextOffset + 1) % 2 ^ 64
    omega
  · show (s.NextOffset + 1) % 2 ^ 64 < 2 ^ 64
    omega
  · show (s.index.Write _ _).1.Size = ((s.NextOffset + 1) % 2 ^ 64 - s.BaseOffset) * entWidth
    rw [hSize, hmod, h5]
    simp only [entWidth_eq]; omega
  · show (s.index.Write _ _).1.Size ≤ (s.index.Write _ _).1.mmap.length
    rw [hSize, hlen]; exact hroom
  · intro _
    show (entryAt (s.index.Write _ _).1.mmap ((s.NextOffset + 1) % 2 ^ 64 - s.BaseOffset - 1)).1
      = (s.NextOffset + 1) % 2 ^ 64 - s.BaseOffset - 1
    have e : (s.NextOffset + 1) % 2 ^ 64 - s.BaseOffset - 1 = s.NextOffset - s.BaseOffset := by
      omega
    rw [e, hnew, hrel]

theorem chain_setLast {sealed : List Segment} {a b : Segment}
    (h : List.Chain' (fun a b : Nat × Nat => a.2 = b.1 ∧ a.1 < a.2)
      ((sealed ++ [a]).map Segment.bounds))
    (hb : b.BaseOffset = a.BaseOffset) :
    List.Chain' (fun a b : Nat × Nat => a.2 = b.1 ∧ a.1 < a.2)
      ((sealed ++ [b]).map Segment.bounds) := by
  simp only [List.map_append, List.map_cons, List.map_nil] at h ⊢
  rw [List.chain'_append] at h ⊢
  refine ⟨h.1, by simp, ?_⟩
  intro x hx y hy
  have := h.2.2 x hx a.bounds (by simp)
  simp only [List.head?_cons, Option.mem_def, Option.some.injEq] at hy
  subst hy
  simpa [Segment.bounds, hb] using this

theorem chain_roll {sealed : List Segment} {a f : Segment}
    (h : List.Chain' (fun a b : Nat × Nat => a.2 = b.1 ∧ a.1 < a.2)
      ((sealed ++ [a]).map Segment.bounds))
    (hne : a.BaseOffset < a.NextOffset) (hf : f.BaseOffset = a.NextOffset) :
    List.Chain' (fun a b : Nat × Nat => a.2 = b.1 ∧ a.1 < a.2)
      (((sealed ++ [a]) ++ [f]).map Segment.bounds) := by
  rw [List.map_append, List.chain'_append]
  refine ⟨h, by simp, ?_⟩
  intro x hx y hy
  rw [List.map_append, List.map_cons, List.map_nil, List.getLast?_concat] at hx
  simp only [Option.mem_def, Option.some.injEq] at hx
  simp only [List.map_cons, List.map_nil, List.head?_cons, Option.mem_def,
    Option.some.injEq] at hy
  subst hx hy
  exact ⟨hf.symm, hne⟩

theorem structInv_read {cfg : Config} {N : Nat} {l : Log} (cd : Codec) (k : Nat)
    (h : StructInv cfg N l) : StructInv cfg N (l.Read cd k).1 := by
  obtain ⟨h1, h2, h3, h4, h5⟩ := h
  rcases logRead_cases cd l k with ⟨_, e⟩ | ⟨pre, s, post, e1, _, e3, e4, _, e6, e7, e8, _, e10⟩
  · rw [e]; exact ⟨h1, h2, h3, h4, h5⟩
  · have hl1 : (l.Read cd k).1.activeListed = true := by rw [e6, h1.1]
    have hseg : (l.Read cd k).1.sealed ++ [(l.Read cd k).1.activeSegment]
        = pre ++ (readSegment cd s k).1 :: post := by
      rw [← e4]; simp [Log.segments, hl1]
    have hseg0 : l.sealed ++ [l.activeSegment] = pre ++ s :: post := by
      rw [← e1]; simp [Log.segments, h1.1]
    have hb : ((l.Read cd k).1.sealed ++ [(l.Read cd k).1.activeSegment]).map Segment.bounds
        = (l.sealed ++ [l.activeSegment]).map Segment.bounds := by
      rw [hseg, hseg0]; simp [readSegment_bounds]
    refine ⟨⟨hl1, by rw [e7, h1.2]⟩, by rw [e8, h2], ?_, ?_, by rw [hb]; exact h5⟩
    · have := congrArg Prod.snd e10
      simp only [Segment.bounds] at this
      rw [this]; exact h3
    · intro x hx
      rw [hseg] at hx
      have hmem : ∀ y ∈ pre ++ s :: post, IdxOK cfg y := by
        rw [← hseg0]; exact h4
      rcases List.mem_append.mp hx with hx | hx
      · exact hmem x (List.mem_append_left _ hx)
      · rcases List.mem_cons.mp hx with rfl | hx
        · have hs := hmem s (by simp)
          rcases readSegment_fst cd s k with e | e <;> rw [e]
          · exact hs
          · exact idxOK_congr hs rfl rfl rfl
        · exact hmem x (List.mem_append_right _ (List.mem_cons_of_mem _ hx))

theorem structInv_append {cfg : Config} {N : Nat} {l : Log} (cd : Codec)
    (h : StructInv cfg N l) (hidx : cfg.MaxIndexBytes ≤ 2 ^ 32 * 12) (hN : N + 1 < 2 ^ 64)
    (r : Record) : StructInv cfg (N + 1) (l.Append cd r).1 := by
  obtain ⟨h1, h2, h3, h4, h5⟩ := h
  have hact := h4 l.activeSegment (by simp)
  have hsealed : ∀ s ∈ l.sealed, IdxOK cfg s := fun s hs => h4 s (List.mem_append_left _ hs)
  have hall : ∀ s1 : Segment, IdxOK cfg s1 → ∀ s ∈ l.sealed ++ [s1], IdxOK cfg s := by
    intro s1 hs1 s hs
    rcases List.mem_append.mp hs with hs | hs
    · exact hsealed s hs
    · simp only [List.mem_singleton] at hs; subst hs; exact hs1
  rw [logAppend_shape cd l r h1.1 h1.2]
  rcases segAppend_cases cd l.activeSegment r with ⟨_, e⟩ | ⟨p, _, _, e⟩ | ⟨p, _, hroom, e⟩
  · rw [e]
    simp only [ne_eq, reduceCtorEq, not_false_eq_true, if_true]
    exact ⟨h1, h2, by show l.activeSegment.NextOffset ≤ N + 1; omega, h4, h5⟩
  · rw [e]
    simp only [ne_eq, reduceCtorEq, not_false_eq_true, if_true]
    exact ⟨h1, h2, by show l.activeSegment.NextOffset ≤ N + 1; omega,
      hall _ (idxOK_congr hact rfl rfl rfl), chain_setLast h5 rfl⟩
  · rw [e]
    simp only [ne_eq, not_true_eq_false, if_false]
    have hok := idxOK_appended hact hidx (l.activeSegment.Store.Append p).1
      l.activeSegment.Store.Size hroom (by omega)
    have hmod : (l.activeSegment.NextOffset + 1) % 2 ^ 64 = l.activeSegment.NextOffset + 1 :=
      Nat.mod_eq_of_lt (by omega)
    have hch := chain_setLast (b := { l.activeSegment with
          Store := (l.activeSegment.Store.Append p).1
          index := (l.activeSegment.index.Write
            (((l.activeSegment.NextOffset + 2 ^ 64 - l.activeSegment.BaseOffset) % 2 ^ 64)
              % 2 ^ 32) l.activeSegment.Store.Size).1
          NextOffset := (l.activeSegment.NextOffset + 1) % 2 ^ 64 }) h5 rfl
    split_ifs with hmax
    · refine ⟨⟨rfl, rfl⟩, h2, ?_, ?_, ?_⟩
      · show (l.activeSegment.NextOffset + 1) % 2 ^ 64 ≤ N + 1
        omega
      · intro s hs
        rcases List.mem_append.mp hs with hs | hs
        · exact hall _ hok s hs
        · simp only [List.mem_singleton] at hs; subst hs
          rw [h2]
          exact idxOK_fresh cfg _ (by omega)
      · exact chain_roll hch (by
          show l.activeSegment.BaseOffset < (l.activeSegment.NextOffset + 1) % 2 ^ 64
          have := hact.2.2.1; omega) rfl
    · refine ⟨h1, h2, ?_, hall _ hok, hch⟩
      show (l.activeSegment.NextOffset + 1) % 2 ^ 64 ≤ N + 1
      omega

theorem structInv_mono {cfg : Config} {N M : Nat} {l : Log} (h : StructInv cfg N l)
    (hNM : N ≤ M) : StructInv cfg M l :=
  ⟨h.1, h.2.1, le_trans h.2.2.1 hNM, h.2.2.2⟩

theorem structInv_run (cd : Codec) {cfg : Config} (hidx : cfg.MaxIndexBytes ≤ 2 ^ 32 * 12)
    (ops : List Op) : ∀ (l : Log) (N : Nat), StructInv cfg N l → N + ops.length < 2 ^ 64 →
      StructInv cfg (N + ops.length) (l.run cd ops).1 := by
  induction ops with
  | nil => intro l N h _; exact h
  | cons op rest ih =>
    intro l N h hw
    rw [run_cons]
    simp only [List.length_cons] at hw ⊢
    have h1 : StructInv cfg (N + 1) (l.step cd op).1 := by
      cases op with
      | read k => exact structInv_mono (structInv_read cd k h) (by omega)
      | append r => exact structInv_append cd h hidx (by omega) r
    have := ih _ (N + 1) h1 (by omega)
    rw [show N + (rest.length + 1) = N + 1 + rest.length by omega]
    exact this

theorem structInv_empty (cfg : Config) (hoff : cfg.InitialOffset < 2 ^ 64) :
    StructInv cfg.withDefaults cfg.InitialOffset (Log.empty cfg) := by
  refine ⟨⟨rfl, rfl⟩, rfl, ?_, ?_, ?_⟩
  · simp [Log.empty, Segment.fresh, withDefaults_InitialOffset]
  · intro s hs
    simp only [Log.empty, List.nil_append, List.mem_singleton] at hs
    subst hs
    exact idxOK_fresh _ _ (by rw [withDefaults_InitialOffset]; exact hoff)
  · simp [Log.empty]

theorem storeName_ne_indexName (b : Nat) : (storeName b == indexName b) = false := by
  rw [beq_eq_false_iff_ne]
  intro h
  have := congrArg pathExt h
  rw [pathExt_storeName, pathExt_indexName] at this
  exact absurd this (by decide)

theorem closeAll_cons (s : Segment) (segs : List Segment) :
    closeAll (s :: segs) =
      (indexName s.BaseOffset, s.index.Close) :: (storeName s.BaseOffset, s.Store.Close)
        :: closeAll segs := by
  simp [closeAll, Segment.Close]

theorem segmentOpen_closed {cfg : Config} {s : Segment} (h : IdxOK cfg s)
    (hidx : cfg.MaxIndexBytes ≤ 2 ^ 32 * 12) (segs : List Segment) :
    Segment.Open (closeAll (s :: segs)) s.BaseOffset cfg = .ok (s.reopened cfg, closeAll segs) := by
  rw [closeAll_cons]
  simp only [Segment.Open, openFile, List.lookup, storeName_ne_indexName, beq_self_eq_true,
    Option.getD_some, List.eraseP_cons, indexName_ne_storeName, Bool.false_eq_true, if_false,
    if_true, cond_false, cond_true]
  rw [segmentNew_reopen h hidx]
  rfl

theorem reopen_loop {cfg : Config} (hidx : cfg.MaxIndexBytes ≤ 2 ^ 32 * 12) (dir0 : Directory)
    (segs : List Segment) : ∀ l : Log, l.Dir = closeAll segs → l.Config = cfg →
      l.activeListed = true → (∀ s ∈ segs, IdxOK cfg s) →
      ∃ l1, New.loop dir0 cfg (some l) (segs.map Segment.BaseOffset) = .ok (some l1) ∧
        l1.segments = l.segments ++ segs.map (fun s => s.reopened cfg) ∧
        l1.activeListed = true := by
  induction segs with
  | nil =>
    intro l _ _ hl _
    exact ⟨l, rfl, by simp, hl⟩
  | cons s rest ih =>
    intro l hd hc hl hs
    simp only [List.map_cons, New.loop, newSegmentAt, hd, hc,
      segmentOpen_closed (hs s (List.mem_cons_self _ _)) hidx rest]
    obtain ⟨l1, e1, e2, e3⟩ := ih
      { Dir := closeAll rest, Config := cfg, sealed := l.segments,
        activeSegment := s.reopened cfg, activeListed := true } rfl rfl rfl
      (fun x hx => hs x (List.mem_cons_of_mem _ hx))
    refine ⟨l1, e1, ?_, e3⟩
    rw [e2]
    simp [Log.segments]

theorem reopen_loop_none {cfg : Config} (hidx : cfg.MaxIndexBytes ≤ 2 ^ 32 * 12)
    (s : Segment) (rest : List Segment) (hs : ∀ x ∈ s :: rest, IdxOK cfg x) :
    ∃ l1, New.loop (closeAll (s :: rest)) cfg none ((s :: rest).map Segment.BaseOffset)
        = .ok (some l1) ∧
      l1.segments = (s :: rest).map (fun s => s.reopened cfg) ∧ l1.activeListed = true := by
  simp only [List.map_cons, New.loop, newSegmentAt,
    segmentOpen_closed (hs s (List.mem_cons_self _ _)) hidx rest]
  obtain ⟨l1, e1, e2, e3⟩ := reopen_loop hidx (closeAll (s :: rest)) rest
    { Dir := closeAll rest, Config := cfg, sealed := [],
      activeSegment := s.reopened cfg, activeListed := true } rfl rfl rfl
    (fun x hx => hs x (List.mem_cons_of_mem _ hx))
  refine ⟨l1, e1, ?_, e3⟩
  rw [e2]
  simp [Log.segments]

theorem mem_dupEach (x : Nat) (bs : List Nat) : x ∈ dupEach bs ↔ x ∈ bs := by
  induction bs with
  | nil => simp [dupEach]
  | cons b rest ih => simp [dupEach, ih]

theorem sorted_dupEach (bs : List Nat) (h : bs.Pairwise (fun a b => a < b)) :
    (dupEach bs).Sorted (fun a b => a ≤ b) := by
  induction bs with
  | nil => simp [dupEach]
  | cons b rest ih =>
    rw [List.pairwise_cons] at h
    simp only [dupEach, List.sorted_cons, List.mem_cons, forall_eq_or_imp, le_refl, true_and]
    refine ⟨fun x hx => ?_, fun x hx => ?_, ih h.2⟩
    · exact Nat.le_of_lt (h.1 x ((mem_dupEach x rest).mp hx))
    · exact Nat.le_of_lt (h.1 x ((mem_dupEach x rest).mp hx))

theorem everyOther_dupEach (bs : List Nat) : everyOther (dupEach bs) = bs := by
  induction bs with
  | nil => rfl
  | cons b rest ih => simp [dupEach, everyOther, ih]

theorem stems_closeAll (segs : List Segment) (hb : ∀ s ∈ segs, s.BaseOffset < 2 ^ 64) :
    (closeAll segs).map (fun e => ParseUint (TrimSuffix e.1 (pathExt e.1)))
      = dupEach (segs.map Segment.BaseOffset) := by
  induction segs with
  | nil => rfl
  | cons s rest ih =>
    have hs := hb s (List.mem_cons_self _ _)
    rw [closeAll_cons]
    simp only [List.map_cons, dupEach, stem_indexName _ hs, stem_storeName _ hs]
    rw [ih (fun x hx => hb x (List.mem_cons_of_mem _ hx))]

theorem baseOffsets_closeAll (segs : List Segment) (hb : ∀ s ∈ segs, s.BaseOffset < 2 ^ 64)
    (hs : (segs.map Segment.BaseOffset).Pairwise (fun a b => a < b)) :
    everyOther (baseOffsets (closeAll segs)) = segs.map Segment.BaseOffset := by
  unfold baseOffsets
  rw [stems_closeAll segs hb, List.Sorted.insertionSort_eq (sorted_dupEach _ hs),
    everyOther_dupEach]

theorem bases_pairwise (segs : List Segment)
    (h : List.Chain' (fun a b : Nat × Nat => a.2 = b.1 ∧ a.1 < a.2) (segs.map Segment.bounds)) :
    (segs.map Segment.BaseOffset).Pairwise (fun a b => a < b) := by
  have h1 : List.Chain' (fun a b : Segment => a.BaseOffset < b.BaseOffset) segs := by
    rw [List.chain'_map] at h
    refine h.imp ?_
    intro a b hab
    simp only [Segment.bounds] at hab
    omega
  rw [← List.chain'_iff_pairwise]
  rw [List.chain'_map]
  exact h1

theorem lowest_of_bounds (l : Log) :
    l.LowestOffset =
      match (l.segments.map Segment.bounds).head? with
      | none => .error Err.Panic
      | some b => .ok b.1 := by
  unfold Log.LowestOffset
  cases l.segments <;> rfl

theorem highest_of_bounds (l : Log) :
    l.HighestOffset =
      match (l.segments.map Segment.bounds).getLast? with
      | none => .error Err.Panic
      | some b => if b.2 = 0 then .ok 0 else .ok (b.2 - 1) := by
  unfold Log.HighestOffset
  rw [List.getLast?_map]
  cases l.segments.getLast? <;> rfl

/-- Closing a log that satisfies the invariant of the offsets and opening its directory
again gives a log whose segments have the same offsets. -/
theorem reopen_bounds {cfg : Config} {N : Nat} {l : Log} (h : StructInv cfg.withDefaults N l)
    (hidx : cfg.withDefaults.MaxIndexBytes ≤ 2 ^ 32 * 12) :
    ∃ l2, Log.New l.Close cfg = .ok l2 ∧
      l2.segments.map Segment.bounds = l.segments.map Segment.bounds := by
  obtain ⟨h1, h2, h3, h4, h5⟩ := h
  have hsegs : l.segments = l.sealed ++ [l.activeSegment] := by simp [Log.segments, h1.1]
  have hclose : l.Close = closeAll l.segments := by
    simp [Log.Close, h1.2, closeAll]
  rw [← hsegs] at h4 h5
  have hb : ∀ s ∈ l.segments, s.BaseOffset < 2 ^ 64 := by
    intro s hs
    have := h4 s hs
    have a := this.2.2.1
    have b := this.2.2.2.1
    omega
  have hbase := baseOffsets_closeAll l.segments hb (bases_pairwise _ h5)
  cases hl : l.segments with
  | nil => rw [hsegs] at hl; simp at hl
  | cons s rest =>
    rw [hl] at h4 hbase
    obtain ⟨l1, e1, e2, _⟩ := reopen_loop_none hidx s rest h4
    refine ⟨l1, ?_, ?_⟩
    · unfold Log.New
      simp only [hclose, hl, hbase, e1]
    · rw [e2, List.map_map]
      rfl

/-- C4, as amended. On a log created on an empty directory and grown by any run of appends and
reads (any number of rollovers), `Close` followed by `New` on the same directory and
configuration succeeds, and `LowestOffset` and `HighestOffset` of the reopened log
return what they returned before the close; each segment comes back with the offsets
`(BaseOffset, NextOffset)` it had.  The offsets of the run stay below `2 ^ 64` and the
index limit within the range of the 32-bit relative offsets. -/
theorem reopen_keeps_offsets (cd : Codec) (cfg : Config) (l0 : Log)
    (h0 : Log.New [] cfg = .ok l0) (hidx : cfg.withDefaults.MaxIndexBytes ≤ 2 ^ 32 * 12)
    (ops : List Op) (hoff : cfg.InitialOffset + ops.length < 2 ^ 64) :
    ∃ l2, Log.New (l0.run cd ops).1.Close cfg = .ok l2 ∧
      l2.segments.map Segment.bounds = (l0.run cd ops).1.segments.map Segment.bounds ∧
      l2.LowestOffset = (l0.run cd ops).1.LowestOffset ∧
      l2.HighestOffset = (l0.run cd ops).1.HighestOffset := by
  rw [New_empty] at h0
  cases h0
  have hinv := structInv_run cd hidx ops _ _ (structInv_empty cfg (by omega)) hoff
  obtain ⟨l2, e1, e2⟩ := reopen_bounds hinv hidx
  exact ⟨l2, e1, e2, by rw [lowest_of_bounds, lowest_of_bounds, e2],
    by rw [highest_of_bounds, highest_of_bounds, e2]⟩

set_option maxRecDepth 100000 in
/-- C4 at the limits (1024, 36) and four appends: the reopened log has the segments
`[0, 3)` and `[3, 4)` again and the highest offset 3. -/
theorem reopen_keeps_offsets_witness :
    Log.New [] ⟨1024, 36, 0⟩ = .ok (Log.empty ⟨1024, 36, 0⟩) ∧
    (((Log.empty ⟨1024, 36, 0⟩).run fixedCodec (appendsUpTo 4)).1.HighestOffset = .ok 3) ∧
    ((Log.New? ((Log.empty ⟨1024, 36, 0⟩).run fixedCodec (appendsUpTo 4)).1.Close
        ⟨1024, 36, 0⟩).map (fun l2 => (l2.segments.map Segment.bounds, l2.LowestOffset))
      = some ([(0, 3), (3, 4)], .ok 0)) ∧
    (Log.New? ((Log.empty ⟨1024, 36, 0⟩).run fixedCodec (appendsUpTo 4)).1.Close
        ⟨1024, 36, 0⟩).map (fun l2 => l2.HighestOffset)
      = some ((Log.empty ⟨1024, 36, 0⟩).run fixedCodec (appendsUpTo 4)).1.HighestOffset :=
  ⟨New_empty _, by rfl, by rfl,
    match reopen_keeps_offsets fixedCodec ⟨1024, 36, 0⟩ _ (New_empty _) (by decide)
      (appendsUpTo 4) (by decide) with
    | ⟨_, e1, _, _, e4⟩ => by simp only [Log.New?, e1, Option.map_some', e4]⟩

set_option maxRecDepth 1000000 in
/-- C3, the failing run. With the limits (1024, 1024), three records are appended and
the log is closed without a read in between: the records are still in the buffer of the
writer, `Close` closes the file without a flush, and the store file is left empty.
After `New` on the same directory `HighestOffset` is 2 as before, but `Read(0)`, which
succeeded before the close, fails with `io.EOF`. -/
theorem close_drops_buffered_records :
    Log.New [] ⟨1024, 1024, 0⟩ = .ok (Log.empty ⟨1024, 1024, 0⟩) ∧
    successOffsets ((Log.empty ⟨1024, 1024, 0⟩).run fixedCodec (appendsUpTo 3)).2 = [0, 1, 2] ∧
    (((Log.empty ⟨1024, 1024, 0⟩).run fixedCodec (appendsUpTo 3)).1.Read fixedCodec 0).2
      = .ok { Value := [0], Offset := 0 } ∧
    ((Log.empty ⟨1024, 1024, 0⟩).run fixedCodec (appendsUpTo 3)).1.Close.lookup (storeName 0)
      = some [] ∧
    (Log.New? ((Log.empty ⟨1024, 1024, 0⟩).run fixedCodec (appendsUpTo 3)).1.Close
        ⟨1024, 1024, 0⟩).map (fun l2 => (l2.HighestOffset, (l2.Read fixedCodec 0).2))
      = some (.ok 2, .error Err.EOF) :=
  ⟨New_empty _, by rfl, by rfl, by rfl, by rfl⟩

theorem storeRun_nil (s : FileStorage) : s.run [] = (s, []) := rfl

theorem storeRun_cons (s : FileStorage) (op : StoreOp) (ops : List StoreOp) :
    s.run (op :: ops) = ((s.step op).1.run ops |>.1, (s.step op).2 :: ((s.step op).1.run ops).2) := rfl

theorem storeRead_Size (s : FileStorage) (pos : Nat) : (s.Read pos).1.Size = s.Size := by
  rw [storeRead_fst]; rfl

theorem storeRun_length (s : FileStorage) (ops : List StoreOp) :
    (s.run ops).2.length = ops.length := by
  induction ops generalizing s with
  | nil => rfl
  | cons op ops ih => rw [storeRun_cons]; simp [ih]

theorem framedSize_cons (p : List Byte) (ps : List (List Byte)) :
    framedSize (p :: ps) = 8 + p.length + framedSize ps := by
  simp [framedSize]

theorem storeRun_sizes (s : FileStorage) (ops : List StoreOp) :
    (s.run ops).1.Size = s.Size + framedSize (appended ops) ∧
    ∀ (i : Nat) (p : List Byte), ops[i]? = some (StoreOp.append p) →
      (s.run ops).2[i]? =
        some (StoreRes.append (8 + p.length) (s.Size + framedSize (appended (ops.take i)))) := by
  induction ops generalizing s with
  | nil => exact ⟨by simp [storeRun_nil, appended, framedSize], by simp⟩
  | cons op ops ih =>
    rw [storeRun_cons]
    obtain ⟨ih1, ih2⟩ := ih (s.step op).1
    cases op with
    | append q =>
      have hs : (s.step (StoreOp.append q)).1.Size = s.Size + (q.length + 8) := rfl
      refine ⟨?_, ?_⟩
      · show ((s.step (StoreOp.append q)).1.run ops).1.Size = _
        rw [ih1, hs, appended, framedSize_cons]; omega
      · intro i p hi
        cases i with
        | zero =>
          simp only [List.getElem?_cons_zero, Option.some.injEq, StoreOp.append.injEq] at hi
          subst hi
          simp only [List.getElem?_cons_zero, List.take_zero, appended]
          show some (StoreRes.append (q.length + 8) s.Size) = _
          simp [framedSize, Nat.add_comm]
        | succ j =>
          simp only [List.getElem?_cons_succ] at hi ⊢
          rw [ih2 j p hi, hs, List.take_succ_cons, appended, framedSize_cons]
          congr 2; omega
    | read pos =>
      have hs : (s.step (StoreOp.read pos)).1.Size = s.Size := storeRead_Size s pos
      refine ⟨?_, ?_⟩
      · show ((s.step (StoreOp.read pos)).1.run ops).1.Size = _
        rw [ih1, hs, appended]
      · intro i p hi
        cases i with
        | zero => simp at hi
        | succ j =>
          simp only [List.getElem?_cons_succ] at hi ⊢
          rw [ih2 j p hi, hs, List.take_succ_cons, appended]

theorem storeStep_wf (s : FileStorage) (op : StoreOp) (hs : s.Size = s.content.length) :
    (s.step op).1.Size = (s.step op).1.content.length := by
  cases op with
  | append q =>
    show (s.Append q).1.Size = (s.Append q).1.content.length
    rw [storeAppend_Size, storeAppend_content, hs]
    simp only [List.length_append, putUint64_length]; omega
  | read pos =>
    show (s.Read pos).1.Size = (s.Read pos).1.content.length
    rw [storeRead_fst, Flush_content]; exact hs

theorem storeStep_has (s : FileStorage) (op : StoreOp) {pos : Nat} {p : List Byte}
    (h : StoreHas s pos p) : StoreHas (s.step op).1 pos p := by
  cases op with
  | append q => exact storeHas_append h q
  | read k =>
    show StoreHas (s.Read k).1 pos p
    rw [storeRead_fst]; exact storeHas_flush h

theorem storeRun_has (s : FileStorage) (ops : List StoreOp) {pos : Nat} {p : List Byte}
    (h : StoreHas s pos p) : StoreHas (s.run ops).1 pos p := by
  induction ops generalizing s with
  | nil => exact h
  | cons op ops ih => rw [storeRun_cons]; exact ih _ (storeStep_has s op h)

theorem storeRun_appended (s : FileStorage) (hs : s.Size = s.content.length)
    (ops : List StoreOp) (i : Nat) (p : List Byte) (n pos : Nat) (hlen : p.length < 2 ^ 64)
    (hop : ops[i]? = some (StoreOp.append p))
    (hres : (s.run ops).2[i]? = some (StoreRes.append n pos)) :
    StoreHas (s.run ops).1 pos p := by
  induction ops generalizing s i with
  | nil => simp at hop
  | cons op ops ih =>
    rw [storeRun_cons] at hres ⊢
    cases i with
    | zero =>
      simp only [List.getElem?_cons_zero, Option.some.injEq] at hop hres
      subst hop
      have hpos : pos = s.Size := by
        have : StoreRes.append (s.Append p).2.1 (s.Append p).2.2 = StoreRes.append n pos := hres
        simp only [StoreRes.append.injEq] at this
        rw [← this.2]; rfl
      subst hpos
      exact storeRun_has _ ops (storeHas_new hs hlen)
    | succ j =>
      simp only [List.getElem?_cons_succ] at hop hres
      exact ih _ (storeStep_wf s op hs) j hop hres

/-- C15: `FileStorage.Append(p)` returns the value of `Size` before the call as the
position and `8 + len(p)` as the number of bytes written, and adds `8 + len(p)` to
`Size`; so in every sequence of calls on a store opened on an empty file `Size` is the
sum of `8 + len(p)` over the records appended, and the position returned for a record
is that sum over the records appended before it. -/
theorem store_append_positions :
    (∀ (s : FileStorage) (p : List Byte),
      (s.Append p).2.2 = s.Size ∧ (s.Append p).2.1 = 8 + p.length ∧
      (s.Append p).1.Size = s.Size + (8 + p.length)) ∧
    (∀ (ops : List StoreOp),
      ((FileStorage.New []).run ops).1.Size = framedSize (appended ops) ∧
      ∀ (i : Nat) (p : List Byte), ops[i]? = some (StoreOp.append p) →
        ((FileStorage.New []).run ops).2[i]? =
          some (StoreRes.append (8 + p.length) (framedSize (appended (ops.take i))))) := by
  refine ⟨fun s p => ⟨rfl, Nat.add_comm _ _, ?_⟩, fun ops => ?_⟩
  · rw [storeAppend_Size, Nat.add_comm 8]
  · obtain ⟨h1, h2⟩ := storeRun_sizes (FileStorage.New []) ops
    refine ⟨?_, fun i p hi => ?_⟩
    · rw [h1]; show 0 + _ = _; omega
    · rw [h2 i p hi]; show some (StoreRes.append _ (0 + _)) = _; rw [Nat.zero_add]

/-- Witness for C15: three records of 3, 0 and 5 bytes with a read in between; the
positions returned are 0, 11 and 19 and `Size` ends at 32. -/
theorem store_append_positions_witness :
    ((FileStorage.New []).run
        [.append [1, 2, 3], .read 0, .append [], .append [9, 9, 9, 9, 9]]).1.Size = 32 ∧
    ((FileStorage.New []).run
        [.append [1, 2, 3], .read 0, .append [], .append [9, 9, 9, 9, 9]]).2[3]? =
      some (StoreRes.append 13 19) :=
  ⟨(store_append_positions.2 _).1, (store_append_positions.2 _).2 3 [9, 9, 9, 9, 9] rfl⟩

/-- C16: a record `p` appended to a store at the position `pos` is returned by
`Read(pos)` after any further calls on the store, flushed or not: `Read` flushes the
writer before it reads the file.  `len(p)` is a `uint64`. -/
theorem store_read_after_append (f : List Byte) (ops : List StoreOp) (i : Nat) (p : List Byte)
    (n pos : Nat) (hlen : p.length < 2 ^ 64)
    (hop : ops[i]? = some (StoreOp.append p))
    (hres : ((FileStorage.New f).run ops).2[i]? = some (StoreRes.append n pos)) :
    (((FileStorage.New f).run ops).1.Read pos).2 = .ok p :=
  storeHas_read (storeRun_appended (FileStorage.New f) (by simp [FileStorage.New, FileStorage.content])
    ops i p n pos hlen hop hres)

/-- Witness for C16: two records appended to an empty store and none read; both are
still in the write buffer, the file is empty, and `Read(11)` returns the second. -/
theorem store_read_after_append_witness :
    ((FileStorage.New []).run [.append [1, 2, 3], .append [4, 5]]).1.file = [] ∧
    ((FileStorage.New []).run [.append [1, 2, 3], .append [4, 5]]).1.buf.length = 21 ∧
    (((FileStorage.New []).run [.append [1, 2, 3], .append [4, 5]]).1.Read 11).2 = .ok [4, 5] :=
  ⟨by rfl, by rfl,
    store_read_after_append [] [.append [1, 2, 3], .append [4, 5]] 1 [4, 5] 10 11
      (by simp) rfl rfl⟩

theorem entryBytes_length (e : Nat × Nat) : (entryBytes e).length = 12 := by
  simp [entryBytes, putUint32_length, putUint64_length]

theorem flatten_entry_length (es : List (Nat × Nat)) :
    ((es.map entryBytes).flatten).length = es.length * 12 := by
  induction es with
  | nil => rfl
  | cons e es ih => simp only [List.map_cons, List.flatten_cons, List.length_append, ih,
      entryBytes_length, List.length_cons]; omega

/-- C18: `Index.Write` fails, with `io.EOF`, exactly when the mapping is shorter than
`Size + 12`; a failed write leaves `Size` and the mapping as they were; a successful
one adds 12 to `Size`, puts the entry at the bytes `[Size, Size + 12)` and changes
no other byte. -/
theorem index_write_full_iff (idx : Index) (off pos : Nat) :
    ((idx.Write off pos).2 = some Err.EOF ↔ idx.mmap.length < idx.Size + 12) ∧
    ((idx.Write off pos).2 = none ↔ ¬ idx.mmap.length < idx.Size + 12) ∧
    (idx.mmap.length < idx.Size + 12 → (idx.Write off pos).1 = idx) ∧
    (¬ idx.mmap.length < idx.Size + 12 →
      (idx.Write off pos).1.Size = idx.Size + 12 ∧
      (idx.Write off pos).1.mmap.length = idx.mmap.length ∧
      ((idx.Write off pos).1.mmap.drop idx.Size).take 12 = entryBytes (off, pos) ∧
      ∀ (j : Nat), j < idx.Size ∨ idx.Size + 12 ≤ j →
        (idx.Write off pos).1.mmap[j]? = idx.mmap[j]?) := by
  by_cases hfull : idx.mmap.length < idx.Size + 12
  · have e := indexWrite_full idx off pos (by rw [entWidth_eq]; exact hfull)
    simp [e, hfull]
  · have hroom : idx.Size + entWidth ≤ idx.mmap.length := by rw [entWidth_eq]; omega
    have hlen := indexWrite_length idx off pos
    have e := indexWrite_ok idx off pos hroom
    have hl : (idx.mmap.take idx.Size).length = idx.Size := by
      rw [List.length_take]; rw [entWidth_eq] at hroom; omega
    refine ⟨by simp [e, hfull], by simp [e, hfull], fun h => absurd h hfull, fun _ => ?_⟩
    refine ⟨by rw [e, entWidth_eq], hlen, ?_, ?_⟩
    · rw [e]
      show ((idx.mmap.take idx.Size ++ (putUint32 off ++ putUint64 pos)
          ++ idx.mmap.drop (idx.Size + entWidth)).drop idx.Size).take 12 = _
      rw [List.append_assoc]
      rw [List.drop_left' hl, List.take_append_of_le_length (by simp [putUint32_length, putUint64_length]),
        List.take_of_length_le (by simp [putUint32_length, putUint64_length])]
      rfl
    · intro j hj
      rw [e]
      show (idx.mmap.take idx.Size ++ (putUint32 off ++ putUint64 pos)
          ++ idx.mmap.drop (idx.Size + entWidth))[j]? = _
      rcases hj with hj | hj
      · rw [List.append_assoc, List.getElem?_append_left (by rw [hl]; exact hj),
          List.getElem?_take_of_lt hj]
      · have hl2 : (idx.mmap.take idx.Size ++ (putUint32 off ++ putUint64 pos)).length
            = idx.Size + 12 := by
          simp only [List.length_append, hl, putUint32_length, putUint64_length]
        rw [List.getElem?_append_right (by rw [hl2]; exact hj), hl2, List.getElem?_drop,
          entWidth_eq]
        congr 1; omega

/-- Witness for C18: an index of 12 mapped bytes takes one entry and refuses the
second. -/
theorem index_write_full_iff_witness :
    ((Index.New [] ⟨0, 12, 0⟩).Write 0 7).2 = none ∧
    ((Index.New [] ⟨0, 12, 0⟩).Write 0 7).1.Size = 12 ∧
    (((Index.New [] ⟨0, 12, 0⟩).Write 0 7).1.Write 1 9).2 = some Err.EOF ∧
    (((Index.New [] ⟨0, 12, 0⟩).Write 0 7).1.Write 1 9).1 = ((Index.New [] ⟨0, 12, 0⟩).Write 0 7).1 :=
  ⟨(index_write_full_iff (Index.New [] ⟨0, 12, 0⟩) 0 7).2.1.2 (by decide),
   ((index_write_full_iff (Index.New [] ⟨0, 12, 0⟩) 0 7).2.2.2 (by decide)).1,
   (index_write_full_iff ((Index.New [] ⟨0, 12, 0⟩).Write 0 7).1 1 9).1.2 (by decide),
   (index_write_full_iff ((Index.New [] ⟨0, 12, 0⟩).Write 0 7).1 1 9).2.2.1 (by decide)⟩

theorem readAll_eq (n : Nat) (hn : 1 ≤ n) (fuel : Nat) (r : OriginReader)
    (hf : r.store.file.length - r.off < fuel) :
    OriginReader.readAll n fuel r = r.store.file.drop r.off := by
  induction fuel generalizing r with
  | zero => omega
  | succ fuel ih =>
    simp only [OriginReader.readAll, OriginReader.Read, readAtSome]
    by_cases hlt : ((r.store.file.drop r.off).take n).length < n
    · simp only [hlt, if_true]
      rw [List.length_take] at hlt
      exact List.take_of_length_le (by omega)
    · simp only [hlt, if_false]
      have hl : ((r.store.file.drop r.off).take n).length = n := by
        rw [List.length_take] at hlt ⊢; omega
      have hd : (r.store.file.drop r.off).length = r.store.file.length - r.off :=
        List.length_drop _ _
      have hge : n ≤ r.store.file.length - r.off := by
        rw [List.length_take, hd] at hl; omega
      rw [ih { r with off := r.off + ((r.store.file.drop r.off).take n).length }
        (by show r.store.file.length - (r.off + _) < fuel; rw [hl]; omega)]
      show _ ++ r.store.file.drop (r.off + _) = _
      rw [hl, ← List.drop_drop, List.take_append_drop]

theorem multiReadAll_eq (l : Log) (n fuel : Nat) (hn : 1 ≤ n)
    (hf : ∀ s ∈ l.segments, s.Store.file.length < fuel) :
    multiReadAll n fuel l.Reader = (l.segments.map (fun s => s.Store.file)).flatten := by
  unfold multiReadAll Log.Reader
  rw [List.map_map]
  congr 1
  refine List.map_congr_left (fun s hs => ?_)
  show OriginReader.readAll n fuel { store := s.Store, off := 0 } = _
  rw [readAll_eq n hn fuel _ (by have := hf s hs; show s.Store.file.length - 0 < fuel; omega)]
  rfl

theorem readAll_empty (n fuel : Nat) (r : OriginReader) (h : r.store.file = []) :
    OriginReader.readAll n fuel r = [] := by
  induction fuel generalizing r with
  | zero => rfl
  | succ fuel ih =>
    simp only [OriginReader.readAll, OriginReader.Read, readAtSome, h, List.drop_nil, List.take_nil,
      List.length_nil]
    by_cases hn : 0 < n
    · simp [hn]
    · simp only [hn, if_false, List.nil_append]
      exact ih _ h

set_option maxRecDepth 100000 in
/-- C11 (failing run): two records are appended to the log of an empty directory and
the reader of the log is read to its end.  Both records are in the log (`Read`
returns them) and their 38 bytes, length and envelope each, are in the write buffer
of the store, but the reader delivers no byte, for any buffer size:
`OriginReader.Read` reads the file through the `ReadAt` of `*os.File`, which does not
flush the writer. -/
theorem reader_misses_buffered_records :
    (∀ (n fuel : Nat), multiReadAll n fuel
        ((Log.empty ⟨1024, 1024, 0⟩).run fixedCodec
          [.append ⟨[1, 2, 3], 0⟩, .append ⟨[4, 5, 6], 0⟩]).1.Reader = []) ∧
    recordStream fixedCodec [⟨[1, 2, 3], 0⟩, ⟨[4, 5, 6], 1⟩]
      = [0, 0, 0, 0, 0, 0, 0, 11, 0, 0, 0, 0, 0, 0, 0, 0, 1, 2, 3,
         0, 0, 0, 0, 0, 0, 0, 11, 0, 0, 0, 0, 0, 0, 0, 1, 4, 5, 6] ∧
    ((Log.empty ⟨1024, 1024, 0⟩).run fixedCodec
        [.append ⟨[1, 2, 3], 0⟩, .append ⟨[4, 5, 6], 0⟩]).1.activeSegment.Store.buf
      = recordStream fixedCodec [⟨[1, 2, 3], 0⟩, ⟨[4, 5, 6], 1⟩] ∧
    (((Log.empty ⟨1024, 1024, 0⟩).run fixedCodec
        [.append ⟨[1, 2, 3], 0⟩, .append ⟨[4, 5, 6], 0⟩]).1.Read fixedCodec 0).2
      = .ok ⟨[1, 2, 3], 0⟩ ∧
    (((Log.empty ⟨1024, 1024, 0⟩).run fixedCodec
        [.append ⟨[1, 2, 3], 0⟩, .append ⟨[4, 5, 6], 0⟩]).1.Read fixedCodec 1).2
      = .ok ⟨[4, 5, 6], 1⟩ := by
  refine ⟨fun n fuel => ?_, by rfl, by rfl, by rfl, by rfl⟩
  show (List.map (OriginReader.readAll n fuel) _).flatten = []
  have : ((Log.empty ⟨1024, 1024, 0⟩).run fixedCodec
      [.append ⟨[1, 2, 3], 0⟩, .append ⟨[4, 5, 6], 0⟩]).1.Reader
      = [{ store := ⟨[], [0, 0, 0, 0, 0, 0, 0, 11, 0, 0, 0, 0, 0, 0, 0, 0, 1, 2, 3,
         0, 0, 0, 0, 0, 0, 0, 11, 0, 0, 0, 0, 0, 0, 0, 1, 4, 5, 6], 38⟩, off := 0 }] := by rfl
  rw [this]
  simp [readAll_empty]

set_option maxRecDepth 100000 in
/-- C13 (failing run): three records are appended to the log of an empty directory
and `Reset` is called.  `Remove` has removed the directory, so the `New` inside
`Reset` fails with the error of `os.ReadDir` and `Reset` returns it; and whatever
`New` returns, the log of the caller is the one it was: it still lists the segment
with the offsets `[0, 3)` and not a single empty segment at `InitialOffset`. -/
theorem reset_keeps_old_log :
    (∀ (l : Log), l.Reset.1 = l ∧ l.Reset.2 = some Err.NotExist) ∧
    (((Log.empty ⟨1024, 1024, 0⟩).run fixedCodec (appendsUpTo 3)).1.Reset.1.segments.map
        Segment.bounds = [(0, 3)]) ∧
    ((Log.empty ⟨1024, 1024, 0⟩).run fixedCodec (appendsUpTo 3)).1.Reset.1.HighestOffset
      = .ok 2 ∧
    ((Log.empty ⟨1024, 1024, 0⟩).run fixedCodec (appendsUpTo 3)).1.Reset.2
      = some Err.NotExist :=
  ⟨fun _ => ⟨rfl, rfl⟩, by rfl, by rfl, by rfl⟩

theorem logAppend_shape_any (cd : Codec) (l : Log) (r : Record) (hdir : l.Dir = []) :
    l.Append cd r =
      if (l.activeSegment.Append cd r).2.2 ≠ none then
        ({ l with activeSegment := (l.activeSegment.Append cd r).1 }, 0,
          (l.activeSegment.Append cd r).2.2)
      else if (l.activeSegment.Append cd r).1.IsMaxed then
        ({ Dir := [], Config := l.Config,
           sealed := if l.activeListed then l.sealed ++ [(l.activeSegment.Append cd r).1]
             else l.sealed,
           activeSegment :=
             Segment.fresh (((l.activeSegment.Append cd r).2.1 + 1) % 2 ^ 64) l.Config,
           activeListed := true }, (l.activeSegment.Append cd r).2.1, none)
      else
        ({ l with activeSegment := (l.activeSegment.Append cd r).1 },
          (l.activeSegment.Append cd r).2.1, none) := by
  unfold Log.Append
  generalize l.activeSegment.Append cd r = res
  obtain ⟨seg, off, err⟩ := res
  cases err with
  | some e => simp
  | none =>
    simp only [ne_eq, not_true_eq_false, if_false]
    by_cases hm : seg.IsMaxed = true
    · simp only [hm, if_true, Log.newSegment, Log.segments, hdir, newSegmentAt_empty]
    · simp only [hm]
      simp

theorem callInv_append {N : Nat} {l : Log} (cd : Codec) (h : CallInv N l) (hN : N + 1 < 2 ^ 64)
    (r : Record) : CallInv (N + 1) (l.Append cd r).1 := by
  obtain ⟨hdir, hdet, hch, hle, hN1⟩ := h
  obtain ⟨hb, hok, herr⟩ := segAppend_offsets cd l.activeSegment r
  rw [logAppend_shape_any cd l r hdir]
  by_cases he : (l.activeSegment.Append cd r).2.2 ≠ none
  · rw [if_pos he]
    have hn := herr he
    exact ⟨hdir, hdet, chain_setLast hch hb, by show _ ≤ _; rw [hb, hn]; exact hle,
      by show _ ≤ _; rw [hn]; omega⟩
  · rw [if_neg he]
    have he2 : (l.activeSegment.Append cd r).2.2 = none := by simpa using he
    obtain ⟨hoff, hn⟩ := hok he2
    have hn2 : (l.activeSegment.Append cd r).1.NextOffset = l.activeSegment.NextOffset + 1 := by
      rw [hn, Nat.mod_eq_of_lt (by omega)]
    by_cases hm : (l.activeSegment.Append cd r).1.IsMaxed = true
    · rw [if_pos hm]
      have hf : ((l.activeSegment.Append cd r).2.1 + 1) % 2 ^ 64 = l.activeSegment.NextOffset + 1 := by
        rw [hoff, Nat.mod_eq_of_lt (by omega)]
      refine ⟨rfl, by simp, ?_, ?_, ?_⟩
      · show List.Chain' _ (((if l.activeListed then l.sealed ++ [(l.activeSegment.Append cd r).1]
            else l.sealed) ++ [Segment.fresh _ l.Config]).map Segment.bounds)
        cases hl : l.activeListed with
        | true =>
          simp only [if_true]
          exact chain_roll (chain_setLast hch hb) (by rw [hb, hn2]; omega)
            (by show _ % _ = _; rw [hf, hn2])
        | false =>
          rw [hdet hl]
          simp
      · exact le_refl _
      · show ((l.activeSegment.Append cd r).2.1 + 1) % 2 ^ 64 ≤ N + 1
        rw [hf]; omega
    · rw [if_neg hm]
      exact ⟨hdir, hdet, chain_setLast hch hb, by show _ ≤ _; rw [hb, hn2]; omega,
        by show _ ≤ _; rw [hn2]; omega⟩

theorem callInv_read {N : Nat} {l : Log} (cd : Codec) (k : Nat) (h : CallInv N l) :
    CallInv N (l.Read cd k).1 := by
  obtain ⟨hdir, hdet, hch, hle, hN1⟩ := h
  obtain ⟨hs, ha, hl, hd, _⟩ := logRead_struct cd l k
  have hab : (l.Read cd k).1.activeSegment.bounds = l.activeSegment.bounds := by
    rcases ha with e | e <;> rw [e]
    rfl
  have hab1 : (l.Read cd k).1.activeSegment.BaseOffset = l.activeSegment.BaseOffset :=
    congrArg Prod.fst hab
  have hab2 : (l.Read cd k).1.activeSegment.NextOffset = l.activeSegment.NextOffset :=
    congrArg Prod.snd hab
  refine ⟨by rw [hd, hdir], ?_, ?_, by rw [hab1, hab2]; exact hle, by rw [hab2]; exact hN1⟩
  · intro hf
    rw [hl] at hf
    have := hdet hf
    rw [this] at hs
    simpa using hs
  · rw [List.map_append, hs, List.map_cons, hab]
    simpa using hch

theorem chain_next_lt (x : Segment) (rest : List Segment) (a : Segment)
    (h : List.Chain' (fun a b : Nat × Nat => a.2 = b.1 ∧ a.1 < a.2)
      (((x :: rest) ++ [a]).map Segment.bounds)) :
    (∀ y ∈ rest, x.NextOffset < y.NextOffset) ∧ x.NextOffset ≤ a.BaseOffset := by
  induction rest generalizing x with
  | nil =>
    simp only [List.cons_append, List.nil_append, List.map_cons, List.map_nil,
      List.chain'_cons, Segment.bounds] at h
    exact ⟨by simp, by omega⟩
  | cons y rest ih =>
    simp only [List.cons_append, List.map_cons, List.chain'_cons] at h
    obtain ⟨hxy, hrest⟩ := h
    simp only [Segment.bounds] at hxy
    have hy := ih y (by simpa using hrest)
    have hyy : y.BaseOffset < y.NextOffset := by
      cases rest with
      | nil =>
        simp only [List.nil_append, List.map_cons, List.map_nil, List.chain'_cons,
          Segment.bounds] at hrest
        exact hrest.1.2
      | cons z rest2 =>
        simp only [List.cons_append, List.map_cons, List.chain'_cons, Segment.bounds] at hrest
        exact hrest.1.2
    refine ⟨?_, by omega⟩
    intro z hz
    rcases List.mem_cons.mp hz with rfl | hz
    · omega
    · have := hy.1 z hz; omega

theorem chain_tail {x : Segment} {rest : List Segment} {a : Segment}
    (h : List.Chain' (fun a b : Nat × Nat => a.2 = b.1 ∧ a.1 < a.2)
      (((x :: rest) ++ [a]).map Segment.bounds)) :
    List.Chain' (fun a b : Nat × Nat => a.2 = b.1 ∧ a.1 < a.2)
      ((rest ++ [a]).map Segment.bounds) := by
  simp only [List.cons_append, List.map_cons] at h
  exact h.tail

theorem filter_suffix (c : Nat) (sealed : List Segment) (a : Segment)
    (h : List.Chain' (fun a b : Nat × Nat => a.2 = b.1 ∧ a.1 < a.2)
      ((sealed ++ [a]).map Segment.bounds)) :
    sealed.filter (fun s => !decide (s.NextOffset ≤ c)) <:+ sealed := by
  induction sealed with
  | nil => simp
  | cons x rest ih =>
    have ht := ih (chain_tail h)
    by_cases hx : x.NextOffset ≤ c
    · rw [List.filter_cons_of_neg (by simpa using hx)]
      exact ht.trans (List.suffix_cons x rest)
    · rw [List.filter_cons_of_pos (by simpa using hx)]
      have hall : rest.filter (fun s => !decide (s.NextOffset ≤ c)) = rest := by
        rw [List.filter_eq_self]
        intro y hy
        have := (chain_next_lt x rest a h).1 y hy
        simp only [Bool.not_eq_true', decide_eq_false_iff_not, not_le]
        omega
      rw [hall]

theorem sealed_next_le (sealed : List Segment) (a : Segment)
    (h : List.Chain' (fun a b : Nat × Nat => a.2 = b.1 ∧ a.1 < a.2)
      ((sealed ++ [a]).map Segment.bounds)) : ∀ s ∈ sealed, s.NextOffset ≤ a.BaseOffset := by
  induction sealed with
  | nil => simp
  | cons x rest ih =>
    intro s hs
    rcases List.mem_cons.mp hs with rfl | hs
    · exact (chain_next_lt s rest a h).2
    · exact ih (chain_tail h) s hs

theorem callInv_truncate {N : Nat} {l : Log} (lowest : Nat) (h : CallInv N l) :
    CallInv N (l.Truncate lowest) := by
  obtain ⟨hdir, hdet, hch, hle, hN1⟩ := h
  refine ⟨hdir, ?_, ?_, hle, hN1⟩
  · intro hf
    show l.sealed.filter (fun s => !truncated lowest s) = []
    have hf2 : (l.activeListed && !truncated lowest l.activeSegment) = false := hf
    cases hl : l.activeListed with
    | false => rw [hdet hl]; rfl
    | true =>
      rw [hl] at hf2
      simp only [Bool.true_and, Bool.not_eq_false', truncated, decide_eq_true_eq] at hf2
      rw [List.filter_eq_nil_iff]
      intro s hs
      have := sealed_next_le l.sealed l.activeSegment hch s hs
      simp only [truncated, Bool.not_eq_true', decide_eq_false_iff_not, not_not]
      omega
  · show List.Chain' _ ((l.sealed.filter (fun s => !truncated lowest s) ++ [l.activeSegment]).map
        Segment.bounds)
    have hsuf : l.sealed.filter (fun s => !truncated lowest s) <:+ l.sealed :=
      filter_suffix ((lowest + 1) % 2 ^ 64) l.sealed l.activeSegment hch
    obtain ⟨pre, hpre⟩ := hsuf
    refine List.Chain'.suffix hch ⟨pre.map Segment.bounds, ?_⟩
    rw [← List.map_append, ← List.append_assoc, hpre]

theorem callInv_calls (cd : Codec) (calls : List Call) :
    ∀ (l : Log) (N : Nat), CallInv N l → N + calls.length < 2 ^ 64 →
      CallInv (N + calls.length) (l.calls cd calls) := by
  induction calls with
  | nil => intro l N h _; simpa [Log.calls] using h
  | cons c cs ih =>
    intro l N h hN
    simp only [List.length_cons] at hN
    have hstep : CallInv (N + 1) (l.call cd c) := by
      cases c with
      | append r => exact callInv_append cd h (by omega) r
      | read k =>
        obtain ⟨a, b, c1, d, e⟩ := callInv_read cd k h
        exact ⟨a, b, c1, d, Nat.le_succ_of_le e⟩
      | truncate lowest =>
        obtain ⟨a, b, c1, d, e⟩ := callInv_truncate lowest h
        exact ⟨a, b, c1, d, Nat.le_succ_of_le e⟩
    have := ih (l.call cd c) (N + 1) hstep (by omega)
    simp only [Log.calls, List.length_cons]
    rwa [show N + (cs.length + 1) = N + 1 + cs.length by omega]

theorem callInv_empty (cfg : Config) : CallInv cfg.InitialOffset (Log.empty cfg) := by
  refine ⟨rfl, by simp [Log.empty], ?_, le_refl _, ?_⟩
  · simp [Log.empty]
  · show (Log.empty cfg).activeSegment.NextOffset ≤ _
    simp [Log.empty, Segment.fresh, withDefaults_InitialOffset]

theorem chain_pairwise (bs : List (Nat × Nat))
    (h : List.Chain' (fun a b : Nat × Nat => a.2 = b.1 ∧ a.1 < a.2) bs)
    (hlast : ∀ b, bs.getLast? = some b → b.1 ≤ b.2) :
    List.Pairwise (fun a b : Nat × Nat => a.2 ≤ b.1 ∧ a.1 < b.1) bs := by
  induction bs with
  | nil => exact List.Pairwise.nil
  | cons x rest ih =>
    have hrest := ih h.tail (fun b hb => hlast b (by
      cases rest with
      | nil => simp at hb
      | cons y r => rw [List.getLast?_cons_cons]; exact hb))
    refine List.Pairwise.cons ?_ hrest
    cases rest with
    | nil => simp
    | cons y r =>
      have hxy := (List.chain'_cons.mp h).1
      intro z hz
      rcases List.mem_cons.mp hz with rfl | hz
      · omega
      · have hyz := (List.pairwise_cons.mp hrest).1 z hz
        omega

theorem pairwise_one_match (k : Nat) (segs : List Segment)
    (h : List.Pairwise (fun a b : Nat × Nat => a.2 ≤ b.1 ∧ a.1 < b.1) (segs.map Segment.bounds)) :
    (segs.filter (fun s => decide (s.BaseOffset ≤ k ∧ k < s.NextOffset))).length ≤ 1 := by
  induction segs with
  | nil => simp
  | cons x rest ih =>
    rw [List.map_cons, List.pairwise_cons] at h
    have hr := ih h.2
    by_cases hx : x.BaseOffset ≤ k ∧ k < x.NextOffset
    · rw [List.filter_cons_of_pos (by simpa using hx)]
      have : rest.filter (fun s => decide (s.BaseOffset ≤ k ∧ k < s.NextOffset)) = [] := by
        rw [List.filter_eq_nil_iff]
        intro y hy
        have := h.1 y.bounds (List.mem_map_of_mem _ hy)
        simp only [Segment.bounds] at this
        simp only [decide_eq_true_eq, not_and, not_lt]
        omega
      rw [this]; simp
    · rw [List.filter_cons_of_neg (by simpa using hx)]
      exact hr

theorem callInv_segments {N : Nat} {l : Log} (h : CallInv N l) :
    List.Chain' (fun a b : Nat × Nat => a.2 = b.1 ∧ a.1 < a.2) (l.segments.map Segment.bounds) ∧
    ∀ b, (l.segments.map Segment.bounds).getLast? = some b → b.1 ≤ b.2 := by
  obtain ⟨_, hdet, hch, hle, _⟩ := h
  unfold Log.segments
  cases hl : l.activeListed with
  | true =>
    simp only [if_true]
    refine ⟨hch, fun b hb => ?_⟩
    rw [List.map_append, List.map_cons, List.map_nil, List.getLast?_concat] at hb
    simp only [Option.some.injEq] at hb
    subst hb
    exact hle
  | false =>
    rw [hdet hl]
    simp

set_option maxRecDepth 100000 in
/-- C19 (failing runs): on the log of an empty directory `Truncate(0)` removes the
only segment, and after three appends `Truncate(2)`, the highest offset, removes it
too: the slice is empty, no segment of it is the active one, and `LowestOffset` and
`HighestOffset` panic on the empty slice; a further `Append` does not put a segment
back. -/
theorem truncate_empties_segment_list :
    ((Log.empty ⟨1024, 1024, 0⟩).calls fixedCodec [.truncate 0]).segments = [] ∧
    ((Log.empty ⟨1024, 1024, 0⟩).calls fixedCodec [.truncate 0]).LowestOffset
      = .error Err.Panic ∧
    ((Log.empty ⟨1024, 1024, 0⟩).calls fixedCodec [.truncate 0]).HighestOffset
      = .error Err.Panic ∧
    ((Log.empty ⟨1024, 1024, 0⟩).calls fixedCodec
      [.append ⟨[1], 0⟩, .append ⟨[2], 0⟩, .append ⟨[3], 0⟩]).HighestOffset = .ok 2 ∧
    ((Log.empty ⟨1024, 1024, 0⟩).calls fixedCodec
      [.append ⟨[1], 0⟩, .append ⟨[2], 0⟩, .append ⟨[3], 0⟩, .truncate 2]).segments = [] ∧
    ((Log.empty ⟨1024, 1024, 0⟩).calls fixedCodec
      [.append ⟨[1], 0⟩, .append ⟨[2], 0⟩, .append ⟨[3], 0⟩, .truncate 2]).LowestOffset
      = .error Err.Panic ∧
    ((Log.empty ⟨1024, 1024, 0⟩).calls fixedCodec
      [.append ⟨[1], 0⟩, .append ⟨[2], 0⟩, .append ⟨[3], 0⟩, .truncate 2,
       .append ⟨[4], 0⟩]).segments = [] := by
  refine ⟨by rfl, by rfl, by rfl, by rfl, by rfl, by rfl, by rfl⟩

/-- C20 (amended): in every state the log of an empty directory reaches by `Append`, `Read` and
`Truncate` calls, each segment of the slice begins at the `NextOffset` of the one
before it, the base offsets are strictly ascending, and at most one segment matches
an offset in the scan of `Read`.  The offsets stay below `2 ^ 64`. -/
theorem segments_sorted_contiguous (cd : Codec) (cfg : Config) (calls : List Call)
    (hN : cfg.InitialOffset + calls.length < 2 ^ 64) :
    List.Chain' (fun a b : Segment => b.BaseOffset = a.NextOffset)
      ((Log.empty cfg).calls cd calls).segments ∧
    List.Pairwise (fun a b : Segment => a.BaseOffset < b.BaseOffset)
      ((Log.empty cfg).calls cd calls).segments ∧
    ∀ (k : Nat), (((Log.empty cfg).calls cd calls).segments.filter
      (fun s => decide (s.BaseOffset ≤ k ∧ k < s.NextOffset))).length ≤ 1 := by
  have hinv := callInv_calls cd calls (Log.empty cfg) cfg.InitialOffset (callInv_empty cfg) hN
  obtain ⟨hch, hlast⟩ := callInv_segments hinv
  have hpw := chain_pairwise _ hch hlast
  refine ⟨?_, ?_, fun k => pairwise_one_match k _ hpw⟩
  · rw [List.chain'_map] at hch
    exact hch.imp (fun a b h => h.1.symm)
  · rw [List.pairwise_map] at hpw
    exact hpw.imp (fun h => h.2)

set_option maxRecDepth 100000 in
/-- Witness for C20: segments of two records; five appends, `Truncate(1)`, which
removes the first segment, and a sixth append leave the segments `[2, 4)`, `[4, 6)`
and the empty active segment at 6. -/
theorem segments_sorted_contiguous_witness :
    Log.New [] ⟨1024, 24, 0⟩ = .ok (Log.empty ⟨1024, 24, 0⟩) ∧
    ((Log.empty ⟨1024, 24, 0⟩).calls fixedCodec
      [.append ⟨[1], 0⟩, .append ⟨[2], 0⟩, .append ⟨[3], 0⟩, .append ⟨[4], 0⟩,
       .append ⟨[5], 0⟩, .truncate 1, .append ⟨[6], 0⟩]).segments.map Segment.bounds
      = [(2, 4), (4, 6), (6, 6)] ∧
    List.Chain' (fun a b : Segment => b.BaseOffset = a.NextOffset)
      ((Log.empty ⟨1024, 24, 0⟩).calls fixedCodec
        [.append ⟨[1], 0⟩, .append ⟨[2], 0⟩, .append ⟨[3], 0⟩, .append ⟨[4], 0⟩,
         .append ⟨[5], 0⟩, .truncate 1, .append ⟨[6], 0⟩]).segments :=
  ⟨New_empty _, by rfl,
    (segments_sorted_contiguous fixedCodec ⟨1024, 24, 0⟩
      [.append ⟨[1], 0⟩, .append ⟨[2], 0⟩, .append ⟨[3], 0⟩, .append ⟨[4], 0⟩,
       .append ⟨[5], 0⟩, .truncate 1, .append ⟨[6], 0⟩] (by decide)).1⟩

theorem indexRead_last_ne_panic (idx : Index) (h : idx.Size ≤ idx.mmap.length) :
    idx.Read (-1) ≠ .error Err.Panic := by
  unfold Index.Read
  simp only [if_true, entWidth_eq]
  split_ifs with h0 h1 h2
  · simp
  · simp
  · exfalso
    omega
  · simp

theorem indexNew_length (f : List Byte) (c : Config) (h : f.length ≤ c.MaxIndexBytes) :
    (Index.New f c).Size ≤ (Index.New f c).mmap.length := by
  simp only [Index.New, List.length_take, List.length_append, List.length_replicate]
  omega

theorem segmentNew_ok (sf f : List Byte) (b : Nat) (c : Config) (h : f.length ≤ c.MaxIndexBytes) :
    ∃ s, Segment.New sf f b c = .ok s ∧ s.BaseOffset = b := by
  have hp := indexRead_last_ne_panic (Index.New f c) (indexNew_length f c h)
  unfold Segment.New
  simp only
  cases hr : (Index.New f c).Read (-1) with
  | error e =>
    cases e with
    | Panic => exact absurd hr hp
    | EOF => exact ⟨_, rfl, rfl⟩
    | ErrOffsetOutOfRange o => exact ⟨_, rfl, rfl⟩
    | Marshal => exact ⟨_, rfl, rfl⟩
    | Unmarshal => exact ⟨_, rfl, rfl⟩
    | Closed => exact ⟨_, rfl, rfl⟩
    | NotExist => exact ⟨_, rfl, rfl⟩
  | ok v => exact ⟨_, rfl, rfl⟩

theorem lookup_mem (dir : Directory) (name : FileName) (f : List Byte)
    (h : dir.lookup name = some f) : (name, f) ∈ dir := by
  induction dir with
  | nil => simp at h
  | cons e rest ih =>
    obtain ⟨a, b⟩ := e
    rw [List.lookup_cons] at h
    by_cases hn : (name == a) = true
    · rw [hn] at h
      simp only [Option.some.injEq] at h
      have : name = a := by simpa using hn
      subst this; subst h
      exact List.mem_cons_self _ _
    · simp only [Bool.not_eq_true] at hn
      rw [hn] at h
      exact List.mem_cons_of_mem _ (ih h)

theorem segmentOpen_ok (dir : Directory) (b : Nat) (c : Config)
    (hidx : ∀ f, (indexName b, f) ∈ dir → f.length ≤ c.MaxIndexBytes) :
    ∃ s dir1, Segment.Open dir b c = .ok (s, dir1) ∧ s.BaseOffset = b ∧ ∀ e ∈ dir1, e ∈ dir := by
  unfold Segment.Open openFile
  simp only
  have hsub1 : ∀ e ∈ dir.eraseP (fun e => e.1 == storeName b), e ∈ dir :=
    fun e he => List.mem_of_mem_eraseP he
  have hlen : (((dir.eraseP (fun e => e.1 == storeName b)).lookup (indexName b)).getD []).length
      ≤ c.MaxIndexBytes := by
    cases hl : (dir.eraseP (fun e => e.1 == storeName b)).lookup (indexName b) with
    | none => simp
    | some f => exact hidx f (hsub1 _ (lookup_mem _ _ _ hl))
  obtain ⟨s, hs, hb⟩ := segmentNew_ok ((dir.lookup (storeName b)).getD []) _ b c hlen
  rw [hs]
  exact ⟨s, _, rfl, hb, fun e he => hsub1 e (List.mem_of_mem_eraseP he)⟩

theorem newLoop_some (dir0 dir : Directory) (c : Config)
    (hidx : ∀ b f, (indexName b, f) ∈ dir → f.length ≤ c.MaxIndexBytes) (bs : List Nat) :
    ∀ l : Log, (∀ e ∈ l.Dir, e ∈ dir) → l.Config = c → l.activeListed = true →
      ∃ l1, New.loop dir0 c (some l) bs = .ok (some l1) ∧
        l1.segments.map Segment.BaseOffset = l.segments.map Segment.BaseOffset ++ bs ∧
        l1.activeListed = true := by
  induction bs with
  | nil => intro l _ _ hl; exact ⟨l, rfl, by simp, hl⟩
  | cons b bs ih =>
    intro l hd hc hl
    obtain ⟨s, dir1, hs, hb, hsub⟩ :=
      segmentOpen_ok l.Dir b c (fun f hf => hidx b f (hd _ hf))
    have hstep : newSegmentAt l.Dir l.Config l.segments b =
        .ok { Dir := dir1, Config := c, sealed := l.segments, activeSegment := s,
              activeListed := true } := by
      unfold newSegmentAt; rw [hc, hs]
    obtain ⟨l1, h1, h2, h3⟩ := ih
      { Dir := dir1, Config := c, sealed := l.segments, activeSegment := s, activeListed := true }
      (fun e he => hd e (hsub e he)) rfl rfl
    refine ⟨l1, ?_, ?_, h3⟩
    · simp only [New.loop, hstep]; exact h1
    · rw [h2]; simp [Log.segments, hb]

theorem newLoop_none (dir : Directory) (c : Config)
    (hidx : ∀ b f, (indexName b, f) ∈ dir → f.length ≤ c.MaxIndexBytes) (b : Nat)
    (bs : List Nat) :
    ∃ l1, New.loop dir c none (b :: bs) = .ok (some l1) ∧
      l1.segments.map Segment.BaseOffset = b :: bs ∧ l1.activeListed = true := by
  obtain ⟨s, dir1, hs, hb, hsub⟩ := segmentOpen_ok dir b c (fun f hf => hidx b f hf)
  have hstep : newSegmentAt dir c [] b =
      .ok { Dir := dir1, Config := c, sealed := [], activeSegment := s, activeListed := true } := by
    unfold newSegmentAt; rw [hs]
  obtain ⟨l1, h1, h2, h3⟩ := newLoop_some dir dir c hidx bs
    { Dir := dir1, Config := c, sealed := [], activeSegment := s, activeListed := true }
    hsub rfl rfl
  refine ⟨l1, ?_, ?_, h3⟩
  · simp only [New.loop, hstep]; exact h1
  · rw [h2]; simp [Log.segments, hb]

theorem listing_stems (bs : List Nat) (h64 : ∀ b ∈ bs, b < 2 ^ 64) :
    (listing bs).map (fun n => ParseUint (TrimSuffix n (pathExt n))) = dupEach bs := by
  induction bs with
  | nil => rfl
  | cons b bs ih =>
    have hb := h64 b (List.mem_cons_self _ _)
    simp only [listing, List.map_cons, List.flatten_cons, List.cons_append, List.nil_append,
      dupEach, stem_storeName b hb, stem_indexName b hb]
    congr 2
    exact ih (fun x hx => h64 x (List.mem_cons_of_mem _ hx))

theorem dupEach_perm_append (bs : List Nat) : (dupEach bs).Perm (bs ++ bs) := by
  induction bs with
  | nil => exact List.Perm.refl _
  | cons b bs ih =>
    simp only [dupEach, List.cons_append]
    exact ((ih.cons b).trans List.perm_middle.symm).cons b

theorem perm_dupEach {as bs : List Nat} (h : as.Perm bs) : (dupEach as).Perm (dupEach bs) :=
  (dupEach_perm_append as).trans ((h.append h).trans (dupEach_perm_append bs).symm)

theorem baseOffsets_listing (dir : Directory) (bs : List Nat) (hnodup : bs.Nodup)
    (h64 : ∀ b ∈ bs, b < 2 ^ 64) (hnames : (dir.map Prod.fst).Perm (listing bs)) :
    everyOther (baseOffsets dir) = bs.insertionSort (fun a b => a ≤ b) ∧
    (bs.insertionSort (fun a b => a ≤ b)).Pairwise (fun a b => a < b) := by
  have hperm : (bs.insertionSort (fun a b => a ≤ b)).Perm bs := List.perm_insertionSort _ bs
  have hsorted : (bs.insertionSort (fun a b => a ≤ b)).Sorted (fun a b => a ≤ b) :=
    List.sorted_insertionSort _ bs
  have hlt : (bs.insertionSort (fun a b => a ≤ b)).Pairwise (fun a b => a < b) := by
    have hnd : (bs.insertionSort (fun a b => a ≤ b)).Nodup := hperm.nodup_iff.mpr hnodup
    exact (List.Pairwise.and hsorted hnd).imp (fun h => lt_of_le_of_ne h.1 h.2)
  refine ⟨?_, hlt⟩
  have hstems : (dir.map (fun e => ParseUint (TrimSuffix e.1 (pathExt e.1)))).Perm
      (dupEach (bs.insertionSort (fun a b => a ≤ b))) := by
    have : dir.map (fun e => ParseUint (TrimSuffix e.1 (pathExt e.1)))
        = (dir.map Prod.fst).map (fun n => ParseUint (TrimSuffix n (pathExt n))) := by
      rw [List.map_map]; rfl
    rw [this]
    refine (hnames.map _).trans ?_
    rw [listing_stems bs h64]
    exact perm_dupEach hperm.symm
  have heq : baseOffsets dir = dupEach (bs.insertionSort (fun a b => a ≤ b)) :=
    List.eq_of_perm_of_sorted ((List.perm_insertionSort _ _).trans hstems)
      (List.sorted_insertionSort _ _) (sorted_dupEach _ hlt)
  rw [heq, everyOther_dupEach]

/-- C14 (amended): on a directory that holds, for each base offset of a list without
repetition, exactly the two files `b.store` and `b.index` (in any order), `New`
returns a log with one segment for each base offset, in strictly ascending order of
the base offsets, and the last of them, the one with the largest base offset, is the
active segment; on an empty directory the log has the single empty segment at
`InitialOffset`.  The base offsets are `uint64` values and no index file is longer
than `MaxIndexBytes`. -/
theorem new_opens_one_segment_per_base (dir : Directory) (cfg : Config) (bs : List Nat)
    (hnodup : bs.Nodup) (h64 : ∀ b ∈ bs, b < 2 ^ 64)
    (hnames : (dir.map Prod.fst).Perm (listing bs))
    (hidx : ∀ e ∈ dir, pathExt e.1 = ".index".toList →
      e.2.length ≤ cfg.withDefaults.MaxIndexBytes) :
    ∃ l, Log.New dir cfg = .ok l ∧ l.segments.getLast? = some l.activeSegment ∧
      (bs = [] → l.segments.map Segment.bounds = [(cfg.InitialOffset, cfg.InitialOffset)]) ∧
      (bs ≠ [] → l.segments.map Segment.BaseOffset = bs.insertionSort (fun a b => a ≤ b)) ∧
      (bs ≠ [] → (l.segments.map Segment.BaseOffset).Perm bs ∧
        (l.segments.map Segment.BaseOffset).Pairwise (fun a b => a < b)) := by
  by_cases hbs : bs = []
  · subst hbs
    have hdir : dir = [] := by
      have := hnames.length_eq
      simpa [listing] using this
    subst hdir
    refine ⟨Log.empty cfg, New_empty cfg, by simp [Log.empty, Log.segments], fun _ => ?_,
      fun h => absurd rfl h, fun h => absurd rfl h⟩
    simp [Log.empty, Log.segments, Segment.bounds, Segment.fresh, withDefaults_InitialOffset]
  · obtain ⟨hev, hlt⟩ := baseOffsets_listing dir bs hnodup h64 hnames
    have hperm : (bs.insertionSort (fun a b => a ≤ b)).Perm bs := List.perm_insertionSort _ bs
    cases hS : bs.insertionSort (fun a b => a ≤ b) with
    | nil =>
      rw [hS] at hperm
      exact absurd (List.Perm.nil_eq hperm) (fun h => hbs h.symm)
    | cons b rest =>
      obtain ⟨l1, h1, h2, h3⟩ := newLoop_none dir cfg.withDefaults
        (fun x f hf => hidx _ hf (pathExt_indexName x)) b rest
      refine ⟨l1, ?_, ?_, fun h => absurd h hbs, fun _ => h2, fun _ => ?_⟩
      · unfold Log.New
        simp only [hev, hS, h1]
      · simp [Log.segments, h3]
      · rw [h2, ← hS]
        exact ⟨hperm, hlt⟩

set_option maxRecDepth 100000 in
/-- Witness for C14: the directory lists the files of the base offsets 10 and 3 by
name; the index of 3 holds one entry.  `New` opens the segments `[3, 4)` and
`[10, 10)` in this order and the second is the active one. -/
theorem new_opens_one_segment_per_base_witness :
    ((Log.New? [(indexName 10, []), (storeName 10, []),
                (indexName 3, [0, 0, 0, 0, 0, 0, 0, 0, 0, 0, 0, 0]), (storeName 3, [])]
        ⟨1024, 1024, 0⟩).map (fun l => l.segments.map Segment.BaseOffset) = some [3, 10]) ∧
    ((Log.New? [(indexName 10, []), (storeName 10, []),
                (indexName 3, [0, 0, 0, 0, 0, 0, 0, 0, 0, 0, 0, 0]), (storeName 3, [])]
        ⟨1024, 1024, 0⟩).map
          (fun l => (l.segments.map Segment.bounds, l.activeSegment.bounds))
      = some ([(3, 4), (10, 10)], (10, 10))) :=
  ⟨match new_opens_one_segment_per_base
      [(indexName 10, []), (storeName 10, []),
       (indexName 3, [0, 0, 0, 0, 0, 0, 0, 0, 0, 0, 0, 0]), (storeName 3, [])]
      ⟨1024, 1024, 0⟩ [10, 3] (by decide) (by decide) (by decide) (by decide) with
    | ⟨_, e1, _, _, e2, _⟩ => by
      simp only [Log.New?, e1, Option.map_some', e2 (by decide)]
      rfl,
   by rfl⟩

theorem roomInv_empty (cfg : Config) (hpos : 0 < cfg.MaxIndexBytes)
    (hmul : cfg.MaxIndexBytes % 12 = 0) : RoomInv cfg.withDefaults (Log.empty cfg) := by
  have hM := withDefaults_MaxIndexBytes cfg (by omega)
  refine ⟨⟨rfl, rfl⟩, rfl, rfl, ?_, ?_, ?_⟩
  · simp [Log.empty, Segment.fresh, Index.New]
  · simp [Log.empty, Segment.fresh, Index.New]
  · show 0 + 12 ≤ _
    rw [hM]; omega

theorem roomInv_append_ne_eof (cd : Codec) {cfg : Config} {l : Log} (h : RoomInv cfg l)
    (r : Record) : (l.Append cd r).2.2 = none ∨ (l.Append cd r).2.2 = some Err.Marshal := by
  obtain ⟨⟨hl, hd⟩, _, _, hlen, _, hroom⟩ := h
  rw [logAppend_shape cd l r hl hd]
  rcases segAppend_cases cd l.activeSegment r with ⟨_, e⟩ | ⟨p, _, hfull, _⟩ | ⟨p, _, _, e⟩
  · rw [e]; simp
  · rw [entWidth_eq] at hfull; omega
  · rw [e]
    simp only [ne_eq, not_true_eq_false, if_false]
    split_ifs <;> simp

theorem roomInv_append (cd : Codec) {cfg : Config} {l : Log} (h : RoomInv cfg l)
    (hpos : 0 < cfg.MaxIndexBytes) (hmul : cfg.MaxIndexBytes % 12 = 0) (r : Record) :
    RoomInv cfg (l.Append cd r).1 := by
  obtain ⟨⟨hl, hd⟩, hc, hsc, hlen, hmod, hroom⟩ := h
  rw [logAppend_shape cd l r hl hd]
  rcases segAppend_cases cd l.activeSegment r with ⟨_, e⟩ | ⟨p, _, hfull, _⟩ | ⟨p, _, hr, e⟩
  · rw [e]
    simp only [ne_eq, not_false_eq_true, if_true, reduceCtorEq]
    exact ⟨⟨hl, hd⟩, hc, hsc, hlen, hmod, hroom⟩
  · rw [entWidth_eq] at hfull; omega
  · rw [e]
    simp only [ne_eq, not_true_eq_false, if_false]
    have hw := indexWrite_ok l.activeSegment.index
      (((l.activeSegment.NextOffset + 2 ^ 64 - l.activeSegment.BaseOffset) % 2 ^ 64) % 2 ^ 32)
      l.activeSegment.Store.Size hr
    have hwl := indexWrite_length l.activeSegment.index
      (((l.activeSegment.NextOffset + 2 ^ 64 - l.activeSegment.BaseOffset) % 2 ^ 64) % 2 ^ 32)
      l.activeSegment.Store.Size
    split_ifs with hm
    · refine ⟨⟨rfl, rfl⟩, hc, ?_, ?_, ?_, ?_⟩
      · show (Segment.fresh _ l.Config).config = cfg
        exact hc
      · show (Segment.fresh _ l.Config).index.mmap.length = _
        simp [Segment.fresh, Index.New, hc]
      · simp [Segment.fresh, Index.New]
      · show 0 + 12 ≤ _
        omega
    · simp only [Segment.IsMaxed, Bool.or_eq_true, decide_eq_true_eq, not_or, not_le, ge_iff_le]
        at hm
      have hm2 : l.activeSegment.index.Size + entWidth < cfg.MaxIndexBytes := by
        have := hm.2
        rw [hw] at this
        simpa [hsc] using this
      rw [entWidth_eq] at hm2
      refine ⟨⟨hl, hd⟩, hc, hsc, ?_, ?_, ?_⟩
      · show (l.activeSegment.index.Write _ _).1.mmap.length = _
        rw [hwl, hlen]
      · show (l.activeSegment.index.Write _ _).1.Size % 12 = 0
        rw [hw]; show (l.activeSegment.index.Size + entWidth) % 12 = 0
        rw [entWidth_eq]; omega
      · show (l.activeSegment.index.Write _ _).1.Size + 12 ≤ _
        rw [hw]; show (l.activeSegment.index.Size + entWidth) + 12 ≤ _
        rw [entWidth_eq]; omega

theorem roomInv_read (cd : Codec) {cfg : Config} {l : Log} (h : RoomInv cfg l) (k : Nat) :
    RoomInv cfg (l.Read cd k).1 := by
  obtain ⟨⟨hl, hd⟩, hc, hsc, hlen, hmod, hroom⟩ := h
  obtain ⟨_, ha, hl2, hd2, hc2⟩ := logRead_struct cd l k
  refine ⟨⟨by rw [hl2]; exact hl, by rw [hd2]; exact hd⟩, by rw [hc2]; exact hc, ?_⟩
  rcases ha with e | e <;> rw [e] <;> exact ⟨hsc, hlen, hmod, hroom⟩

theorem roomInv_run (cd : Codec) {cfg : Config} (hpos : 0 < cfg.MaxIndexBytes)
    (hmul : cfg.MaxIndexBytes % 12 = 0) (ops : List Op) :
    ∀ l : Log, RoomInv cfg l → RoomInv cfg (l.run cd ops).1 := by
  induction ops with
  | nil => intro l h; exact h
  | cons op ops ih =>
    intro l h
    rw [run_cons]
    refine ih _ ?_
    cases op with
    | append r => exact roomInv_append cd h hpos hmul r
    | read k => exact roomInv_read cd h k

/-- C21: when `MaxIndexBytes` is a positive multiple of 12, in every state the log of
an empty directory reaches by appends (and reads) the index of the active segment has
room for one more entry, `Size + 12 <= MaxIndexBytes`, which is the length of its
mapping, and so an `Append` in that state does not fail with the `io.EOF` of
`Index.Write`: it succeeds or fails in `proto.Marshal`. -/
theorem index_never_full (cd : Codec) (cfg : Config) (hpos : 0 < cfg.MaxIndexBytes)
    (hmul : cfg.MaxIndexBytes % 12 = 0) (ops : List Op) (r : Record) :
    ((Log.empty cfg).run cd ops).1.activeSegment.index.Size + 12 ≤ cfg.MaxIndexBytes ∧
    ((Log.empty cfg).run cd ops).1.activeSegment.index.mmap.length = cfg.MaxIndexBytes ∧
    (((Log.empty cfg).run cd ops).1.Append cd r).2.2 ≠ some Err.EOF ∧
    ((((Log.empty cfg).run cd ops).1.Append cd r).2.2 = none ∨
      (((Log.empty cfg).run cd ops).1.Append cd r).2.2 = some Err.Marshal) := by
  have hM := withDefaults_MaxIndexBytes cfg (by omega)
  have hinv := roomInv_run cd (by rw [hM]; exact hpos) (by rw [hM]; exact hmul) ops _
    (roomInv_empty cfg hpos hmul)
  have hne := roomInv_append_ne_eof cd hinv r
  obtain ⟨_, _, _, hlen, _, hroom⟩ := hinv
  rw [hM] at hlen hroom
  refine ⟨hroom, hlen, ?_, hne⟩
  rcases hne with e | e <;> rw [e] <;> simp

set_option maxRecDepth 100000 in
/-- Witness for C21: with an index of 24 bytes (two entries) and five appends the
active segment holds one entry, and the sixth append succeeds at offset 5. -/
theorem index_never_full_witness :
    Log.New [] ⟨1024, 24, 0⟩ = .ok (Log.empty ⟨1024, 24, 0⟩) ∧
    ((Log.empty ⟨1024, 24, 0⟩).run fixedCodec (appendsUpTo 5)).1.activeSegment.index.Size = 12 ∧
    (((Log.empty ⟨1024, 24, 0⟩).run fixedCodec (appendsUpTo 5)).1.Append fixedCodec
        ⟨[9], 0⟩).2 = (5, none) ∧
    (((Log.empty ⟨1024, 24, 0⟩).run fixedCodec (appendsUpTo 5)).1.Append fixedCodec
        ⟨[9], 0⟩).2.2 ≠ some Err.EOF :=
  ⟨New_empty _, by rfl, by rfl,
    (index_never_full fixedCodec ⟨1024, 24, 0⟩ (by decide) (by decide) (appendsUpTo 5)
      ⟨[9], 0⟩).2.2.1⟩

set_option maxRecDepth 100000 in
/-- C22 (failing run): an index opened on an empty file with a mapping of 1024 bytes
holds one entry, `(0, 7)`, so `Size` is 12.  `Read(1)` asks for the bytes `[12, 24)`,
which were never written, and it does not return `io.EOF`: the test `pos > Size`
lets the position `Size` itself through and the zero bytes of the mapping are decoded
as the entry `(0, 0)`.  Only `Read(2)` returns `io.EOF`.  With a mapping of 12 bytes
the same call slices beyond the mapping and panics.  Through `Segment.Read` the
offset just beyond the last record is answered with the first record. -/
theorem index_read_past_end :
    ((Index.New [] ⟨0, 1024, 0⟩).Write 0 7).1.Size = 12 ∧
    ((Index.New [] ⟨0, 1024, 0⟩).Write 0 7).1.Read 0 = .ok (0, 7) ∧
    ((Index.New [] ⟨0, 1024, 0⟩).Write 0 7).1.Read 1 = .ok (0, 0) ∧
    ((Index.New [] ⟨0, 1024, 0⟩).Write 0 7).1.Read 2 = .error Err.EOF ∧
    ((Index.New [] ⟨0, 12, 0⟩).Write 0 7).1.Read 1 = .error Err.Panic ∧
    ((Segment.fresh 0 ⟨1024, 1024, 0⟩).Append fixedCodec ⟨[1, 2, 3], 0⟩).1.NextOffset = 1 ∧
    (((Segment.fresh 0 ⟨1024, 1024, 0⟩).Append fixedCodec ⟨[1, 2, 3], 0⟩).1.Read fixedCodec 1).2
      = .ok ⟨[1, 2, 3], 0⟩ :=
  ⟨by rfl, by rfl, by rfl, by rfl, by rfl, by rfl, by rfl⟩

theorem appendAll_cons (cd : Codec) (s : Segment) (r : Record) (rs : List Record) :
    s.appendAll cd (r :: rs) =
      (((s.Append cd r).1.appendAll cd rs).1,
        (s.Append cd r).2 :: ((s.Append cd r).1.appendAll cd rs).2) := rfl

theorem appendAll_Size_le (cd : Codec) (rs : List Record) :
    ∀ s : Segment, s.Store.Size ≤ (s.appendAll cd rs).1.Store.Size := by
  induction rs with
  | nil => intro s; exact le_refl _
  | cons r rs ih =>
    intro s
    rw [appendAll_cons]
    exact le_trans (segAppend_Size_le cd s r) (ih _)

theorem segAppend_failed (cd : Codec) (s : Segment) (r : Record)
    (h : (s.Append cd r).2.2 ≠ none) :
    (s.Append cd r).1.NextOffset = s.NextOffset ∧ (s.Append cd r).1.index = s.index ∧
      (s.Append cd r).1.BaseOffset = s.BaseOffset := by
  rcases segAppend_cases cd s r with ⟨_, e⟩ | ⟨p, _, _, e⟩ | ⟨p, _, _, e⟩
  · rw [e]; exact ⟨rfl, rfl, rfl⟩
  · rw [e]; exact ⟨rfl, rfl, rfl⟩
  · rw [e] at h; simp at h

theorem segInv_failed {cd : Codec} {val : Nat → Option (List Byte)} {s : Segment}
    (h : SegInv cd val s) (r : Record) (he : (s.Append cd r).2.2 ≠ none) :
    SegInv cd val (s.Append cd r).1 := by
  rcases segAppend_cases cd s r with ⟨_, e⟩ | ⟨p, _, _, e⟩ | ⟨p, _, _, e⟩
  · rw [e]; exact h
  · rw [e]; exact segInv_storeAppend h p
  · rw [e] at he; simp at he

theorem segInv_succeeded {cd : Codec} (hl : cd.Lawful) {val : Nat → Option (List Byte)}
    {s : Segment} (h : SegInv cd val s) (r : Record) (he : (s.Append cd r).2.2 = none)
    (hn : s.NextOffset + 1 < 2 ^ 64) (hsize : s.Store.Size < 2 ^ 64)
    (hnew : val s.NextOffset = some r.Value) :
    SegInv cd val (s.Append cd r).1 ∧ (s.Append cd r).1.NextOffset = s.NextOffset + 1 ∧
      (s.Append cd r).1.BaseOffset = s.BaseOffset := by
  rcases segAppend_cases cd s r with ⟨_, e⟩ | ⟨p, _, _, e⟩ | ⟨p, hp, hroom, e⟩
  · rw [e] at he; simp at he
  · rw [e] at he; simp at he
  · rw [e]
    refine ⟨segInv_appended hl h r hp hroom hn hsize hnew, ?_, rfl⟩
    show (s.NextOffset + 1) % 2 ^ 64 = _
    exact Nat.mod_eq_of_lt hn

theorem segInv_any_fresh (cd : Codec) (val : Nat → Option (List Byte)) (b : Nat) (c : Config)
    (hidx : c.MaxIndexBytes ≤ 2 ^ 32 * 12) : SegInv cd val (Segment.fresh b c) := by
  refine ⟨rfl, le_refl _, ?_, ?_, ?_, ?_⟩
  · simp [Segment.fresh, Index.New]
  · simp [Segment.fresh, Index.New]
  · simp [Segment.fresh, Index.New, entWidth_eq]; exact hidx
  · intro k h1 h2
    simp only [Segment.fresh] at h1 h2
    omega

theorem accepted_cons_none (r : Record) (rs : List Record) (x : Nat × Option Err)
    (es : List (Nat × Option Err)) (h : x.2 = none) :
    accepted (r :: rs) (x :: es) = r.Value :: accepted rs es := by
  obtain ⟨o, e⟩ := x
  cases e with
  | none => rfl
  | some e => simp at h

theorem accepted_cons_some (r : Record) (rs : List Record) (x : Nat × Option Err)
    (es : List (Nat × Option Err)) (h : x.2 ≠ none) :
    accepted (r :: rs) (x :: es) = accepted rs es := by
  obtain ⟨o, e⟩ := x
  cases e with
  | none => simp at h
  | some e => rfl

theorem appendAll_inv {cd : Codec} (hl : cd.Lawful) (base : Nat) (rs : List Record) :
    ∀ (s : Segment) (hist : List (List Byte)),
      SegInv cd (valAt base hist) s → s.BaseOffset = base →
      s.NextOffset = base + hist.length → base + hist.length + rs.length < 2 ^ 64 →
      (s.appendAll cd rs).1.Store.Size < 2 ^ 64 →
      SegInv cd (valAt base (hist ++ accepted rs (s.appendAll cd rs).2)) (s.appendAll cd rs).1 ∧
      (s.appendAll cd rs).1.BaseOffset = base ∧
      (s.appendAll cd rs).1.NextOffset
        = base + (hist ++ accepted rs (s.appendAll cd rs).2).length := by
  induction rs with
  | nil =>
    intro s hist h hb hn _ _
    simpa [Segment.appendAll, accepted] using ⟨h, hb, hn⟩
  | cons r rs ih =>
    intro s hist h hb hn hoff hsize
    rw [appendAll_cons] at hsize ⊢
    simp only [List.length_cons] at hoff
    have hs0 : s.Store.Size < 2 ^ 64 :=
      lt_of_le_of_lt (le_trans (segAppend_Size_le cd s r) (appendAll_Size_le cd rs _)) hsize
    cases he : (s.Append cd r).2.2 with
    | some e =>
      have hne : (s.Append cd r).2.2 ≠ none := by rw [he]; simp
      obtain ⟨f1, _, f3⟩ := segAppend_failed cd s r hne
      have := ih (s.Append cd r).1 hist (segInv_failed h r hne) (by rw [f3, hb])
        (by rw [f1, hn]) (by omega) hsize
      have hacc := accepted_cons_some r rs (s.Append cd r).2
        ((s.Append cd r).1.appendAll cd rs).2 hne
      rw [hacc]
      exact this
    | none =>
      have hval : valAt base (hist ++ [r.Value]) s.NextOffset = some r.Value := by
        rw [hn]; exact valAt_new base hist r.Value
      obtain ⟨g1, g2, g3⟩ := segInv_succeeded hl
        (segInv_mono h (fun k w hk => valAt_append base hist r.Value k w hk)) r he
        (by omega) hs0 hval
      have := ih (s.Append cd r).1 (hist ++ [r.Value]) g1 (by rw [g3, hb])
        (by rw [g2, hn, List.length_append]; rfl)
        (by rw [List.length_append]; simp only [List.length_singleton]; omega) hsize
      have hacc := accepted_cons_none r rs (s.Append cd r).2
        ((s.Append cd r).1.appendAll cd rs).2 he
      rw [hacc]
      simpa [List.append_assoc] using this

/-- C23 (amended): a segment is created on fresh files and any sequence of `Segment.Append`
calls is made on it, successful or not.  Then `BaseOffset <= NextOffset`, the `Size`
of the index is 12 times `NextOffset - BaseOffset`, which is the number of appends
that succeeded, and entry `i` of the index holds the relative offset `i` and a
position at which the store holds the envelope of the record appended at
`BaseOffset + i` (`Store.Read` returns it there).  An `Append` that fails, on any
segment, leaves `NextOffset` and the index as they were.  The offsets stay below
`2 ^ 64`, the index within the range of the 32-bit relative offsets, the store below
`2 ^ 64` bytes, and the envelope is lawful (shorter than `2 ^ 64` bytes, decoded to
the record it encodes). -/
theorem segment_append_invariant (cd : Codec) (hl : cd.Lawful) (c : Config) (base : Nat)
    (rs : List Record) (hidx : c.MaxIndexBytes ≤ 2 ^ 32 * 12)
    (hoff : base + rs.length < 2 ^ 64)
    (hsize : ((Segment.fresh base c).appendAll cd rs).1.Store.Size < 2 ^ 64) :
    ((Segment.fresh base c).appendAll cd rs).1.BaseOffset = base ∧
    base ≤ ((Segment.fresh base c).appendAll cd rs).1.NextOffset ∧
    ((Segment.fresh base c).appendAll cd rs).1.index.Size
      = 12 * (((Segment.fresh base c).appendAll cd rs).1.NextOffset - base) ∧
    ((Segment.fresh base c).appendAll cd rs).1.NextOffset - base
      = (accepted rs ((Segment.fresh base c).appendAll cd rs).2).length ∧
    (∀ (i : Nat) (v : List Byte),
      (accepted rs ((Segment.fresh base c).appendAll cd rs).2)[i]? = some v →
      ∃ pos p, entryAt ((Segment.fresh base c).appendAll cd rs).1.index.mmap i = (i, pos) ∧
        cd.marshal { Value := v, Offset := base + i } = some p ∧
        (((Segment.fresh base c).appendAll cd rs).1.Store.Read pos).2 = .ok p) ∧
    (∀ (s0 : Segment) (r : Record), (s0.Append cd r).2.2 ≠ none →
      (s0.Append cd r).1.NextOffset = s0.NextOffset ∧ (s0.Append cd r).1.index = s0.index) := by
  obtain ⟨hinv, hb, hn⟩ := appendAll_inv hl base rs (Segment.fresh base c) []
    (segInv_any_fresh cd _ base c hidx) rfl rfl (by simpa using hoff) hsize
  rw [List.nil_append] at hinv hn
  obtain ⟨_, _, hsz, _, _, hent⟩ := hinv
  refine ⟨hb, by omega, ?_, by omega, ?_, fun s0 r h => ?_⟩
  · rw [hsz, hb, entWidth_eq, Nat.mul_comm]
  · intro i v hi
    have hlt : i < (accepted rs ((Segment.fresh base c).appendAll cd rs).2).length := by
      by_contra hc
      rw [List.getElem?_eq_none (by omega)] at hi
      exact Option.noConfusion hi
    obtain ⟨w, pos, p, hw, he, hm, hs⟩ := hent (base + i) (by omega) (by omega)
    rw [hb, Nat.add_sub_cancel_left] at he
    have hv : w = v := by
      simp only [valAt, Nat.le_add_right, if_true, Nat.add_sub_cancel_left] at hw
      rw [hi] at hw
      exact (Option.some.inj hw).symm
    subst hv
    exact ⟨pos, p, he, hm, storeHas_read hs⟩
  · obtain ⟨f1, f2, _⟩ := segAppend_failed cd s0 r h
    exact ⟨f1, f2⟩

set_option maxRecDepth 100000 in
/-- Witness for C23: a segment at base offset 5 with an index of 24 bytes; the first
two appends succeed at the offsets 5 and 6, the third fails with `io.EOF` of the full
index.  `NextOffset` is 7, the index holds 24 bytes, and its entry 1 is `(1, 17)`,
the position of the second record in the store. -/
theorem segment_append_invariant_witness :
    Segment.Open [] 5 ⟨1024, 24, 0⟩ = .ok (Segment.fresh 5 ⟨1024, 24, 0⟩, []) ∧
    ((Segment.fresh 5 ⟨1024, 24, 0⟩).appendAll fixedCodec [⟨[1], 0⟩, ⟨[2], 0⟩, ⟨[3], 0⟩]).2
      = [(5, none), (6, none), (0, some Err.EOF)] ∧
    ((Segment.fresh 5 ⟨1024, 24, 0⟩).appendAll fixedCodec
      [⟨[1], 0⟩, ⟨[2], 0⟩, ⟨[3], 0⟩]).1.NextOffset = 7 ∧
    entryAt ((Segment.fresh 5 ⟨1024, 24, 0⟩).appendAll fixedCodec
      [⟨[1], 0⟩, ⟨[2], 0⟩, ⟨[3], 0⟩]).1.index.mmap 1 = (1, 17) ∧
    ((Segment.fresh 5 ⟨1024, 24, 0⟩).appendAll fixedCodec
      [⟨[1], 0⟩, ⟨[2], 0⟩, ⟨[3], 0⟩]).1.index.Size
      = 12 * (((Segment.fresh 5 ⟨1024, 24, 0⟩).appendAll fixedCodec
          [⟨[1], 0⟩, ⟨[2], 0⟩, ⟨[3], 0⟩]).1.NextOffset - 5) :=
  ⟨segmentOpen_empty _ _, by rfl, by rfl, by rfl,
    (segment_append_invariant fixedCodec fixedCodec_lawful ⟨1024, 24, 0⟩ 5
      [⟨[1], 0⟩, ⟨[2], 0⟩, ⟨[3], 0⟩] (by decide) (by decide) (by decide)).2.2.1⟩

set_option maxRecDepth 100000 in
/-- C1 (counterexample): with `InitialOffset = 2 ^ 64 - 1` the first append returns the
offset `2 ^ 64 - 1` without error, `NextOffset++` wraps to 0, the segment covers no
offset any more, and `Read(2 ^ 64 - 1)` fails with `ErrOffsetOutOfRange`. -/
theorem append_then_read_wrap_counterexample :
    Log.New [] ⟨1024, 1024, 18446744073709551615⟩
      = .ok (Log.empty ⟨1024, 1024, 18446744073709551615⟩) ∧
    ((Log.empty ⟨1024, 1024, 18446744073709551615⟩).Append fixedCodec ⟨[1], 0⟩).2
      = (18446744073709551615, none) ∧
    ((Log.empty ⟨1024, 1024, 18446744073709551615⟩).Append fixedCodec ⟨[1], 0⟩).1.segments.map
        Segment.bounds = [(18446744073709551615, 0)] ∧
    (((Log.empty ⟨1024, 1024, 18446744073709551615⟩).Append fixedCodec ⟨[1], 0⟩).1.Read
        fixedCodec 18446744073709551615).2
      = .error (Err.ErrOffsetOutOfRange 18446744073709551615) :=
  ⟨New_empty _, by rfl, by rfl, by rfl⟩

set_option maxRecDepth 100000 in
/-- C4 (counterexample): with `InitialOffset = 2 ^ 64 - 1` and an index of one entry,
one append fills the first segment and rolls over to a segment at the wrapped base
offset 0: the log lists the base offsets `2 ^ 64 - 1`, `0` and `LowestOffset` is
`2 ^ 64 - 1`.  After `Close`, `New` sorts the base offsets it finds, lists `0` first,
and `LowestOffset` is 0. -/
theorem reopen_wrap_counterexample :
    ((Log.empty ⟨1024, 12, 18446744073709551615⟩).Append fixedCodec ⟨[1], 0⟩).2
      = (18446744073709551615, none) ∧
    ((Log.empty ⟨1024, 12, 18446744073709551615⟩).Append fixedCodec ⟨[1], 0⟩).1.segments.map
        Segment.bounds = [(18446744073709551615, 0), (0, 0)] ∧
    ((Log.empty ⟨1024, 12, 18446744073709551615⟩).Append fixedCodec ⟨[1], 0⟩).1.LowestOffset
      = .ok 18446744073709551615 ∧
    (Log.New? ((Log.empty ⟨1024, 12, 18446744073709551615⟩).Append fixedCodec ⟨[1], 0⟩).1.Close
        ⟨1024, 12, 18446744073709551615⟩).map
          (fun l2 => (l2.segments.map Segment.bounds, l2.LowestOffset))
      = some ([(0, 0), (18446744073709551615, 0)], .ok 0) :=
  ⟨by rfl, by rfl, by rfl, by rfl⟩

set_option maxRecDepth 100000 in
/-- C6 (counterexample): three appends with an index of two entries leave the segments
`[0, 2)` and `[2, 3)`.  `Truncate(2 ^ 64 - 1)` computes `lowest + 1` in `uint64`,
which is 0, and removes no segment, although the `NextOffset` of every segment is at
most `2 ^ 64`, the number `L + 1`. -/
theorem truncate_max_counterexample :
    ((Log.empty ⟨1024, 24, 0⟩).run fixedCodec (appendsUpTo 3)).1.segments.map Segment.bounds
      = [(0, 2), (2, 3)] ∧
    (∀ s ∈ ((Log.empty ⟨1024, 24, 0⟩).run fixedCodec (appendsUpTo 3)).1.segments,
      s.NextOffset ≤ 18446744073709551615 + 1) ∧
    (((Log.empty ⟨1024, 24, 0⟩).run fixedCodec (appendsUpTo 3)).1.Truncate
        18446744073709551615).segments.map Segment.bounds = [(0, 2), (2, 3)] :=
  ⟨by rfl, by decide, by rfl⟩

set_option maxRecDepth 100000 in
/-- C10 (counterexample): with `InitialOffset = 2 ^ 64 - 1` the first append returns
`2 ^ 64 - 1` without error; `NextOffset` has wrapped to 0 and `HighestOffset` returns
0, not the offset of the append. -/
theorem highest_offset_wrap_counterexample :
    ((Log.empty ⟨1024, 1024, 18446744073709551615⟩).Append fixedCodec ⟨[1], 0⟩).2
      = (18446744073709551615, none) ∧
    ((Log.empty ⟨1024, 1024, 18446744073709551615⟩).Append fixedCodec ⟨[1], 0⟩).1.HighestOffset
      = .ok 0 :=
  ⟨by rfl, by rfl⟩

set_option maxRecDepth 100000 in
/-- C14 (counterexample): the directory holds `0.store` and `0.index`, and the index
file has 24 bytes while `MaxIndexBytes` is 12.  `index.New` keeps 24 as `Size` and
maps 12 bytes; `index.Read(-1)` slices the mapping at 12 and panics, so `New` opens
no segment. -/
theorem new_long_index_counterexample :
    [(indexName 0, [0, 0, 0, 0, 0, 0, 0, 0, 0, 0, 0, 0, 0, 0, 0, 1, 0, 0, 0, 0, 0, 0, 0, 0]),
     (storeName 0, ([] : List Byte))].map Prod.fst = [indexName 0, storeName 0] ∧
    Log.New [(indexName 0, [0, 0, 0, 0, 0, 0, 0, 0, 0, 0, 0, 0, 0, 0, 0, 1, 0, 0, 0, 0, 0, 0, 0, 0]),
             (storeName 0, [])] ⟨1024, 12, 0⟩ = .error Err.Panic :=
  ⟨by rfl, by rfl⟩

set_option maxRecDepth 100000 in
/-- C20 (counterexample): with `InitialOffset = 2 ^ 64 - 1` and an index of one entry,
two appends leave the segments with the offsets `(2 ^ 64 - 1, 0)`, `(0, 1)` and
`(1, 1)`: the base offsets `2 ^ 64 - 1, 0, 1` are not ascending. -/
theorem segments_wrap_counterexample :
    ((Log.empty ⟨1024, 12, 18446744073709551615⟩).calls fixedCodec
      [.append ⟨[1], 0⟩, .append ⟨[2], 0⟩]).segments.map Segment.bounds
      = [(18446744073709551615, 0), (0, 1), (1, 1)] :=
  by rfl

set_option maxRecDepth 100000 in
/-- C23 (counterexample): a segment created on fresh files at the base offset
`2 ^ 64 - 1` takes one record at the offset `2 ^ 64 - 1`; `NextOffset++` wraps and
`NextOffset` is 0, below `BaseOffset`. -/
theorem segment_wrap_counterexample :
    Segment.Open [] 18446744073709551615 ⟨1024, 1024, 0⟩
      = .ok (Segment.fresh 18446744073709551615 ⟨1024, 1024, 0⟩, []) ∧
    ((Segment.fresh 18446744073709551615 ⟨1024, 1024, 0⟩).Append fixedCodec ⟨[1], 0⟩).2
      = (18446744073709551615, none) ∧
    ((Segment.fresh 18446744073709551615 ⟨1024, 1024, 0⟩).Append fixedCodec ⟨[1], 0⟩).1.NextOffset
      = 0 ∧
    ((Segment.fresh 18446744073709551615 ⟨1024, 1024, 0⟩).Append fixedCodec ⟨[1], 0⟩).1.BaseOffset
      = 18446744073709551615 :=
  ⟨segmentOpen_empty _ _, by rfl, by rfl, by rfl⟩

end Golog
